import Mathlib

/-!
Shallow embedding of the "Goblins vs Elves" combat simulator (day15.rs) of the
advent-of-rust-2018 repository, together with theorems settling the frozen
claims about it.

Modelling conventions:
* `usize` values become `Nat`; `overflowing_sub` is modelled explicitly.
* Units are stored behind `Rc<RefCell<Unit>>` in the source; pointer identity
  is modelled by an explicit heap `List (Nat × Unit)` mapping unit ids to unit
  state.  The grid stores `Occupied id` and the combatants registry maps
  locations to ids, mirroring the two shared handles in the source.
* `HashMap`/`HashSet` become association lists / membership lists; iteration
  order of a hash map corresponds to the order of the association list, and
  order-independence is proved where the source relies on it.
* The potentially diverging outer loops (`star_one`, `star_two`, the BFS
  `while` loop) take explicit fuel and return `Option` results.
-/

namespace Day15

/-- x, y pair, as in the source (`location.0` is x, `location.1` is y). -/
abbrev Location := Nat × Nat

/-- `reading_order` from the source: compare y first, then x. -/
def reading_order (lhs rhs : Location) : Ordering :=
  let order := compare lhs.2 rhs.2
  if order ≠ Ordering.eq then order else compare lhs.1 rhs.1

/-- The (total, transitive) "not greater" relation induced by `reading_order`;
ascending sorting by the source comparator sorts by this relation. -/
def readingLe (a b : Location) : Prop :=
  a.2 < b.2 ∨ (a.2 = b.2 ∧ a.1 ≤ b.1)

instance : DecidableRel readingLe := fun a b => by
  unfold readingLe; infer_instance

theorem nat_compare_ne_gt {x y : Nat} :
    (compare x y ≠ Ordering.gt) ↔ x ≤ y := by
  rw [Ne, Nat.compare_eq_gt, Nat.not_lt]

theorem readingLe_iff (a b : Location) :
    readingLe a b ↔ reading_order a b ≠ Ordering.gt := by
  unfold readingLe reading_order
  by_cases h : compare a.2 b.2 = Ordering.eq
  · have h2 : a.2 = b.2 := Nat.compare_eq_eq.mp h
    simp only [h, ne_eq, not_true_eq_false, if_false, nat_compare_ne_gt]
    omega
  · have h2 : a.2 ≠ b.2 := fun he => h (by rw [he]; exact Nat.compare_eq_eq.mpr rfl)
    simp only [ne_eq, h, not_false_eq_true, if_true, nat_compare_ne_gt]
    omega

instance : IsTotal Location readingLe where
  total a b := by unfold readingLe; omega

instance : IsTrans Location readingLe where
  trans a b c hab hbc := by unfold readingLe at *; omega

/-- Reading order is antisymmetric: mutually ≤ locations are equal. -/
theorem readingLe_antisymm {a b : Location} (hab : readingLe a b)
    (hba : readingLe b a) : a = b := by
  unfold readingLe at hab hba
  have h2 : a.2 = b.2 := by omega
  have h1 : a.1 = b.1 := by omega
  exact Prod.ext h1 h2

inductive UnitType where
  | Elf
  | Goblin
deriving DecidableEq, Repr

/-- A combat unit (the source's `Unit` struct). -/
structure Unit where
  unit_type : UnitType
  health : Nat
  strength : Nat
  is_dead : Bool
deriving DecidableEq, Repr

def Unit.new (t : UnitType) : Unit :=
  { unit_type := t, health := 200, strength := 3, is_dead := false }

/-- `Unit::take_damage`: `health.overflowing_sub(damage)`; overflow or a zero
result floors health at 0 and marks the unit dead; returns the died flag. -/
def take_damage (u : Unit) (damage : Nat) : Unit × Bool :=
  if damage ≤ u.health then
    let new_health := u.health - damage
    if new_health = 0 then
      ({ u with health := 0, is_dead := true }, true)
    else
      ({ u with health := new_health }, false)
  else
    ({ u with health := 0, is_dead := true }, true)

def Unit.is_alive (u : Unit) : Bool := !u.is_dead

/-- A grid cell; `Occupied` stores the id of the shared unit handle
(`Rc<RefCell<Unit>>` in the source). -/
inductive Cell where
  | Wall
  | Open
  | Occupied (id : Nat)
deriving DecidableEq, Repr

abbrev Grid := List (List Cell)

/-- `self.grid[l.1][l.0]`; out-of-bounds indexing (a panic in the source)
defaults to `Wall`, which never introduces behaviour on well-formed calls. -/
def cellAt (g : Grid) (l : Location) : Cell :=
  (g.getD l.2 []).getD l.1 Cell.Wall

def setCell (g : Grid) (l : Location) (c : Cell) : Grid :=
  g.set l.2 ((g.getD l.2 []).set l.1 c)

/-- `self.grid[0].len()`. -/
def width (g : Grid) : Nat := (g.getD 0 []).length

/-- The unit heap: unit id to current unit state (models the `Rc<RefCell<_>>`
pointees). -/
abbrev Heap := List (Nat × Unit)

def heapGet : Heap → Nat → Unit
  | [], _ => { unit_type := UnitType.Elf, health := 0, strength := 0, is_dead := true }
  | (j, u) :: t, i => if i = j then u else heapGet t i

def heapSet : Heap → Nat → Unit → Heap
  | [], _, _ => []
  | (j, u) :: t, i, v => if i = j then (j, v) :: t else (j, u) :: heapSet t i v

/-- Association-list model of the `combatants: HashMap<Location, UnitPointer>`;
list order plays the role of hash-map iteration order. -/
abbrev Registry := List (Location × Nat)

def lookupLoc : Registry → Location → Option Nat
  | [], _ => none
  | (k, i) :: t, l => if k = l then some i else lookupLoc t l

def removeLoc (m : Registry) (l : Location) : Registry :=
  m.filter (fun e => e.1 ≠ l)

def insertLoc (m : Registry) (l : Location) (i : Nat) : Registry :=
  (l, i) :: removeLoc m l

structure GameState where
  grid : Grid
  combatants : Registry
  heap : Heap
deriving DecidableEq, Repr

/-- The four probe directions, in source order: down, right, up, left. -/
def dirOffsets : List (Int × Int) := [(0, 1), (1, 0), (0, -1), (-1, 0)]

/-- `GameState::in_range`: the orthogonal neighbours of `loc`, filtered by the
source's boundary guards, keeping `Open` cells and (unless `only_open`)
`Occupied` cells. -/
def in_range (g : Grid) (loc : Location) (only_open : Bool) : List Location :=
  dirOffsets.filterMap (fun d =>
    if (loc.1 = 0 ∧ d.1 = (-1 : Int)) ∨ (loc.2 = 0 ∧ d.2 = (-1 : Int)) then
      none
    else if (loc.1 = width g - 1 ∧ d.1 = (1 : Int)) ∨
        (loc.2 = g.length - 1 ∧ d.2 = (1 : Int)) then
      none
    else
      let x := (Int.ofNat loc.1 + d.1).toNat
      let y := (Int.ofNat loc.2 + d.2).toNat
      match cellAt g (x, y) with
      | Cell.Open => some (x, y)
      | Cell.Occupied _ => if !only_open then some (x, y) else none
      | Cell.Wall => none)

/-- The sort relation of `prioritized_enemy`: lowest health first, ties broken
by reading order of location (the source comparator's "not greater"). -/
def enemyLe (σ : GameState) (a b : Location × Nat) : Prop :=
  (heapGet σ.heap a.2).health < (heapGet σ.heap b.2).health ∨
    ((heapGet σ.heap a.2).health = (heapGet σ.heap b.2).health ∧ readingLe a.1 b.1)

instance (σ : GameState) : DecidableRel (enemyLe σ) := fun a b => by
  unfold enemyLe; infer_instance

instance (σ : GameState) : IsTotal (Location × Nat) (enemyLe σ) where
  total a b := by
    simp only [enemyLe, readingLe]; omega

instance (σ : GameState) : IsTrans (Location × Nat) (enemyLe σ) where
  trans a b c hab hbc := by
    simp only [enemyLe, readingLe] at *; omega

/-- The `enemies_in_range` list of `GameState::prioritized_enemy`: adjacent
cells holding a registry entry of the opposing faction. -/
def adjacentEnemies (σ : GameState) (u : Unit) (loc : Location) :
    List (Location × Nat) :=
  (in_range σ.grid loc false).filterMap (fun p =>
    match lookupLoc σ.combatants p with
    | some oid =>
        if (heapGet σ.heap oid).unit_type ≠ u.unit_type then some (p, oid) else none
    | none => none)

/-- `GameState::prioritized_enemy`: adjacent registry entries of the opposing
faction, the one with (lowest health, then reading order) winning. -/
def prioritized_enemy (σ : GameState) (u : Unit) (loc : Location) :
    Option (Location × Nat) :=
  let enemies := adjacentEnemies σ u loc
  if enemies.isEmpty then none
  else if enemies.length = 1 then enemies.head?
  else (List.insertionSort (enemyLe σ) enemies).head?

/-- `GameState::num_combatants_alive`: fold over the registry values. -/
def num_combatants_alive (σ : GameState) (t : UnitType) : Nat :=
  σ.combatants.foldl
    (fun acc e =>
      if (heapGet σ.heap e.2).unit_type = t ∧ (heapGet σ.heap e.2).is_alive = true then
        acc + 1
      else acc) 0

/-- The opposing faction. -/
def UnitType.enemy : UnitType → UnitType
  | UnitType.Elf => UnitType.Goblin
  | UnitType.Goblin => UnitType.Elf

/-- `GameState::enemies_alive`: the source matches on the faction (Goblin
checks living elves and vice versa), i.e. counts the opposing faction. -/
def enemies_alive (σ : GameState) (u : Unit) : Prop :=
  num_combatants_alive σ u.unit_type.enemy ≠ 0

instance (σ : GameState) (u : Unit) : Decidable (enemies_alive σ u) := by
  unfold enemies_alive; infer_instance

/-- `GameState::possible_targets`: registry entries of the opposing faction,
in registry (hash-map iteration) order. -/
def possible_targets (σ : GameState) (u : Unit) : List (Location × Nat) :=
  σ.combatants.filter (fun e => (heapGet σ.heap e.2).unit_type ≠ u.unit_type)

/-- `GameState::remaining_health_for_faction`. -/
def remaining_health_for_faction (σ : GameState) (faction : UnitType) : Nat :=
  σ.combatants.foldl
    (fun acc e =>
      if (heapGet σ.heap e.2).unit_type = faction ∧ (heapGet σ.heap e.2).is_alive = true then
        acc + (heapGet σ.heap e.2).health
      else acc) 0

/-!
`GameState::cheat` clones the grid, then for each occupied cell clones the
position once more: the registry receives the clone whose elf strength is set
to `new_elf_strength`, while the grid receives a clone taken *before* that
mutation.  Fresh unit ids model the fresh `Rc` allocations: the k-th occupied
cell (row-major) yields registry id `2*k` and grid id `2*k + 1`.
-/

def cheatRow (h0 : Heap) (p : Nat) (y : Nat) :
    Nat → Nat → List Cell → List Cell × Registry × Heap × Nat
  | _, k, [] => ([], [], [], k)
  | x, k, Cell.Occupied oid :: rest =>
    let u := heapGet h0 oid
    let u2 := if u.unit_type = UnitType.Elf then { u with strength := p } else u
    let r := cheatRow h0 p y (x + 1) (k + 1) rest
    (Cell.Occupied (2 * k + 1) :: r.1, ((x, y), 2 * k) :: r.2.1,
      (2 * k, u2) :: (2 * k + 1, u) :: r.2.2.1, r.2.2.2)
  | x, k, Cell.Wall :: rest =>
    let r := cheatRow h0 p y (x + 1) k rest
    (Cell.Wall :: r.1, r.2.1, r.2.2.1, r.2.2.2)
  | x, k, Cell.Open :: rest =>
    let r := cheatRow h0 p y (x + 1) k rest
    (Cell.Open :: r.1, r.2.1, r.2.2.1, r.2.2.2)

def cheatRows (h0 : Heap) (p : Nat) :
    Nat → Nat → List (List Cell) → List (List Cell) × Registry × Heap
  | _, _, [] => ([], [], [])
  | y, k, row :: rest =>
    let r := cheatRow h0 p y 0 k row
    let r' := cheatRows h0 p (y + 1) r.2.2.2 rest
    (r.1 :: r'.1, r.2.1 ++ r'.2.1, r.2.2.1 ++ r'.2.2)

def cheat (σ : GameState) (new_elf_strength : Nat) : GameState :=
  let r := cheatRows σ.heap new_elf_strength 0 0 σ.grid
  { grid := r.1, combatants := r.2.1, heap := r.2.2 }

/-! ### Breadth-first distance computation -/

abbrev DistGrid := List (List (Option Nat))

def dgAt (dg : DistGrid) (l : Location) : Option Nat :=
  (dg.getD l.2 []).getD l.1 none

def dgSet (dg : DistGrid) (l : Location) (v : Option Nat) : DistGrid :=
  dg.set l.2 ((dg.getD l.2 []).set l.1 v)

def totalCells (g : Grid) : Nat := g.foldl (fun a r => a + r.length) 0

/-- One queue/seen update for a batch of neighbours: push unseen locations to
the queue front with the given distance (the queue list is kept back-first, so
a front push appends) and record them in the to-visit set. -/
def pushNew (visited : List Location) (d : Nat)
    (acc : List (Location × Nat) × List Location) (l : Location) :
    List (Location × Nat) × List Location :=
  if l ∉ visited ∧ l ∉ acc.2 then (acc.1 ++ [(l, d)], l :: acc.2) else acc

/-- The `while !to_visit.is_empty()` loop of `calculate_distance_grid`,
with explicit fuel.  The queue list is back-first: the head is the next
`pop_back` result. -/
def bfsLoop (g : Grid) :
    Nat → List Location → List Location → List (Location × Nat) → DistGrid → DistGrid
  | 0, _, _, _, dg => dg
  | _ + 1, _, _, [], dg => dg
  | fuel + 1, visited, tvs, (cur, d) :: qrest, dg =>
    let visited' := if cur ∈ visited then visited else cur :: visited
    match cellAt g cur with
    | Cell.Open =>
        let dg' := dgSet dg cur (some d)
        let step := (in_range g cur true).foldl (pushNew visited' (d + 1)) (qrest, tvs)
        bfsLoop g fuel visited' step.2 step.1 dg'
    | _ => bfsLoop g fuel visited' tvs qrest dg

/-- `GameState::calculate_distance_grid`.  The source's loop always
terminates; `totalCells + 5` fuel is proved sufficient below. -/
def calculate_distance_grid (σ : GameState) (src : Location) : Option DistGrid :=
  let possible_moves := List.insertionSort readingLe (in_range σ.grid src true)
  let dg0 : DistGrid :=
    List.replicate σ.grid.length (List.replicate (width σ.grid) none)
  let dg1 := dgSet dg0 src (some 0)
  let seeded := possible_moves.foldl (pushNew [src] 1) ([], [])
  some (bfsLoop σ.grid (totalCells σ.grid + 5) [src] seeded.2 seeded.1 dg1)

/-- Rank of an `Option Nat` under Rust's derived `Option` ordering:
`none` is below every `some`, and `some` values compare by content. -/
def optRank : Option Nat → Nat
  | none => 0
  | some d => d + 1

theorem optRank_lt_iff (a b : Option Nat) :
    optRank a < optRank b ↔
      (a = none ∧ ∃ d, b = some d) ∨ (∃ da db, a = some da ∧ b = some db ∧ da < db) := by
  rcases a with _ | da <;> rcases b with _ | db <;> simp [optRank]

theorem optRank_inj {a b : Option Nat} (h : optRank a = optRank b) : a = b := by
  rcases a with _ | da <;> rcases b with _ | db <;> simp [optRank] at h <;> simp [h]

/-- The sort relation of `first_move_on_shortest_path`: `Option Nat` distances
with `none` first (Rust's `Option` ordering), ties by reading order. -/
def fmLe (dg : DistGrid) (a b : Location) : Prop :=
  optRank (dgAt dg a) < optRank (dgAt dg b) ∨
    (optRank (dgAt dg a) = optRank (dgAt dg b) ∧ readingLe a b)

instance (dg : DistGrid) : DecidableRel (fmLe dg) := fun a b => by
  unfold fmLe; infer_instance

instance (dg : DistGrid) : IsTotal Location (fmLe dg) where
  total a b := by
    simp only [fmLe, readingLe]; omega

instance (dg : DistGrid) : IsTrans Location (fmLe dg) where
  trans a b c hab hbc := by
    simp only [fmLe, readingLe] at *; omega

/-- `GameState::first_move_on_shortest_path`. -/
def first_move_on_shortest_path (σ : GameState) (unit_poistion to_ : Location) :
    Option Location :=
  match calculate_distance_grid σ to_ with
  | none => none
  | some dg =>
      let possible_moves :=
        List.insertionSort (fmLe dg) (in_range σ.grid unit_poistion true)
      (possible_moves.filter (fun x => (dgAt dg x).isSome)).head?

/-! ### The turn engine -/

/-- Sort relation for the round-start snapshot: reading order of locations. -/
def snapLe (a b : Location × Nat) : Prop := readingLe a.1 b.1

instance : DecidableRel snapLe := fun a b => by unfold snapLe; infer_instance

instance : IsTotal (Location × Nat) snapLe where
  total a b := by simp only [snapLe, readingLe]; omega

instance : IsTrans (Location × Nat) snapLe where
  trans a b c hab hbc := by simp only [snapLe, readingLe] at *; omega

/-- Sort relation of `possible_targets_with_distance`: the source comparator
compares distances only. -/
def distLe (a b : Location × Nat) : Prop := a.2 ≤ b.2

instance : DecidableRel distLe := fun a b => by unfold distLe; infer_instance

instance : IsTotal (Location × Nat) distLe where
  total a b := by simp only [distLe]; omega

instance : IsTrans (Location × Nat) distLe where
  trans a b c hab hbc := by simp only [distLe] at *; omega

/-- Sort relation of `possible_first_moves`: reading order of the target
(destination) location. -/
def fmpLe (a b : Location × Location) : Prop := readingLe a.1 b.1

instance : DecidableRel fmpLe := fun a b => by unfold fmpLe; infer_instance

instance : IsTotal (Location × Location) fmpLe where
  total a b := by simp only [fmpLe, readingLe]; omega

instance : IsTrans (Location × Location) fmpLe where
  trans a b c hab hbc := by simp only [fmpLe, readingLe] at *; omega

/-- One attack (`take_damage` through the enemy handle, plus removal from
registry and grid on death), as performed twice inside `GameState::turn`. -/
def attackStep (σ : GameState) (strength : Nat) (eloc : Location) (eid : Nat) :
    GameState :=
  let r := take_damage (heapGet σ.heap eid) strength
  let σ1 := { σ with heap := heapSet σ.heap eid r.1 }
  if r.2 then
    { σ1 with
      combatants := removeLoc σ1.combatants eloc
      grid := setCell σ1.grid eloc Cell.Open }
  else σ1

/-- The movement decision of `GameState::turn` (lines 405-449): choose the
destination (enemy-adjacent open cell of minimal BFS distance from the unit,
ties by reading order) and the first step toward it, or `none` when the unit
stays put. -/
def moveDecision (σ : GameState) (loc : Location) (u : Unit) :
    Option (Location × Location) :=
  let pts := possible_targets σ u
  if pts.isEmpty then none
  else
    match calculate_distance_grid σ loc with
    | none => none
    | some dg =>
        let twd : List (Location × Nat) :=
          (pts.flatMap (fun e => in_range σ.grid e.1 true)).filterMap
            (fun tl =>
              match dgAt dg tl with
              | none => none
              | some d => some (tl, d))
        if twd.isEmpty then none
        else
          let sortedTwd := List.insertionSort distLe twd
          match sortedTwd with
          | [] => none
          | t0 :: _ =>
              let shortest := t0.2
              let fms : List (Location × Location) :=
                (sortedTwd.filter (fun p => p.2 = shortest)).filterMap
                  (fun p =>
                    (first_move_on_shortest_path σ loc p.1).map (fun m => (p.1, m)))
              (List.insertionSort fmpLe fms).head?

/-- Faction-count check after all units acted (`GameState::turn`, tail). -/
def finalCount (σ : GameState) : (Bool × Option UnitType) × GameState :=
  let goblins_left := num_combatants_alive σ UnitType.Goblin
  let elves_left := num_combatants_alive σ UnitType.Elf
  if goblins_left = 0 ∨ elves_left = 0 then
    if goblins_left = 0 then ((true, some UnitType.Elf), σ)
    else ((true, some UnitType.Goblin), σ)
  else ((true, none), σ)

/-- The move mutation of `GameState::turn`: delete the old location from
registry and grid, then install the unit at the new location in both. -/
def applyMove (σ : GameState) (loc newLoc : Location) (uid : Nat) : GameState :=
  let σ1 :=
    { σ with
      combatants := removeLoc σ.combatants loc
      grid := setCell σ.grid loc Cell.Open }
  { σ1 with
    grid := setCell σ1.grid newLoc (Cell.Occupied uid)
    combatants := insertLoc σ1.combatants newLoc uid }

/-- Per-unit processing of the round-start snapshot (`GameState::turn` body). -/
def turnGo : List (Location × Nat) → GameState → (Bool × Option UnitType) × GameState
  | [], σ => finalCount σ
  | (loc, uid) :: rest, σ =>
    let u := heapGet σ.heap uid
    if ¬ enemies_alive σ u then ((false, some u.unit_type), σ)
    else if u.is_dead then turnGo rest σ
    else
      match prioritized_enemy σ u loc with
      | some e => turnGo rest (attackStep σ u.strength e.1 e.2)
      | none =>
          match moveDecision σ loc u with
          | none => turnGo rest σ
          | some mv =>
              let σ2 := applyMove σ loc mv.2 uid
              let u2 := heapGet σ2.heap uid
              match prioritized_enemy σ2 u2 mv.2 with
              | some ne => turnGo rest (attackStep σ2 u2.strength ne.1 ne.2)
              | none => turnGo rest σ2

/-- `GameState::turn`. -/
def turn (σ : GameState) : (Bool × Option UnitType) × GameState :=
  turnGo (List.insertionSort snapLe σ.combatants) σ

/-! ### Outcome drivers -/

/-- The `iter::repeat` loop of `star_one`: run turns until one returns a
winning faction; yields `(id, full_turn flag, faction, state)` of the first
turn whose result is `some`.  Fuel bounds the number of turns (the source
loop can run forever on stalemate inputs). -/
def starOneLoop : Nat → Nat → GameState → Option (Nat × Bool × UnitType × GameState)
  | 0, _, _ => none
  | fuel + 1, id, σ =>
    let r := turn σ
    match r.1.2 with
    | some f => some (id, r.1.1, f, r.2)
    | none => starOneLoop fuel (id + 1) r.2

/-- The inner trial loop of `star_two`: like `starOneLoop` but aborting with a
Goblin result as soon as a turn ends with fewer living elves than at the
start, and counting the ending turn when it was a full turn. -/
def starTwoTrial : Nat → Nat → Nat → GameState → Option (Nat × UnitType × GameState)
  | 0, _, _, _ => none
  | fuel + 1, id, initElves, σ =>
    let r := turn σ
    if num_combatants_alive r.2 UnitType.Elf < initElves then
      some (id, UnitType.Goblin, r.2)
    else
      match r.1.2 with
      | some f => some (if r.1.1 then id + 1 else id, f, r.2)
      | none => starTwoTrial fuel (id + 1) initElves r.2

/-- The outer strength search of `star_two`: strengths `4 + k` for
`k = 0, 1, 2, ...`, each trial restarting from `cheat` of the initial state,
skipping trials whose winning faction is Goblin. -/
def starTwoLoop (innerFuel initElves : Nat) (σ0 : GameState) :
    Nat → Nat → Option (Nat × UnitType × GameState)
  | 0, _ => none
  | fuel + 1, k =>
    match starTwoTrial innerFuel 0 initElves (cheat σ0 (4 + k)) with
    | none => none
    | some r =>
        if r.2.1 = UnitType.Goblin then starTwoLoop innerFuel initElves σ0 fuel (k + 1)
        else some r

/-! ### Parsing -/

/-- `Position::parse` outcome: the glyph class (a fresh unit is allocated for
`G`/`E` by the caller). -/
inductive ParsedPos where
  | wall
  | openP
  | unit (t : UnitType)
deriving DecidableEq, Repr

def parseChar (c : Char) : Option ParsedPos :=
  if c = '#' then some ParsedPos.wall
  else if c = '.' then some ParsedPos.openP
  else if c = 'G' then some (ParsedPos.unit UnitType.Goblin)
  else if c = 'E' then some (ParsedPos.unit UnitType.Elf)
  else none

/-- Parse one row; `x` is the column index, `nid` the next fresh unit id. -/
def parseRow (y : Nat) :
    Nat → Nat → List Char → Option (List Cell × Registry × Heap × Nat)
  | _, nid, [] => some ([], [], [], nid)
  | x, nid, c :: rest =>
    match parseChar c with
    | none => none
    | some ParsedPos.wall =>
        (parseRow y (x + 1) nid rest).map fun r => (Cell.Wall :: r.1, r.2)
    | some ParsedPos.openP =>
        (parseRow y (x + 1) nid rest).map fun r => (Cell.Open :: r.1, r.2)
    | some (ParsedPos.unit t) =>
        (parseRow y (x + 1) (nid + 1) rest).map fun r =>
          (Cell.Occupied nid :: r.1, ((x, y), nid) :: r.2.1,
            (nid, Unit.new t) :: r.2.2.1, r.2.2.2)

def parseRows : Nat → Nat → List (List Char) → Option (Grid × Registry × Heap)
  | _, _, [] => some ([], [], [])
  | y, nid, row :: rest =>
    match parseRow y 0 nid row with
    | none => none
    | some r =>
        (parseRows (y + 1) r.2.2.2 rest).map fun r' =>
          (r.1 :: r'.1, r.2.1 ++ r'.2.1, r.2.2.1 ++ r'.2.2)

/-- Split a character list at newline characters (Rust's `str::lines`; the
`\r` of a `\r\n` ending survives here and is removed by the subsequent trim,
matching the composition `lines().map(trim)` of the source). -/
def splitNewlines : List Char → List (List Char)
  | [] => [[]]
  | c :: rest =>
    let r := splitNewlines rest
    if c = '\n' then [] :: r
    else (c :: r.headD []) :: r.tail

/-- `str::trim`: drop leading and trailing whitespace. -/
def trimChars (l : List Char) : List Char :=
  ((l.dropWhile Char.isWhitespace).reverse.dropWhile Char.isWhitespace).reverse

/-- `GameState::from(&str)`: split into lines, trim, drop empty lines, parse
glyphs; `none` models the parse panic on an unexpected glyph. -/
def GameState.fromStr (input : String) : Option GameState :=
  let lines := ((splitNewlines input.data).map trimChars).filter (fun l => l.length > 0)
  (parseRows 0 0 lines).map fun r =>
    { grid := r.1, combatants := r.2.1, heap := r.2.2 }

/-- `star_one`, with explicit turn fuel. -/
def star_one (input : String) (fuel : Nat) : Option Nat :=
  (GameState.fromStr input).bind fun σ0 =>
    (starOneLoop fuel 0 σ0).map fun r =>
      r.1 * remaining_health_for_faction r.2.2.2 r.2.2.1

/-- Iterated rounds: the state after `n` turns. -/
def turnIter : Nat → GameState → GameState
  | 0, σ => σ
  | n + 1, σ => turnIter n (turn σ).2

/-- `star_two`, with explicit outer (strength search) and inner (turn) fuel. -/
def star_two (input : String) (outerFuel innerFuel : Nat) : Option Nat :=
  (GameState.fromStr input).bind fun σ0 =>
    (starTwoLoop innerFuel (num_combatants_alive σ0 UnitType.Elf) σ0 outerFuel 0).map
      fun r => r.1 * remaining_health_for_faction r.2.2 r.2.1

/-- A small arena: one elf immediately left of one goblin.  The elf kills the
goblin on the 67th round's first action; the round then completes in full. -/
def exC1 : String := "####\n#EG#\n####"

/-- The parsed state of `exC1`. -/
def gsC1 : GameState := (GameState.fromStr exC1).getD ⟨[], [], []⟩

/-- `gsC1` with the elf marked dead (used to witness the dead-unit skip). -/
def gsDead : GameState :=
  { gsC1 with
    heap := [(0, { unit_type := UnitType.Elf, health := 0, strength := 3,
                   is_dead := true }),
             (1, Unit.new UnitType.Goblin)] }

/-- A lone elf (used to witness the no-enemy halt). -/
def gsHalt : GameState := (GameState.fromStr "###\n#E#\n###").getD ⟨[], [], []⟩

/-- The keyset bijection between grid occupancy and the registry: a location
holds an `Occupied` cell exactly when it is a registry key. -/
def Sync (σ : GameState) : Prop :=
  ∀ l : Location,
    (∃ i, cellAt σ.grid l = Cell.Occupied i) ↔ (∃ i, lookupLoc σ.combatants l = some i)

/-- The unit transform applied by `cheat` to the clones it registers. -/
def elfAdjust (p : Nat) (u : Unit) : Unit :=
  if u.unit_type = UnitType.Elf then { u with strength := p } else u

/-- What `cheat` does at one grid position: non-occupied cells are copied
verbatim and stay unregistered; an occupied cell referencing `oid` yields a
fresh even handle `2k` in the registry carrying the elf-adjusted unit and a
fresh odd handle `2k + 1` in the grid carrying the unadjusted unit. -/
def cheatCellSpec (h0 : Heap) (p : Nat) (orig gcell : Cell) (lr : Option Nat)
    (hp : Heap) : Prop :=
  ((∀ oid, orig ≠ Cell.Occupied oid) ∧ gcell = orig ∧ lr = none) ∨
  (∃ oid k', orig = Cell.Occupied oid ∧ gcell = Cell.Occupied (2 * k' + 1) ∧
    lr = some (2 * k') ∧ (2 * k', elfAdjust p (heapGet h0 oid)) ∈ hp ∧
    (2 * k' + 1, heapGet h0 oid) ∈ hp)

/-- The units referenced by the occupied cells of a state's grid. -/
def gridUnits (σ : GameState) : List Unit :=
  σ.grid.flatMap (fun row =>
    row.filterMap (fun c =>
      match c with
      | Cell.Occupied i => some (heapGet σ.heap i)
      | _ => none))

/-! ### Specification-side definitions for the shortest-path engine -/

/-- `Reaches g src l n`: there is a walk of `n` steps from `src` to `l` whose
every step lands on an `Open` cell admitted by `in_range` (so every cell after
the first is open; the source itself may be occupied). -/
inductive Reaches (g : Grid) (src : Location) : Location → Nat → Prop where
  | refl : Reaches g src src 0
  | step : ∀ {m c : Location} {n : Nat},
      Reaches g src m n → c ∈ in_range g m true → Reaches g src c (n + 1)

/-- `d` is the length of a shortest open walk from `src` to `l`. -/
def IsDistTo (g : Grid) (src l : Location) (d : Nat) : Prop :=
  Reaches g src l d ∧ ∀ k, Reaches g src l k → d ≤ k

/-- Rectangular grid: every row has the width of row 0. -/
def Rect (g : Grid) : Prop := ∀ row ∈ g, row.length = width g

instance (g : Grid) : Decidable (Rect g) := by
  unfold Rect; infer_instance

/-- All in-bounds positions of a rectangular grid. -/
def allPositions (g : Grid) : List Location :=
  (List.range g.length).flatMap (fun y => (List.range (width g)).map (fun x => (x, y)))

/-- The complete invariant of the breadth-first loop, at frontier level `d0`. -/
structure BfsInv (g : Grid) (src : Location) (visited tvs : List Location)
    (queue : List (Location × Nat)) (dg : DistGrid) (d0 : Nat) : Prop where
  levels : ∃ qa qb, queue = qa ++ qb ∧ (∀ e ∈ qa, e.2 = d0) ∧
    (∀ e ∈ qb, e.2 = d0 + 1)
  qmem : ∀ e ∈ queue, cellAt g e.1 = Cell.Open ∧ IsDistTo g src e.1 e.2 ∧
    e.1 ∈ tvs ∧ e.1 ∉ visited
  qnodup : (queue.map Prod.fst).Nodup
  seen : ∀ l : Location, (l ∈ tvs ∧ l ∉ visited) ↔ l ∈ queue.map Prod.fst
  srcVisited : src ∈ visited
  visitedChar : ∀ l ∈ visited, l = src ∨ cellAt g l = Cell.Open
  expand : ∀ m ∈ visited, ∀ l ∈ in_range g m true, l ∈ tvs ∨ l ∈ visited
  complete : ∀ l d, cellAt g l = Cell.Open → IsDistTo g src l d → d ≤ d0 →
    l ∈ tvs ∨ l ∈ visited
  dgSrc : dgAt dg src = some 0
  dgChar : ∀ l, l ≠ src → ∀ d, dgAt dg l = some d ↔
    (l ∈ visited ∧ cellAt g l = Cell.Open ∧ IsDistTo g src l d)
  dgDim : dg.length = g.length ∧
    ∀ y, y < g.length → (dg.getD y []).length = width g

/-! ### General list lemmas -/

/-- The head of an insertion sort is a minimum of the list. -/
theorem head_insertionSort_min {α} (r : α → α → Prop) [DecidableRel r]
    [IsTotal α r] [IsTrans α r] {l : List α} {a : α}
    (h : (List.insertionSort r l).head? = some a) {x : α} (hx : x ∈ l) : r a x := by
  have hs : List.Sorted r (List.insertionSort r l) := List.sorted_insertionSort r l
  have hp : List.Perm (List.insertionSort r l) l := List.perm_insertionSort r l
  have hx' : x ∈ List.insertionSort r l := hp.symm.subset hx
  rcases hsort : List.insertionSort r l with _ | ⟨b, t⟩
  · rw [hsort] at h; simp at h
  · rw [hsort] at h hs hx'
    simp only [List.head?_cons, Option.some.injEq] at h
    subst h
    rcases List.mem_cons.mp hx' with rfl | hmem
    · rcases IsTotal.total (r := r) x x with h' | h' <;> exact h'
    · exact (List.sorted_cons.mp hs).1 x hmem

/-- Two sorted permutations of each other are equal, given antisymmetry on the
elements involved. -/
theorem sorted_perm_eq {α} {r : α → α → Prop} :
    ∀ {l₁ l₂ : List α}, List.Perm l₁ l₂ → l₁.Sorted r → l₂.Sorted r →
      (∀ a b, a ∈ l₁ → b ∈ l₁ → r a b → r b a → a = b) → l₁ = l₂
  | [], l₂, hp, _, _, _ => by simpa using hp.nil_eq
  | a :: t₁, l₂, hp, hs₁, hs₂, hanti => by
    rcases l₂ with _ | ⟨b, t₂⟩
    · exact absurd hp.symm.nil_eq (by simp)
    · have hab : a = b := by
        by_contra hne
        have hbmem : b ∈ a :: t₁ := hp.symm.subset (List.mem_cons_self b t₂)
        have hamem : a ∈ b :: t₂ := hp.subset (List.mem_cons_self a t₁)
        have hb₁ : b ∈ t₁ := by
          rcases List.mem_cons.mp hbmem with h | h
          · exact absurd h.symm hne
          · exact h
        have ha₂ : a ∈ t₂ := by
          rcases List.mem_cons.mp hamem with h | h
          · exact absurd h hne
          · exact h
        have hrab : r a b := (List.sorted_cons.mp hs₁).1 b hb₁
        have hrba : r b a := (List.sorted_cons.mp hs₂).1 a ha₂
        exact hne (hanti a b (List.mem_cons_self a t₁) hbmem hrab hrba)
      subst hab
      have hp' : List.Perm t₁ t₂ := hp.cons_inv
      have hrec := sorted_perm_eq hp' (List.sorted_cons.mp hs₁).2
        (List.sorted_cons.mp hs₂).2
        (fun x y hx hy => hanti x y (List.mem_cons_of_mem a hx) (List.mem_cons_of_mem a hy))
      rw [hrec]

/-- Folded conditional counting equals `countP`. -/
theorem foldl_count_eq {α} (p : α → Prop) [DecidablePred p] (l : List α) :
    ∀ n : Nat, l.foldl (fun acc e => if p e then acc + 1 else acc) n =
      n + l.countP (fun e => decide (p e)) := by
  induction l with
  | nil => intro n; simp
  | cons a t ih =>
      intro n
      by_cases hp : p a <;> simp [List.countP_cons, hp, ih] <;> omega

/-- Folded conditional summing equals the sum over the filtered list. -/
theorem foldl_sum_eq {α} (p : α → Prop) [DecidablePred p] (f : α → Nat) (l : List α) :
    ∀ n : Nat, l.foldl (fun acc e => if p e then acc + f e else acc) n =
      n + (((l.filter (fun e => decide (p e))).map f).sum) := by
  induction l with
  | nil => intro n; simp
  | cons a t ih =>
      intro n
      by_cases hp : p a <;> simp [List.filter_cons, hp, ih] <;> omega

/-! ### Registry and grid lemmas -/

def NodupKeys (m : Registry) : Prop := (m.map Prod.fst).Nodup

instance (m : Registry) : Decidable (NodupKeys m) := by
  unfold NodupKeys; exact List.nodupDecidable _

theorem lookupLoc_mem {m : Registry} {l : Location} {i : Nat}
    (h : lookupLoc m l = some i) : (l, i) ∈ m := by
  induction m with
  | nil => simp [lookupLoc] at h
  | cons e t ih =>
      rw [lookupLoc] at h
      by_cases he : e.1 = l
      · simp only [he, if_true, Option.some.injEq] at h
        have he2 : (l, i) = e := by
          rw [← he, ← h]
        rw [he2]
        exact List.mem_cons_self e t
      · simp only [he, if_false] at h
        exact List.mem_cons_of_mem _ (ih h)

theorem lookupLoc_isSome_of_mem {m : Registry} {l : Location} {i : Nat}
    (h : (l, i) ∈ m) : ∃ j, lookupLoc m l = some j := by
  induction m with
  | nil => simp at h
  | cons e t ih =>
      rcases List.mem_cons.mp h with rfl | hmem
      · exact ⟨i, by simp [lookupLoc]⟩
      · by_cases he : e.1 = l
        · exact ⟨e.2, by simp [lookupLoc, he]⟩
        · rcases ih hmem with ⟨j, hj⟩
          exact ⟨j, by simp [lookupLoc, he, hj]⟩

theorem mem_lookupLoc_of_nodup {m : Registry} (hnd : NodupKeys m) {l : Location}
    {i : Nat} (h : (l, i) ∈ m) : lookupLoc m l = some i := by
  induction m with
  | nil => simp at h
  | cons e t ih =>
      rcases List.mem_cons.mp h with rfl | hmem
      · simp [lookupLoc]
      · have he : e.1 ≠ l := by
          intro hcontra
          have : l ∈ t.map Prod.fst := List.mem_map_of_mem Prod.fst hmem
          have := (List.nodup_cons.mp hnd).1
          rw [hcontra] at this
          exact this ‹l ∈ t.map Prod.fst›
        rw [lookupLoc, if_neg he]
        exact ih (List.nodup_cons.mp hnd).2 hmem

theorem lookupLoc_perm {m₁ m₂ : Registry} (hp : List.Perm m₁ m₂)
    (hnd : NodupKeys m₁) (l : Location) : lookupLoc m₁ l = lookupLoc m₂ l := by
  have hnd₂ : NodupKeys m₂ := (hp.map Prod.fst).nodup_iff.mp hnd
  rcases h₁ : lookupLoc m₁ l with _ | i
  · rcases h₂ : lookupLoc m₂ l with _ | j
    · rfl
    · have := lookupLoc_mem h₂
      rcases lookupLoc_isSome_of_mem (hp.symm.subset this) with ⟨j', hj'⟩
      rw [h₁] at hj'; exact absurd hj' (by simp)
  · exact (mem_lookupLoc_of_nodup hnd₂ (hp.subset (lookupLoc_mem h₁))).symm

theorem removeLoc_cons (e : Location × Nat) (t : Registry) (l : Location) :
    removeLoc (e :: t) l =
      if e.1 = l then removeLoc t l else e :: removeLoc t l := by
  unfold removeLoc
  rw [List.filter_cons]
  by_cases he : e.1 = l <;> simp [he]

theorem lookupLoc_removeLoc_self (m : Registry) (l : Location) :
    lookupLoc (removeLoc m l) l = none := by
  induction m with
  | nil => rfl
  | cons e t ih =>
      rw [removeLoc_cons]
      by_cases he : e.1 = l
      · rw [if_pos he]; exact ih
      · rw [if_neg he, lookupLoc, if_neg he]; exact ih

theorem lookupLoc_removeLoc_ne (m : Registry) {l k : Location} (h : k ≠ l) :
    lookupLoc (removeLoc m l) k = lookupLoc m k := by
  induction m with
  | nil => rfl
  | cons e t ih =>
      rw [removeLoc_cons]
      by_cases he : e.1 = l
      · have hek : e.1 ≠ k := by rw [he]; exact fun hc => h hc.symm
        rw [if_pos he, lookupLoc, if_neg hek]; exact ih
      · by_cases hek : e.1 = k
        · rw [if_neg he, lookupLoc, if_pos hek, lookupLoc, if_pos hek]
        · rw [if_neg he, lookupLoc, if_neg hek, lookupLoc, if_neg hek]; exact ih

theorem lookupLoc_insertLoc_self (m : Registry) (l : Location) (i : Nat) :
    lookupLoc (insertLoc m l i) l = some i := by
  simp [insertLoc, lookupLoc]

theorem lookupLoc_insertLoc_ne (m : Registry) {l k : Location} (i : Nat)
    (h : k ≠ l) : lookupLoc (insertLoc m l i) k = lookupLoc m k := by
  rw [insertLoc, lookupLoc, if_neg (fun hc => h hc.symm)]
  exact lookupLoc_removeLoc_ne m h

theorem removeLoc_subset {m : Registry} {l : Location} {e : Location × Nat}
    (h : e ∈ removeLoc m l) : e ∈ m :=
  List.mem_of_mem_filter h

theorem nodupKeys_removeLoc {m : Registry} (h : NodupKeys m) (l : Location) :
    NodupKeys (removeLoc m l) := by
  induction m with
  | nil => exact h
  | cons e t ih =>
      rcases List.nodup_cons.mp h with ⟨hnotin, hnd⟩
      rw [removeLoc_cons]
      by_cases he : e.1 = l
      · rw [if_pos he]; exact ih hnd
      · rw [if_neg he]
        unfold NodupKeys
        rw [List.map_cons, List.nodup_cons]
        refine ⟨fun hc => hnotin ?_, ih hnd⟩
        rcases List.mem_map.mp hc with ⟨x, hx, hfx⟩
        exact List.mem_map.mpr ⟨x, removeLoc_subset hx, hfx⟩

theorem not_mem_keys_removeLoc (m : Registry) (l : Location) :
    l ∉ (removeLoc m l).map Prod.fst := by
  intro hc
  rcases List.mem_map.mp hc with ⟨x, hx, hfx⟩
  have := List.of_mem_filter hx
  simp only [ne_eq, decide_not, Bool.not_eq_eq_eq_not, Bool.not_true,
    decide_eq_false_iff_not] at this
  exact this hfx

theorem nodupKeys_insertLoc {m : Registry} (h : NodupKeys m) (l : Location)
    (i : Nat) : NodupKeys (insertLoc m l i) := by
  unfold NodupKeys insertLoc
  rw [List.map_cons, List.nodup_cons]
  exact ⟨not_mem_keys_removeLoc m l, nodupKeys_removeLoc h l⟩

theorem removeLoc_perm {m₁ m₂ : Registry} (hp : List.Perm m₁ m₂) (l : Location) :
    List.Perm (removeLoc m₁ l) (removeLoc m₂ l) := hp.filter _

theorem cellAt_nonwall_bounds {g : Grid} {l : Location}
    (h : cellAt g l ≠ Cell.Wall) :
    l.2 < g.length ∧ l.1 < (g.getD l.2 []).length := by
  unfold cellAt at h
  constructor
  · by_contra hc
    rw [List.getD_eq_default _ _ (Nat.le_of_not_lt hc)] at h
    simp [List.getD] at h
  · by_contra hc
    rw [List.getD_eq_default _ _ (Nat.le_of_not_lt hc)] at h
    exact h rfl

theorem getD_set_ne {α} (l : List α) (d : α) {i j : Nat} (h : i ≠ j) (a : α) :
    (l.set i a).getD j d = l.getD j d := by
  rw [List.getD_eq_getElem?_getD, List.getElem?_set_ne h, ← List.getD_eq_getElem?_getD]

theorem getD_set_self {α} (l : List α) (d : α) {i : Nat} (h : i < l.length) (a : α) :
    (l.set i a).getD i d = a := by
  rw [List.getD_eq_getElem?_getD, List.getElem?_set_self h]; rfl

theorem cellAt_setCell_self {g : Grid} {l : Location} (c : Cell)
    (h2 : l.2 < g.length) (h1 : l.1 < (g.getD l.2 []).length) :
    cellAt (setCell g l c) l = c := by
  unfold cellAt setCell
  rw [getD_set_self _ _ h2, getD_set_self _ _ h1]

theorem cellAt_setCell_ne {g : Grid} {l l' : Location} (c : Cell)
    (h : l ≠ l') : cellAt (setCell g l c) l' = cellAt g l' := by
  unfold cellAt setCell
  by_cases hy : l.2 = l'.2
  · have hx : l.1 ≠ l'.1 := fun hc => h (Prod.ext hc hy)
    rw [← hy]
    by_cases hb : l.2 < g.length
    · rw [getD_set_self _ _ hb, getD_set_ne _ _ hx]
    · rw [List.set_eq_of_length_le (Nat.le_of_not_lt hb)]
  · rw [getD_set_ne _ _ (fun hc => hy hc)]

/-! ### More registry and grid lemmas -/

theorem lookupLoc_eq_none_of_keys {m : Registry} {l : Location}
    (h : ∀ e ∈ m, e.1 ≠ l) : lookupLoc m l = none := by
  induction m with
  | nil => rfl
  | cons e t ih =>
      rw [lookupLoc, if_neg (h e (List.mem_cons_self e t))]
      exact ih (fun e' he' => h e' (List.mem_cons_of_mem e he'))

theorem lookupLoc_append_left {m₁ m₂ : Registry} {l : Location} {i : Nat}
    (h : lookupLoc m₁ l = some i) : lookupLoc (m₁ ++ m₂) l = some i := by
  induction m₁ with
  | nil => simp [lookupLoc] at h
  | cons e t ih =>
      rw [lookupLoc] at h
      rw [List.cons_append, lookupLoc]
      by_cases he : e.1 = l
      · rw [if_pos he] at h ⊢; exact h
      · rw [if_neg he] at h ⊢; exact ih h

theorem lookupLoc_append_right {m₁ m₂ : Registry} {l : Location}
    (h : lookupLoc m₁ l = none) : lookupLoc (m₁ ++ m₂) l = lookupLoc m₂ l := by
  induction m₁ with
  | nil => rfl
  | cons e t ih =>
      rw [lookupLoc] at h
      rw [List.cons_append, lookupLoc]
      by_cases he : e.1 = l
      · rw [if_pos he] at h; exact absurd h (by simp)
      · rw [if_neg he] at h ⊢; exact ih h

theorem length_setCell (g : Grid) (l : Location) (c : Cell) :
    (setCell g l c).length = g.length := by
  unfold setCell; exact List.length_set g l.2 _

theorem rowlen_setCell (g : Grid) (l : Location) (c : Cell) (y : Nat) :
    ((setCell g l c).getD y []).length = (g.getD y []).length := by
  unfold setCell
  by_cases hy : l.2 = y
  · subst hy
    by_cases hb : l.2 < g.length
    · rw [getD_set_self _ _ hb, List.length_set]
    · rw [List.set_eq_of_length_le (Nat.le_of_not_lt hb)]
  · rw [getD_set_ne _ _ hy]

/-- The cell written by `setCell` at its own location: either the write landed
(in bounds) or the grid is unchanged there (out of bounds). -/
theorem cellAt_setCell_self_or (g : Grid) (l : Location) (c : Cell) :
    cellAt (setCell g l c) l = c ∨ cellAt (setCell g l c) l = cellAt g l := by
  by_cases h2 : l.2 < g.length
  · by_cases h1 : l.1 < (g.getD l.2 []).length
    · exact Or.inl (cellAt_setCell_self c h2 h1)
    · right
      unfold cellAt setCell
      rw [List.set_eq_of_length_le (Nat.le_of_not_lt h1), getD_set_self _ _ h2]
  · right
    unfold cellAt setCell
    rw [List.set_eq_of_length_le (Nat.le_of_not_lt h2)]

theorem cellAt_setCell_open_ne_occupied (g : Grid) (l : Location) (i : Nat)
    (hg : ∀ j, cellAt g l = Cell.Occupied j → False) :
    cellAt (setCell g l Cell.Open) l ≠ Cell.Occupied i := by
  rcases cellAt_setCell_self_or g l Cell.Open with h | h <;> rw [h]
  · simp
  · intro hc; exact hg i hc

theorem toNat_add_one (n : Nat) : (Int.ofNat n + 1).toNat = n + 1 := by
  simp only [Int.ofNat_eq_natCast]; omega

theorem toNat_add_zero (n : Nat) : (Int.ofNat n + 0).toNat = n := by
  simp only [Int.ofNat_eq_natCast]; omega

theorem toNat_sub_one (n : Nat) : (Int.ofNat n + (-1)).toNat = n - 1 := by
  simp only [Int.ofNat_eq_natCast]; omega

/-- The admissible cell kinds for an `in_range` result. -/
def inRangeCell (g : Grid) (b : Bool) (l : Location) : Prop :=
  cellAt g l = Cell.Open ∨ (b = false ∧ ∃ j, cellAt g l = Cell.Occupied j)

/-- The neighbour geometry of `in_range`: `l` is one of the four orthogonal
neighbours of `loc`, subject to the source's boundary guards. -/
def inRangeStep (g : Grid) (loc l : Location) : Prop :=
  (loc.2 ≠ g.length - 1 ∧ l = (loc.1, loc.2 + 1)) ∨
  (loc.1 ≠ width g - 1 ∧ l = (loc.1 + 1, loc.2)) ∨
  (loc.2 ≠ 0 ∧ l = (loc.1, loc.2 - 1)) ∨
  (loc.1 ≠ 0 ∧ l = (loc.1 - 1, loc.2))

/-- Membership characterization of `in_range`. -/
theorem mem_in_range_iff {g : Grid} {loc : Location} {b : Bool} {l : Location} :
    l ∈ in_range g loc b ↔ inRangeCell g b l ∧ inRangeStep g loc l := by
  unfold in_range
  rw [List.mem_filterMap]
  constructor
  · rintro ⟨d, hd, hfd⟩
    have hdc : d = ((0 : Int), (1 : Int)) ∨ d = ((1 : Int), (0 : Int)) ∨
        d = ((0 : Int), (-1 : Int)) ∨ d = ((-1 : Int), (0 : Int)) := by
      simpa [dirOffsets] using hd
    by_cases h1 : (loc.1 = 0 ∧ d.1 = (-1 : Int)) ∨ (loc.2 = 0 ∧ d.2 = (-1 : Int))
    · rw [if_pos h1] at hfd; exact absurd hfd (by simp)
    rw [if_neg h1] at hfd
    by_cases h2 : (loc.1 = width g - 1 ∧ d.1 = (1 : Int)) ∨
        (loc.2 = g.length - 1 ∧ d.2 = (1 : Int))
    · rw [if_pos h2] at hfd; exact absurd hfd (by simp)
    rw [if_neg h2] at hfd
    dsimp only at hfd
    have hcellstep : inRangeCell g b l ∧
        l = ((Int.ofNat loc.1 + d.1).toNat, (Int.ofNat loc.2 + d.2).toNat) := by
      rcases hcell : cellAt g ((Int.ofNat loc.1 + d.1).toNat, (Int.ofNat loc.2 + d.2).toNat)
        with _ | _ | j <;> rw [hcell] at hfd
      · exact absurd hfd (by simp)
      · have := (Option.some.inj hfd).symm
        subst this
        exact ⟨Or.inl hcell, rfl⟩
      · rcases b with _ | _
        · have := (Option.some.inj (by simpa using hfd)).symm
          subst this
          exact ⟨Or.inr ⟨rfl, j, hcell⟩, rfl⟩
        · exact absurd hfd (by simp)
    refine ⟨hcellstep.1, ?_⟩
    have hl := hcellstep.2
    unfold inRangeStep
    rcases hdc with rfl | rfl | rfl | rfl
    · refine Or.inl ⟨?_, ?_⟩
      · intro hc; exact h2 (Or.inr ⟨hc, rfl⟩)
      · rw [hl, toNat_add_zero, toNat_add_one]
    · refine Or.inr (Or.inl ⟨?_, ?_⟩)
      · intro hc; exact h2 (Or.inl ⟨hc, rfl⟩)
      · rw [hl, toNat_add_zero, toNat_add_one]
    · refine Or.inr (Or.inr (Or.inl ⟨?_, ?_⟩))
      · intro hc; exact h1 (Or.inr ⟨hc, rfl⟩)
      · rw [hl, toNat_add_zero, toNat_sub_one]
    · refine Or.inr (Or.inr (Or.inr ⟨?_, ?_⟩))
      · intro hc; exact h1 (Or.inl ⟨hc, rfl⟩)
      · rw [hl, toNat_add_zero, toNat_sub_one]
  · rintro ⟨hcell, hstep⟩
    have hres : ∀ d : Int × Int,
        l = ((Int.ofNat loc.1 + d.1).toNat, (Int.ofNat loc.2 + d.2).toNat) →
        (match cellAt g ((Int.ofNat loc.1 + d.1).toNat, (Int.ofNat loc.2 + d.2).toNat) with
          | Cell.Open => some ((Int.ofNat loc.1 + d.1).toNat, (Int.ofNat loc.2 + d.2).toNat)
          | Cell.Occupied _ =>
              if !b then
                some ((Int.ofNat loc.1 + d.1).toNat, (Int.ofNat loc.2 + d.2).toNat)
              else none
          | Cell.Wall => none) = some l := by
      intro d hl
      rw [← hl]
      rcases hcell with hopen | ⟨hb, j, hocc⟩
      · rw [hopen]
      · rw [hocc, hb]
        rfl
    unfold inRangeStep at hstep
    rcases hstep with ⟨hg, hl⟩ | ⟨hg, hl⟩ | ⟨hg, hl⟩ | ⟨hg, hl⟩
    · refine ⟨((0 : Int), (1 : Int)), by simp [dirOffsets], ?_⟩
      rw [if_neg (by simp), if_neg (by simp [hg])]
      exact hres _ (by rw [hl, toNat_add_zero, toNat_add_one])
    · refine ⟨((1 : Int), (0 : Int)), by simp [dirOffsets], ?_⟩
      rw [if_neg (by simp), if_neg (by simp [hg])]
      exact hres _ (by rw [hl, toNat_add_zero, toNat_add_one])
    · refine ⟨((0 : Int), (-1 : Int)), by simp [dirOffsets], ?_⟩
      rw [if_neg (by simp [hg]), if_neg (by simp)]
      exact hres _ (by rw [hl, toNat_add_zero, toNat_sub_one])
    · refine ⟨((-1 : Int), (0 : Int)), by simp [dirOffsets], ?_⟩
      rw [if_neg (by simp [hg]), if_neg (by simp)]
      exact hres _ (by rw [hl, toNat_add_zero, toNat_sub_one])

/-- Members of `in_range` differ from the probed location. -/
theorem in_range_ne {g : Grid} {loc : Location} {b : Bool} {l : Location}
    (h : l ∈ in_range g loc b) : l ≠ loc := by
  have hstep := (mem_in_range_iff.mp h).2
  unfold inRangeStep at hstep
  intro hc
  subst hc
  rcases hstep with ⟨hg, hl⟩ | ⟨hg, hl⟩ | ⟨hg, hl⟩ | ⟨hg, hl⟩ <;>
    · rw [Prod.ext_iff] at hl
      omega

/-- Members of `in_range _ _ true` are `Open` cells. -/
theorem in_range_open {g : Grid} {loc : Location} {l : Location}
    (h : l ∈ in_range g loc true) : cellAt g l = Cell.Open := by
  rcases (mem_in_range_iff.mp h).1 with h' | ⟨hb, _⟩
  · exact h'
  · exact absurd hb (by simp)

/-- The step of a successful `moveDecision` is an open in-range neighbour. -/
theorem moveDecision_step_in_range {σ : GameState} {loc : Location} {u : Unit}
    {mv : Location × Location} (h : moveDecision σ loc u = some mv) :
    mv.2 ∈ in_range σ.grid loc true := by
  unfold moveDecision at h
  by_cases h0 : (possible_targets σ u).isEmpty
  · rw [if_pos h0] at h; exact absurd h (by simp)
  · rw [if_neg h0] at h
    rcases hdg : calculate_distance_grid σ loc with _ | dg <;> rw [hdg] at h
    · exact absurd h (by simp)
    · dsimp only at h
      set twd := ((possible_targets σ u).flatMap
        (fun e => in_range σ.grid e.1 true)).filterMap
          (fun tl => match dgAt dg tl with
            | none => none
            | some d => some (tl, d)) with htwd
      by_cases h1 : twd.isEmpty
      · rw [if_pos h1] at h; exact absurd h (by simp)
      · rw [if_neg h1] at h
        rcases hsort : List.insertionSort distLe twd with _ | ⟨t0, ts⟩ <;>
          rw [hsort] at h
        · exact absurd h (by simp)
        · have hmem := List.mem_of_mem_head? h
          have hmem2 := (List.perm_insertionSort fmpLe _).subset hmem
          rw [List.mem_filterMap] at hmem2
          rcases hmem2 with ⟨p, hp, hfp⟩
          rcases hfm : first_move_on_shortest_path σ loc p.1 with _ | m <;>
            rw [hfm] at hfp
          · exact absurd hfp (by simp)
          · have hmv : mv = (p.1, m) := (Option.some.inj hfp).symm
            unfold first_move_on_shortest_path at hfm
            rcases hdg2 : calculate_distance_grid σ p.1 with _ | dg2 <;>
              rw [hdg2] at hfm
            · exact absurd hfm (by simp)
            · dsimp only at hfm
              have hmem3 := List.mem_of_mem_head? hfm
              have hmem4 := List.mem_of_mem_filter hmem3
              have hmem5 := (List.perm_insertionSort (fmLe dg2) _).subset hmem4
              rw [hmv]
              exact hmem5

/-- Setting a cell to `Open` leaves no `Occupied` cell at that location,
in or out of bounds. -/
theorem setCell_open_not_occupied (g : Grid) (l : Location) (i : Nat) :
    cellAt (setCell g l Cell.Open) l ≠ Cell.Occupied i := by
  intro hc
  by_cases hocc : ∃ j, cellAt g l = Cell.Occupied j
  · rcases hocc with ⟨j, hj⟩
    have hb := cellAt_nonwall_bounds (g := g) (l := l) (by rw [hj]; simp)
    rw [cellAt_setCell_self _ hb.1 hb.2] at hc
    cases hc
  · rcases cellAt_setCell_self_or g l Cell.Open with h' | h' <;> rw [h'] at hc
    · cases hc
    · exact hocc ⟨i, hc⟩

/-! ### Parse and cheat structure lemmas -/

/-- Every heap entry produced by `parseRow` is a freshly created unit. -/
theorem parseRow_heap_new {y : Nat} :
    ∀ {x nid : Nat} {row : List Char} {r},
      parseRow y x nid row = some r →
      ∀ e, e ∈ r.2.2.1 → ∃ t, e.2 = Unit.new t := by
  intro x nid row
  induction row generalizing x nid with
  | nil =>
      intro r h e he
      rw [parseRow] at h
      simp only [Option.some.injEq] at h
      rw [← h] at he
      simp at he
  | cons c rest ih =>
      intro r h e he
      rw [parseRow] at h
      rcases hc : parseChar c with _ | pp
      · rw [hc] at h; exact absurd h (by simp)
      · rw [hc] at h
        rcases pp with _ | _ | t
        · rcases hrec : parseRow y (x + 1) nid rest with _ | r' <;> rw [hrec] at h
          · exact absurd h (by simp)
          · simp only [Option.map_some', Option.some.injEq] at h
            rw [← h] at he
            exact ih hrec e he
        · rcases hrec : parseRow y (x + 1) nid rest with _ | r' <;> rw [hrec] at h
          · exact absurd h (by simp)
          · simp only [Option.map_some', Option.some.injEq] at h
            rw [← h] at he
            exact ih hrec e he
        · rcases hrec : parseRow y (x + 1) (nid + 1) rest with _ | r' <;> rw [hrec] at h
          · exact absurd h (by simp)
          · simp only [Option.map_some', Option.some.injEq] at h
            rw [← h] at he
            rcases List.mem_cons.mp he with heq | he'
            · exact ⟨t, by rw [heq]⟩
            · exact ih hrec e he'

/-- Every heap entry produced by `parseRows` is a freshly created unit. -/
theorem parseRows_heap_new :
    ∀ {y nid : Nat} {rows : List (List Char)} {r},
      parseRows y nid rows = some r →
      ∀ e, e ∈ r.2.2 → ∃ t, e.2 = Unit.new t := by
  intro y nid rows
  induction rows generalizing y nid with
  | nil =>
      intro r h e he
      rw [parseRows] at h
      simp only [Option.some.injEq] at h
      rw [← h] at he
      simp at he
  | cons row rest ih =>
      intro r h e he
      rw [parseRows] at h
      rcases hrow : parseRow y 0 nid row with _ | r₁ <;> rw [hrow] at h
      · exact absurd h (by simp)
      · dsimp only at h
        rcases hrest : parseRows (y + 1) r₁.2.2.2 rest with _ | r₂ <;> rw [hrest] at h
        · exact absurd h (by simp)
        · simp only [Option.map_some', Option.some.injEq] at h
          rw [← h] at he
          rcases List.mem_append.mp he with h1 | h2
          · exact parseRow_heap_new hrow e h1
          · exact ih hrest e h2

/-- Positional characterization of one parsed row: cells line up with the
input characters, registry keys cover exactly the occupied columns, and a
column holds `Occupied i` exactly when `(column, y) ↦ i` is registered. -/
theorem parseRow_cells {y : Nat} :
    ∀ {row : List Char} {x nid : Nat} {r}, parseRow y x nid row = some r →
      r.1.length = row.length ∧
      (∀ e ∈ r.2.1, e.1.2 = y ∧ x ≤ e.1.1 ∧ e.1.1 < x + row.length) ∧
      (∀ xi i, r.1.getD xi Cell.Wall = Cell.Occupied i ↔
        lookupLoc r.2.1 (x + xi, y) = some i) := by
  intro row
  induction row with
  | nil =>
      intro x nid r h
      rw [parseRow] at h
      simp only [Option.some.injEq] at h
      subst h
      refine ⟨rfl, by simp, ?_⟩
      intro xi i
      simp [lookupLoc, List.getD]
  | cons c rest ih =>
      intro x nid r h
      rw [parseRow] at h
      rcases hc : parseChar c with _ | pp
      · rw [hc] at h; exact absurd h (by simp)
      rw [hc] at h
      rcases pp with _ | _ | t
      · rcases hrec : parseRow y (x + 1) nid rest with _ | r' <;> rw [hrec] at h
        · exact absurd h (by simp)
        simp only [Option.map_some', Option.some.injEq] at h
        subst h
        obtain ⟨hlen, hkeys, hcells⟩ := ih hrec
        refine ⟨by simpa using hlen, ?_, ?_⟩
        · intro e he
          have hk := hkeys e he
          refine ⟨hk.1, by omega, ?_⟩
          rw [List.length_cons]
          omega
        · intro xi i
          cases xi with
          | zero =>
              constructor
              · intro hcell; simp [List.getD] at hcell
              · intro hlook
                exfalso
                have hk := hkeys _ (lookupLoc_mem hlook)
                simp only at hk
                omega
          | succ m =>
              rw [List.getD_cons_succ, show x + (m + 1) = (x + 1) + m from by omega]
              exact hcells m i
      · rcases hrec : parseRow y (x + 1) nid rest with _ | r' <;> rw [hrec] at h
        · exact absurd h (by simp)
        simp only [Option.map_some', Option.some.injEq] at h
        subst h
        obtain ⟨hlen, hkeys, hcells⟩ := ih hrec
        refine ⟨by simpa using hlen, ?_, ?_⟩
        · intro e he
          have hk := hkeys e he
          refine ⟨hk.1, by omega, ?_⟩
          rw [List.length_cons]
          omega
        · intro xi i
          cases xi with
          | zero =>
              constructor
              · intro hcell; simp [List.getD] at hcell
              · intro hlook
                exfalso
                have hk := hkeys _ (lookupLoc_mem hlook)
                simp only at hk
                omega
          | succ m =>
              rw [List.getD_cons_succ, show x + (m + 1) = (x + 1) + m from by omega]
              exact hcells m i
      · rcases hrec : parseRow y (x + 1) (nid + 1) rest with _ | r' <;> rw [hrec] at h
        · exact absurd h (by simp)
        simp only [Option.map_some', Option.some.injEq] at h
        subst h
        obtain ⟨hlen, hkeys, hcells⟩ := ih hrec
        refine ⟨by simpa using hlen, ?_, ?_⟩
        · intro e he
          rcases List.mem_cons.mp he with heq | he'
          · rw [heq]
            refine ⟨rfl, Nat.le_refl x, ?_⟩
            rw [List.length_cons]
            exact (by omega : x < x + (rest.length + 1))
          · have hk := hkeys e he'
            refine ⟨hk.1, by omega, ?_⟩
            rw [List.length_cons]
            omega
        · intro xi i
          cases xi with
          | zero =>
              rw [List.getD_cons_zero]
              rw [show x + 0 = x from rfl]
              rw [lookupLoc, if_pos rfl]
              constructor
              · intro hcell
                rw [Cell.Occupied.injEq] at hcell
                rw [hcell]
              · intro hlook
                rw [Option.some.injEq] at hlook
                rw [hlook]
          | succ m =>
              rw [List.getD_cons_succ]
              rw [lookupLoc, if_neg (by
                intro hcontra
                have : x = x + (m + 1) := congrArg Prod.fst hcontra
                omega)]
              rw [show x + (m + 1) = (x + 1) + m from by omega]
              exact hcells m i

/-- Positional characterization of the whole parsed grid. -/
theorem parseRows_cells :
    ∀ {rows : List (List Char)} {y nid : Nat} {r}, parseRows y nid rows = some r →
      (∀ e ∈ r.2.1, y ≤ e.1.2 ∧ e.1.2 < y + rows.length) ∧
      (∀ (l : Location) (i : Nat), y ≤ l.2 →
        ((r.1.getD (l.2 - y) []).getD l.1 Cell.Wall = Cell.Occupied i ↔
          lookupLoc r.2.1 l = some i)) := by
  intro rows
  induction rows with
  | nil =>
      intro y nid r h
      rw [parseRows] at h
      simp only [Option.some.injEq] at h
      subst h
      refine ⟨by simp, ?_⟩
      intro l i hy
      simp [lookupLoc, List.getD]
  | cons row rest ih =>
      intro y nid r h
      rw [parseRows] at h
      rcases hrow : parseRow y 0 nid row with _ | r₁ <;> rw [hrow] at h
      · exact absurd h (by simp)
      dsimp only at h
      rcases hrest : parseRows (y + 1) r₁.2.2.2 rest with _ | r₂ <;> rw [hrest] at h
      · exact absurd h (by simp)
      simp only [Option.map_some', Option.some.injEq] at h
      subst h
      obtain ⟨hlen₁, hkeys₁, hcells₁⟩ := parseRow_cells hrow
      obtain ⟨hkeys₂, hcells₂⟩ := ih hrest
      constructor
      · intro e he
        rcases List.mem_append.mp he with h1 | h1
        · have hk := hkeys₁ e h1
          rw [List.length_cons]
          omega
        · have hk := hkeys₂ e h1
          rw [List.length_cons]
          omega
      · intro l i hy
        by_cases hly : l.2 = y
        · have hz : l.2 - y = 0 := by omega
          rw [hz, List.getD_cons_zero]
          have hrowiff := hcells₁ l.1 i
          rw [show (0 + l.1, y) = l from by
            rw [Nat.zero_add]
            exact Prod.ext rfl hly.symm] at hrowiff
          constructor
          · intro hcell
            exact lookupLoc_append_left (hrowiff.mp hcell)
          · intro hlook
            rcases hlook₁ : lookupLoc r₁.2.1 l with _ | j
            · rw [lookupLoc_append_right hlook₁] at hlook
              exfalso
              have hk : y + 1 ≤ l.2 := (hkeys₂ _ (lookupLoc_mem hlook)).1
              omega
            · rw [lookupLoc_append_left hlook₁] at hlook
              rw [hlook] at hlook₁
              exact hrowiff.mpr hlook₁
        · have hy1 : y + 1 ≤ l.2 := by omega
          have hz : l.2 - y = (l.2 - (y + 1)) + 1 := by omega
          rw [hz, List.getD_cons_succ]
          have hnone : lookupLoc r₁.2.1 l = none := by
            refine lookupLoc_eq_none_of_keys ?_
            intro e he hc
            have hk := hkeys₁ e he
            rw [hc] at hk
            exact hly hk.1
          rw [lookupLoc_append_right hnone]
          exact hcells₂ l i hy1

theorem cheatCellSpec_mono {h0 : Heap} {p : Nat} {orig gcell : Cell}
    {lr : Option Nat} {hp hp' : Heap} (hsub : ∀ e : Nat × Unit, e ∈ hp → e ∈ hp')
    (h : cheatCellSpec h0 p orig gcell lr hp) :
    cheatCellSpec h0 p orig gcell lr hp' := by
  rcases h with h | ⟨oid, k', h1, h2, h3, h4, h5⟩
  · exact Or.inl h
  · exact Or.inr ⟨oid, k', h1, h2, h3, hsub _ h4, hsub _ h5⟩

/-- Positional characterization of `cheatRow`. -/
theorem cheatRow_cells (h0 : Heap) (p y : Nat) :
    ∀ (row : List Cell) (x k : Nat),
      (cheatRow h0 p y x k row).1.length = row.length ∧
      (∀ e ∈ (cheatRow h0 p y x k row).2.1,
        e.1.2 = y ∧ x ≤ e.1.1 ∧ e.1.1 < x + row.length) ∧
      (∀ xi, cheatCellSpec h0 p (row.getD xi Cell.Wall)
        ((cheatRow h0 p y x k row).1.getD xi Cell.Wall)
        (lookupLoc (cheatRow h0 p y x k row).2.1 (x + xi, y))
        (cheatRow h0 p y x k row).2.2.1) := by
  intro row
  induction row with
  | nil =>
      intro x k
      refine ⟨rfl, by simp [cheatRow], ?_⟩
      intro xi
      rw [cheatRow]
      exact Or.inl ⟨by simp [List.getD], by simp [List.getD], rfl⟩
  | cons c rest ih =>
      intro x k
      rcases c with _ | _ | oid
      · rw [cheatRow]
        obtain ⟨hlen, hkeys, hcells⟩ := ih (x + 1) k
        refine ⟨by simpa using hlen, ?_, ?_⟩
        · intro e he
          have hk := hkeys e he
          refine ⟨hk.1, by omega, ?_⟩
          rw [List.length_cons]
          omega
        · intro xi
          cases xi with
          | zero =>
              refine Or.inl ⟨by simp [List.getD], by simp [List.getD], ?_⟩
              refine lookupLoc_eq_none_of_keys ?_
              intro e he hc
              have hk := hkeys e he
              rw [hc] at hk
              simp only at hk
              omega
          | succ m =>
              rw [List.getD_cons_succ, List.getD_cons_succ,
                show x + (m + 1) = (x + 1) + m from by omega]
              exact hcells m
      · rw [cheatRow]
        obtain ⟨hlen, hkeys, hcells⟩ := ih (x + 1) k
        refine ⟨by simpa using hlen, ?_, ?_⟩
        · intro e he
          have hk := hkeys e he
          refine ⟨hk.1, by omega, ?_⟩
          rw [List.length_cons]
          omega
        · intro xi
          cases xi with
          | zero =>
              refine Or.inl ⟨by simp [List.getD], by simp [List.getD], ?_⟩
              refine lookupLoc_eq_none_of_keys ?_
              intro e he hc
              have hk := hkeys e he
              rw [hc] at hk
              simp only at hk
              omega
          | succ m =>
              rw [List.getD_cons_succ, List.getD_cons_succ,
                show x + (m + 1) = (x + 1) + m from by omega]
              exact hcells m
      · rw [cheatRow]
        obtain ⟨hlen, hkeys, hcells⟩ := ih (x + 1) (k + 1)
        refine ⟨by simpa using hlen, ?_, ?_⟩
        · intro e he
          rcases List.mem_cons.mp he with heq | he'
          · rw [heq]
            refine ⟨rfl, Nat.le_refl x, ?_⟩
            rw [List.length_cons]
            exact (by omega : x < x + (rest.length + 1))
          · have hk := hkeys e he'
            refine ⟨hk.1, by omega, ?_⟩
            rw [List.length_cons]
            omega
        · intro xi
          cases xi with
          | zero =>
              refine Or.inr ⟨oid, k, by simp [List.getD], by simp [List.getD], ?_, ?_, ?_⟩
              · rw [lookupLoc, if_pos (by rw [Nat.add_zero])]
              · exact List.mem_cons_self _ _
              · exact List.mem_cons_of_mem _ (List.mem_cons_self _ _)
          | succ m =>
              rw [List.getD_cons_succ, List.getD_cons_succ]
              rw [lookupLoc, if_neg (by
                intro hcontra
                have : x = x + (m + 1) := congrArg Prod.fst hcontra
                omega)]
              rw [show x + (m + 1) = (x + 1) + m from by omega]
              refine cheatCellSpec_mono ?_ (hcells m)
              intro e he
              exact List.mem_cons_of_mem _ (List.mem_cons_of_mem _ he)

/-- Positional characterization of `cheatRows`. -/
theorem cheatRows_cells (h0 : Heap) (p : Nat) :
    ∀ (rows : List (List Cell)) (y k : Nat),
      (∀ e ∈ (cheatRows h0 p y k rows).2.1, y ≤ e.1.2) ∧
      (∀ l : Location, y ≤ l.2 →
        cheatCellSpec h0 p ((rows.getD (l.2 - y) []).getD l.1 Cell.Wall)
          (((cheatRows h0 p y k rows).1.getD (l.2 - y) []).getD l.1 Cell.Wall)
          (lookupLoc (cheatRows h0 p y k rows).2.1 l)
          (cheatRows h0 p y k rows).2.2) := by
  intro rows
  induction rows with
  | nil =>
      intro y k
      refine ⟨by simp [cheatRows], ?_⟩
      intro l hy
      rw [cheatRows]
      exact Or.inl ⟨by simp [List.getD], by simp [List.getD], rfl⟩
  | cons row rest ih =>
      intro y k
      rw [cheatRows]
      obtain ⟨hlen₁, hkeys₁, hcells₁⟩ := cheatRow_cells h0 p y row 0 k
      obtain ⟨hkeys₂, hcells₂⟩ := ih (y + 1) (cheatRow h0 p y 0 k row).2.2.2
      constructor
      · intro e he
        rcases List.mem_append.mp he with h1 | h1
        · have hk := hkeys₁ e h1
          omega
        · have hk := hkeys₂ e h1
          omega
      · intro l hy
        by_cases hly : l.2 = y
        · have hz : l.2 - y = 0 := by omega
          rw [hz, List.getD_cons_zero, List.getD_cons_zero]
          have hrowspec := hcells₁ l.1
          rw [show ((0 : Nat) + l.1, y) = l from by
            rw [Nat.zero_add]
            exact Prod.ext rfl hly.symm] at hrowspec
          rcases hrowspec with ⟨hno, hcell, hlr⟩ | ⟨oid, k', h1, h2, h3, h4, h5⟩
          · refine Or.inl ⟨hno, hcell, ?_⟩
            rw [lookupLoc_append_right hlr]
            refine lookupLoc_eq_none_of_keys ?_
            intro e he hc
            have hk := hkeys₂ e he
            rw [hc] at hk
            omega
          · exact Or.inr ⟨oid, k', h1, h2, lookupLoc_append_left h3,
              List.mem_append_left _ h4, List.mem_append_left _ h5⟩
        · have hy1 : y + 1 ≤ l.2 := by omega
          have hz : l.2 - y = (l.2 - (y + 1)) + 1 := by omega
          rw [hz, List.getD_cons_succ, List.getD_cons_succ]
          have hnone : lookupLoc (cheatRow h0 p y 0 k row).2.1 l = none := by
            refine lookupLoc_eq_none_of_keys ?_
            intro e he hc
            have hk := hkeys₁ e he
            rw [hc] at hk
            exact hly hk.1
          rw [lookupLoc_append_right hnone]
          refine cheatCellSpec_mono ?_ (hcells₂ l hy1)
          intro e he
          exact List.mem_append_right _ he

/-- Positional characterization of `cheat`. -/
theorem cheat_cells (σ : GameState) (p : Nat) (l : Location) :
    cheatCellSpec σ.heap p (cellAt σ.grid l) (cellAt (cheat σ p).grid l)
      (lookupLoc (cheat σ p).combatants l) (cheat σ p).heap := by
  have h := (cheatRows_cells σ.heap p σ.grid 0 0).2 l (Nat.zero_le _)
  rw [Nat.sub_zero] at h
  exact h

/-- Each heap entry produced by `cheatRow` is, up to the elf-strength
adjustment, a unit referenced by an occupied cell of the processed row. -/
theorem cheatRow_heap_src (h0 : Heap) (p y : Nat) :
    ∀ (row : List Cell) (x k : Nat) (e : Nat × Unit),
      e ∈ (cheatRow h0 p y x k row).2.2.1 →
      ∃ oid, Cell.Occupied oid ∈ row ∧
        (e.2 = heapGet h0 oid ∨
          ((heapGet h0 oid).unit_type = UnitType.Elf ∧
            e.2 = { heapGet h0 oid with strength := p })) := by
  intro row
  induction row with
  | nil => intro x k e he; simp [cheatRow] at he
  | cons c rest ih =>
      intro x k e he
      rcases c with _ | _ | oid
      · rw [cheatRow] at he
        rcases ih (x + 1) k e he with ⟨oid, hmem, hcase⟩
        exact ⟨oid, List.mem_cons_of_mem _ hmem, hcase⟩
      · rw [cheatRow] at he
        rcases ih (x + 1) k e he with ⟨oid, hmem, hcase⟩
        exact ⟨oid, List.mem_cons_of_mem _ hmem, hcase⟩
      · rw [cheatRow] at he
        simp only [List.mem_cons] at he
        rcases he with rfl | rfl | he'
        · refine ⟨oid, List.mem_cons_self _ _, ?_⟩
          by_cases helf : (heapGet h0 oid).unit_type = UnitType.Elf
          · exact Or.inr ⟨helf, by simp [helf]⟩
          · exact Or.inl (by simp [helf])
        · exact ⟨oid, List.mem_cons_self _ _, Or.inl rfl⟩
        · rcases ih (x + 1) (k + 1) e he' with ⟨oid', hmem, hcase⟩
          exact ⟨oid', List.mem_cons_of_mem _ hmem, hcase⟩

/-- Lift of `cheatRow_heap_src` to the whole grid. -/
theorem cheatRows_heap_src (h0 : Heap) (p : Nat) :
    ∀ (rows : List (List Cell)) (y k : Nat) (e : Nat × Unit),
      e ∈ (cheatRows h0 p y k rows).2.2 →
      ∃ row oid, row ∈ rows ∧ Cell.Occupied oid ∈ row ∧
        (e.2 = heapGet h0 oid ∨
          ((heapGet h0 oid).unit_type = UnitType.Elf ∧
            e.2 = { heapGet h0 oid with strength := p })) := by
  intro rows
  induction rows with
  | nil => intro y k e he; simp [cheatRows] at he
  | cons row rest ih =>
      intro y k e he
      rw [cheatRows] at he
      rcases List.mem_append.mp he with h1 | h2
      · rcases cheatRow_heap_src h0 p y row 0 k e h1 with ⟨oid, hmem, hcase⟩
        exact ⟨row, oid, List.mem_cons_self _ _, hmem, hcase⟩
      · rcases ih (y + 1) _ e h2 with ⟨row', oid, hrow, hmem, hcase⟩
        exact ⟨row', oid, List.mem_cons_of_mem _ hrow, hmem, hcase⟩

/-! ### Heap lemmas -/

def hasId (h : Heap) (i : Nat) : Prop := i ∈ h.map Prod.fst

instance (h : Heap) (i : Nat) : Decidable (hasId h i) := by
  unfold hasId; infer_instance

theorem heapGet_heapSet_self {h : Heap} {i : Nat} (hh : hasId h i) (v : Unit) :
    heapGet (heapSet h i v) i = v := by
  induction h with
  | nil => simp [hasId] at hh
  | cons e t ih =>
      rw [heapSet]
      by_cases he : i = e.1
      · rw [if_pos he, heapGet, if_pos he]
      · rw [if_neg he, heapGet, if_neg he]
        refine ih ?_
        unfold hasId at hh ⊢
        rcases List.mem_cons.mp hh with h1 | h1
        · exact absurd h1 he
        · exact h1

theorem heapGet_heapSet_ne {h : Heap} {i j : Nat} (hne : j ≠ i) (v : Unit) :
    heapGet (heapSet h i v) j = heapGet h j := by
  induction h with
  | nil => rfl
  | cons e t ih =>
      rw [heapSet]
      by_cases he : i = e.1
      · rw [if_pos he, heapGet, heapGet]
        have : ¬ j = e.1 := by rw [← he]; exact hne
        rw [if_neg this, if_neg this]
      · rw [if_neg he, heapGet, heapGet]
        by_cases hj : j = e.1
        · rw [if_pos hj, if_pos hj]
        · rw [if_neg hj, if_neg hj]; exact ih

/-! ### Sync preservation -/

theorem sync_attackStep {σ : GameState} (hs : Sync σ) (s : Nat) (eloc : Location)
    (eid : Nat) : Sync (attackStep σ s eloc eid) := by
  unfold attackStep
  dsimp only
  by_cases hdie : (take_damage (heapGet σ.heap eid) s).2 = true
  · rw [hdie]
    simp only [if_true]
    intro l
    by_cases hl : l = eloc
    · subst hl
      constructor
      · rintro ⟨i, hi⟩
        exact absurd hi (setCell_open_not_occupied _ _ _)
      · rintro ⟨i, hi⟩
        rw [lookupLoc_removeLoc_self] at hi
        cases hi
    · rw [show (∃ i, cellAt (setCell σ.grid eloc Cell.Open) l = Cell.Occupied i) ↔
          (∃ i, cellAt σ.grid l = Cell.Occupied i) from by
          rw [cellAt_setCell_ne _ (fun hc => hl hc.symm)]]
      rw [show (∃ i, lookupLoc (removeLoc σ.combatants eloc) l = some i) ↔
          (∃ i, lookupLoc σ.combatants l = some i) from by
          rw [lookupLoc_removeLoc_ne _ hl]]
      exact hs l
  · rw [Bool.not_eq_true] at hdie
    rw [hdie]
    simp only [Bool.false_eq_true, if_false]
    exact hs

theorem sync_applyMove {σ : GameState} (hs : Sync σ) {loc newLoc : Location}
    (uid : Nat) (hopen : cellAt σ.grid newLoc = Cell.Open) (hne : newLoc ≠ loc) :
    Sync (applyMove σ loc newLoc uid) := by
  unfold applyMove
  dsimp only
  have hb0 := cellAt_nonwall_bounds (g := σ.grid) (l := newLoc) (by rw [hopen]; simp)
  have hb1 : newLoc.2 < (setCell σ.grid loc Cell.Open).length := by
    rw [length_setCell]; exact hb0.1
  have hb2 : newLoc.1 < ((setCell σ.grid loc Cell.Open).getD newLoc.2 []).length := by
    rw [rowlen_setCell]; exact hb0.2
  intro l
  by_cases hl : l = newLoc
  · subst hl
    constructor
    · intro _
      exact ⟨uid, lookupLoc_insertLoc_self _ _ _⟩
    · intro _
      exact ⟨uid, cellAt_setCell_self _ hb1 hb2⟩
  · by_cases hl2 : l = loc
    · constructor
      · rintro ⟨i, hi⟩
        rw [cellAt_setCell_ne (g := setCell σ.grid loc Cell.Open) _
          (fun hc => hl hc.symm), hl2] at hi
        exact absurd hi (setCell_open_not_occupied _ _ _)
      · rintro ⟨i, hi⟩
        rw [lookupLoc_insertLoc_ne _ _ hl, hl2, lookupLoc_removeLoc_self] at hi
        cases hi
    · rw [show (∃ i, cellAt (setCell (setCell σ.grid loc Cell.Open) newLoc
            (Cell.Occupied uid)) l = Cell.Occupied i) ↔
          (∃ i, cellAt σ.grid l = Cell.Occupied i) from by
          rw [cellAt_setCell_ne _ (fun hc => hl hc.symm),
            cellAt_setCell_ne _ (fun hc => hl2 hc.symm)]]
      rw [show (∃ i, lookupLoc (insertLoc (removeLoc σ.combatants loc) newLoc uid) l
            = some i) ↔ (∃ i, lookupLoc σ.combatants l = some i) from by
          rw [lookupLoc_insertLoc_ne _ _ hl, lookupLoc_removeLoc_ne _ hl2]]
      exact hs l

theorem finalCount_snd (σ : GameState) : (finalCount σ).2 = σ := by
  unfold finalCount
  dsimp only
  by_cases h1 : num_combatants_alive σ UnitType.Goblin = 0 ∨
      num_combatants_alive σ UnitType.Elf = 0
  · rw [if_pos h1]
    by_cases h2 : num_combatants_alive σ UnitType.Goblin = 0
    · rw [if_pos h2]
    · rw [if_neg h2]
  · rw [if_neg h1]

theorem sync_turnGo :
    ∀ (snap : List (Location × Nat)) (σ : GameState), Sync σ →
      Sync (turnGo snap σ).2
  | [], σ, hs => by
      rw [turnGo, finalCount_snd]
      exact hs
  | (loc, uid) :: rest, σ, hs => by
      rw [turnGo]
      dsimp only
      by_cases h1 : ¬ enemies_alive σ (heapGet σ.heap uid)
      · rw [if_pos h1]
        exact hs
      · rw [if_neg h1]
        by_cases h2 : (heapGet σ.heap uid).is_dead = true
        · rw [h2]
          simp only [if_true]
          exact sync_turnGo rest σ hs
        · rw [Bool.not_eq_true] at h2
          rw [h2]
          simp only [Bool.false_eq_true, if_false]
          rcases h3 : prioritized_enemy σ (heapGet σ.heap uid) loc with _ | e
          · dsimp only
            rcases h4 : moveDecision σ loc (heapGet σ.heap uid) with _ | mv
            · dsimp only
              exact sync_turnGo rest σ hs
            · dsimp only
              have hstep := moveDecision_step_in_range h4
              have hopen := in_range_open hstep
              have hne := in_range_ne hstep
              have hs2 := sync_applyMove hs uid hopen hne
              rcases h5 : prioritized_enemy (applyMove σ loc mv.2 uid)
                  (heapGet (applyMove σ loc mv.2 uid).heap uid) mv.2 with _ | ne
              · dsimp only
                exact sync_turnGo rest _ hs2
              · dsimp only
                exact sync_turnGo rest _ (sync_attackStep hs2 _ _ _)
          · dsimp only
            exact sync_turnGo rest _ (sync_attackStep hs _ _ _)

theorem sync_turn {σ : GameState} (hs : Sync σ) : Sync (turn σ).2 :=
  sync_turnGo _ σ hs

/-! ### Enemy selection lemmas -/

theorem mem_adjacentEnemies_iff {σ : GameState} {u : Unit} {loc : Location}
    {p : Location} {oid : Nat} :
    (p, oid) ∈ adjacentEnemies σ u loc ↔
      p ∈ in_range σ.grid loc false ∧ lookupLoc σ.combatants p = some oid ∧
        (heapGet σ.heap oid).unit_type ≠ u.unit_type := by
  unfold adjacentEnemies
  rw [List.mem_filterMap]
  constructor
  · rintro ⟨a, ha, hfa⟩
    rcases hl : lookupLoc σ.combatants a with _ | oid'
    · rw [hl] at hfa; exact absurd hfa (by simp)
    · rw [hl] at hfa
      dsimp only at hfa
      by_cases ht : (heapGet σ.heap oid').unit_type ≠ u.unit_type
      · rw [if_pos ht] at hfa
        have h1 : a = p := congrArg Prod.fst (Option.some.inj hfa)
        have h2 : oid' = oid := congrArg Prod.snd (Option.some.inj hfa)
        subst h1; subst h2
        exact ⟨ha, hl, ht⟩
      · rw [if_neg ht] at hfa; exact absurd hfa (by simp)
  · rintro ⟨h1, h2, h3⟩
    refine ⟨p, h1, ?_⟩
    rw [h2]
    dsimp only
    rw [if_pos h3]

theorem prioritized_enemy_sound {σ : GameState} {u : Unit} {loc : Location}
    {e : Location × Nat} (h : prioritized_enemy σ u loc = some e) :
    e ∈ adjacentEnemies σ u loc ∧
      ∀ q ∈ adjacentEnemies σ u loc, enemyLe σ e q := by
  unfold prioritized_enemy at h
  by_cases h0 : (adjacentEnemies σ u loc).isEmpty
  · rw [if_pos h0] at h; exact absurd h (by simp)
  · rw [if_neg h0] at h
    by_cases h1 : (adjacentEnemies σ u loc).length = 1
    · rw [if_pos h1] at h
      rcases List.length_eq_one.mp h1 with ⟨a, ha⟩
      rw [ha] at h ⊢
      simp only [List.head?_cons, Option.some.injEq] at h
      subst h
      refine ⟨List.mem_cons_self _ _, ?_⟩
      intro q hq
      rcases List.mem_cons.mp hq with rfl | hq'
      · rcases IsTotal.total (r := enemyLe σ) q q with h' | h' <;> exact h'
      · simp at hq'
    · rw [if_neg h1] at h
      constructor
      · exact (List.perm_insertionSort (enemyLe σ) _).subset (List.mem_of_mem_head? h)
      · intro q hq
        exact head_insertionSort_min (enemyLe σ) h hq

theorem prioritized_enemy_isSome {σ : GameState} {u : Unit} {loc : Location}
    (h : adjacentEnemies σ u loc ≠ []) :
    (prioritized_enemy σ u loc).isSome = true := by
  unfold prioritized_enemy
  have h0 : ¬ (adjacentEnemies σ u loc).isEmpty := by
    rcases he : adjacentEnemies σ u loc with _ | ⟨a, t⟩
    · exact absurd he h
    · simp
  rw [if_neg h0]
  by_cases h1 : (adjacentEnemies σ u loc).length = 1
  · rw [if_pos h1]
    rcases List.length_eq_one.mp h1 with ⟨a, ha⟩
    rw [ha]; rfl
  · rw [if_neg h1]
    have : List.insertionSort (enemyLe σ) (adjacentEnemies σ u loc) ≠ [] := by
      intro hc
      have hperm := List.perm_insertionSort (enemyLe σ) (adjacentEnemies σ u loc)
      rw [hc] at hperm
      exact h hperm.nil_eq.symm
    rcases hs : List.insertionSort (enemyLe σ) (adjacentEnemies σ u loc) with _ | ⟨a, t⟩
    · exact absurd hs this
    · rfl

/-! ### Shortest-path engine: basic lemmas -/

theorem reaches_zero {g : Grid} {src l : Location} (h : Reaches g src l 0) :
    l = src := by
  cases h
  rfl

theorem reaches_succ {g : Grid} {src l : Location} {n : Nat}
    (h : Reaches g src l (n + 1)) :
    ∃ m, Reaches g src m n ∧ l ∈ in_range g m true := by
  cases h with
  | step hm hstep => exact ⟨_, hm, hstep⟩

theorem reaches_open_or_src {g : Grid} {src l : Location} {n : Nat}
    (h : Reaches g src l n) : l = src ∨ cellAt g l = Cell.Open := by
  cases h with
  | refl => exact Or.inl rfl
  | step hm hstep => exact Or.inr (in_range_open hstep)

theorem exists_isDistTo {g : Grid} {src l : Location} :
    ∀ k, Reaches g src l k → ∃ d, IsDistTo g src l d ∧ d ≤ k := by
  intro k
  induction k using Nat.strong_induction_on with
  | _ k ih =>
      intro h
      by_cases hex : ∃ j, j < k ∧ Reaches g src l j
      · rcases hex with ⟨j, hjk, hj⟩
        rcases ih j hjk hj with ⟨d, hd, hdj⟩
        exact ⟨d, hd, by omega⟩
      · push_neg at hex
        refine ⟨k, ⟨h, ?_⟩, Nat.le_refl k⟩
        intro j hj
        by_contra hc
        exact hex j (by omega) hj

theorem isDistTo_unique {g : Grid} {src l : Location} {d d' : Nat}
    (h : IsDistTo g src l d) (h' : IsDistTo g src l d') : d = d' :=
  Nat.le_antisymm (h.2 d' h'.1) (h'.2 d h.1)

/-! ### Distance grid access lemmas -/

theorem getD_replicate {α : Type} (n : Nat) (a d : α) (i : Nat) (h : i < n) :
    (List.replicate n a).getD i d = a := by
  rw [List.getD_eq_getElem?_getD, List.getElem?_replicate_of_lt h]
  rfl

theorem getD_oob {α : Type} (l : List α) (d : α) (i : Nat) (h : l.length ≤ i) :
    l.getD i d = d := by
  rw [List.getD_eq_getElem?_getD, List.getElem?_eq_none h]
  rfl

theorem dgAt_replicate_none (H W : Nat) (l : Location) :
    dgAt (List.replicate H (List.replicate W (none : Option Nat))) l = none := by
  unfold dgAt
  by_cases h2 : l.2 < H
  · rw [getD_replicate H (List.replicate W none) [] l.2 h2]
    by_cases h1 : l.1 < W
    · rw [getD_replicate W none none l.1 h1]
    · rw [getD_oob (List.replicate W none) none l.1
        (by rw [List.length_replicate]; omega)]
  · rw [getD_oob (List.replicate H (List.replicate W none)) [] l.2
      (by rw [List.length_replicate]; omega)]
    rfl

theorem dgAt_dgSet_self {dg : DistGrid} {l : Location} (v : Option Nat)
    (h2 : l.2 < dg.length) (h1 : l.1 < (dg.getD l.2 []).length) :
    dgAt (dgSet dg l v) l = v := by
  unfold dgAt dgSet
  rw [getD_set_self _ _ h2, getD_set_self _ _ h1]

theorem dgAt_dgSet_ne {dg : DistGrid} {l l' : Location} (v : Option Nat)
    (h : l ≠ l') : dgAt (dgSet dg l v) l' = dgAt dg l' := by
  unfold dgAt dgSet
  by_cases hy : l.2 = l'.2
  · have hx : l.1 ≠ l'.1 := fun hc => h (Prod.ext hc hy)
    rw [← hy]
    by_cases hb : l.2 < dg.length
    · rw [getD_set_self _ _ hb, getD_set_ne _ _ hx]
    · rw [List.set_eq_of_length_le (Nat.le_of_not_lt hb)]
  · rw [getD_set_ne _ _ (fun hc => hy hc)]

theorem length_dgSet (dg : DistGrid) (l : Location) (v : Option Nat) :
    (dgSet dg l v).length = dg.length := by
  unfold dgSet; exact List.length_set dg l.2 _

theorem rowlen_dgSet (dg : DistGrid) (l : Location) (v : Option Nat) (y : Nat) :
    ((dgSet dg l v).getD y []).length = (dg.getD y []).length := by
  unfold dgSet
  by_cases hy : l.2 = y
  · subst hy
    by_cases hb : l.2 < dg.length
    · rw [getD_set_self _ _ hb, List.length_set]
    · rw [List.set_eq_of_length_le (Nat.le_of_not_lt hb)]
  · rw [getD_set_ne _ _ hy]

/-- On a rectangular grid, a non-wall cell has coordinates within
`width g × g.length`. -/
theorem open_bounds {g : Grid} (hrect : Rect g) {l : Location}
    (h : cellAt g l ≠ Cell.Wall) : l.1 < width g ∧ l.2 < g.length := by
  have hb := cellAt_nonwall_bounds h
  refine ⟨?_, hb.1⟩
  have hrow : g.getD l.2 [] ∈ g := by
    rw [List.getD_eq_getElem?_getD, List.getElem?_eq_getElem (by simpa using hb.1)]
    exact List.getElem_mem _
  rw [← hrect _ hrow]
  exact hb.2

/-! ### Positions and fuel accounting -/

theorem mem_allPositions {g : Grid} {l : Location} :
    l ∈ allPositions g ↔ l.1 < width g ∧ l.2 < g.length := by
  unfold allPositions
  rw [List.mem_flatMap]
  constructor
  · rintro ⟨y, hy, hl⟩
    rcases List.mem_map.mp hl with ⟨x, hx, hxl⟩
    rw [← hxl]
    exact ⟨List.mem_range.mp hx, List.mem_range.mp hy⟩
  · rintro ⟨h1, h2⟩
    exact ⟨l.2, List.mem_range.mpr h2,
      List.mem_map.mpr ⟨l.1, List.mem_range.mpr h1, Prod.ext rfl rfl⟩⟩

theorem allPositions_nodup (g : Grid) : (allPositions g).Nodup := by
  unfold allPositions
  rw [List.nodup_flatMap]
  refine ⟨?_, ?_⟩
  · intro y _
    exact (List.nodup_range _).map (fun a b hab => congrArg Prod.fst hab)
  · refine (List.nodup_range g.length).imp ?_
    intro y y' hne a hay hay'
    rcases List.mem_map.mp hay with ⟨x, _, hx⟩
    rcases List.mem_map.mp hay' with ⟨x', _, hx'⟩
    apply hne
    rw [← hx] at hx'
    exact (congrArg Prod.snd hx').symm

theorem length_allPositions (g : Grid) :
    (allPositions g).length = g.length * width g := by
  have hflat : allPositions g = List.flatten ((List.range g.length).map
      (fun y => (List.range (width g)).map (fun x => ((x, y) : Location)))) := rfl
  rw [hflat, List.length_flatten, List.map_map]
  rw [show ((List.range g.length).map
      (List.length ∘ fun y => (List.range (width g)).map (fun x => ((x, y) : Location))))
      = (List.range g.length).map (fun _ => width g) from List.map_congr_left
        (fun y _ => by simp)]
  rw [List.map_const', List.sum_replicate, List.length_range, smul_eq_mul]

/-- Under `Rect`, `totalCells` is the full rectangle. -/
theorem totalCells_rect {g : Grid} (hrect : Rect g) :
    totalCells g = g.length * width g := by
  unfold totalCells
  have hgen : ∀ (rows : List (List Cell)) (n : Nat),
      (∀ row ∈ rows, row.length = width g) →
      rows.foldl (fun a r => a + r.length) n = n + rows.length * width g := by
    intro rows
    induction rows with
    | nil => intro n _; simp
    | cons row rest ih =>
        intro n hw
        rw [List.foldl_cons, ih (n + row.length)
          (fun r hr => hw r (List.mem_cons_of_mem _ hr)),
          hw row (List.mem_cons_self _ _), List.length_cons]
        ring
  rw [hgen g 0 hrect, Nat.zero_add]

/-- Discovering a fresh position strictly shrinks the undiscovered set. -/
theorem filter_notmem_cons_length {A : List Location} (hnd : A.Nodup)
    {a : Location} (ha : a ∈ A) {t : List Location} (hat : a ∉ t) :
    (A.filter (fun l => decide (l ∉ a :: t))).length + 1 =
      (A.filter (fun l => decide (l ∉ t))).length := by
  induction A with
  | nil => simp at ha
  | cons b B ih =>
      rcases List.nodup_cons.mp hnd with ⟨hbB, hndB⟩
      rw [List.filter_cons, List.filter_cons]
      by_cases hba : b = a
      · subst hba
        rw [if_neg (by simp), if_pos (by simpa using hat)]
        have hfeq : B.filter (fun l => decide (l ∉ b :: t)) =
            B.filter (fun l => decide (l ∉ t)) := by
          refine List.filter_congr ?_
          intro x hx
          have hxb : x ≠ b := fun hc => hbB (hc ▸ hx)
          simp [List.mem_cons, hxb]
        rw [hfeq, List.length_cons]
      · have hmem : a ∈ B := by
          rcases List.mem_cons.mp ha with h | h
          · exact absurd h.symm hba
          · exact h
        by_cases hbt : b ∈ t
        · rw [if_neg (by simp [hbt]), if_neg (by simpa using hbt)]
          exact ih hndB hmem
        · rw [if_pos (by simp [List.mem_cons, hba, hbt]),
            if_pos (by simpa using hbt)]
          rw [List.length_cons, List.length_cons]
          have := ih hndB hmem
          omega

/-! ### Neighbour-push fold lemmas -/

theorem pushNew_fold_shape (visited : List Location) (d : Nat) :
    ∀ (nb : List Location) (q : List (Location × Nat)) (t : List Location),
      ∃ ext, (nb.foldl (pushNew visited d) (q, t)).1 = q ++ ext ∧
        ∀ e ∈ ext, e.2 = d := by
  intro nb
  induction nb with
  | nil => intro q t; exact ⟨[], by simp, by simp⟩
  | cons a nb ih =>
      intro q t
      rw [List.foldl_cons]
      by_cases hg : a ∉ visited ∧ a ∉ t
      · rw [show pushNew visited d (q, t) a = (q ++ [(a, d)], a :: t) from by
          unfold pushNew; rw [if_pos hg]]
        rcases ih (q ++ [(a, d)]) (a :: t) with ⟨ext, hext, hval⟩
        refine ⟨(a, d) :: ext, by rw [hext, List.append_assoc]; rfl, ?_⟩
        intro e he
        rcases List.mem_cons.mp he with rfl | he'
        · rfl
        · exact hval e he'
      · rw [show pushNew visited d (q, t) a = (q, t) from by
          unfold pushNew; rw [if_neg hg]]
        exact ih q t

theorem pushNew_fold_tvs_sub (visited : List Location) (d : Nat) :
    ∀ (nb : List Location) (q : List (Location × Nat)) (t : List Location),
      ∀ l ∈ t, l ∈ (nb.foldl (pushNew visited d) (q, t)).2 := by
  intro nb
  induction nb with
  | nil => intro q t l hl; exact hl
  | cons a nb ih =>
      intro q t l hl
      rw [List.foldl_cons]
      by_cases hg : a ∉ visited ∧ a ∉ t
      · rw [show pushNew visited d (q, t) a = (q ++ [(a, d)], a :: t) from by
          unfold pushNew; rw [if_pos hg]]
        exact ih _ _ l (List.mem_cons_of_mem a hl)
      · rw [show pushNew visited d (q, t) a = (q, t) from by
          unfold pushNew; rw [if_neg hg]]
        exact ih q t l hl

theorem pushNew_fold_tvs_mem (visited : List Location) (d : Nat) :
    ∀ (nb : List Location) (q : List (Location × Nat)) (t : List Location) (l : Location),
      l ∈ (nb.foldl (pushNew visited d) (q, t)).2 ↔
        l ∈ t ∨ (l ∈ nb ∧ l ∉ visited ∧ l ∉ t) := by
  intro nb
  induction nb with
  | nil => intro q t l; simp
  | cons a nb ih =>
      intro q t l
      rw [List.foldl_cons]
      by_cases hg : a ∉ visited ∧ a ∉ t
      · rw [show pushNew visited d (q, t) a = (q ++ [(a, d)], a :: t) from by
          unfold pushNew; rw [if_pos hg]]
        rw [ih]
        constructor
        · rintro (h | ⟨h1, h2, h3⟩)
          · rcases List.mem_cons.mp h with rfl | h'
            · exact Or.inr ⟨List.mem_cons_self _ _, hg.1, hg.2⟩
            · exact Or.inl h'
          · refine Or.inr ⟨List.mem_cons_of_mem a h1, h2, fun hc => h3 ?_⟩
            exact List.mem_cons_of_mem a hc
        · rintro (h | ⟨h1, h2, h3⟩)
          · exact Or.inl (List.mem_cons_of_mem a h)
          · rcases List.mem_cons.mp h1 with rfl | h1'
            · exact Or.inl (List.mem_cons_self _ _)
            · by_cases hla : l = a
              · exact Or.inl (hla ▸ List.mem_cons_self _ _)
              · refine Or.inr ⟨h1', h2, fun hc => ?_⟩
                rcases List.mem_cons.mp hc with h' | h'
                · exact hla h'
                · exact h3 h'
      · rw [show pushNew visited d (q, t) a = (q, t) from by
          unfold pushNew; rw [if_neg hg]]
        rw [ih]
        have hga : a ∈ visited ∨ a ∈ t := by
          by_contra hc
          push_neg at hc
          exact hg ⟨hc.1, hc.2⟩
        constructor
        · rintro (h | ⟨h1, h2, h3⟩)
          · exact Or.inl h
          · exact Or.inr ⟨List.mem_cons_of_mem a h1, h2, h3⟩
        · rintro (h | ⟨h1, h2, h3⟩)
          · exact Or.inl h
          · rcases List.mem_cons.mp h1 with rfl | h1'
            · rcases hga with h' | h'
              · exact absurd h' h2
              · exact Or.inl h'
            · exact Or.inr ⟨h1', h2, h3⟩

theorem pushNew_fold_queue_mem (visited : List Location) (d : Nat) :
    ∀ (nb : List Location) (q : List (Location × Nat)) (t : List Location)
      (e : Location × Nat),
      e ∈ (nb.foldl (pushNew visited d) (q, t)).1 ↔
        e ∈ q ∨ (e.2 = d ∧ e.1 ∈ nb ∧ e.1 ∉ visited ∧ e.1 ∉ t) := by
  intro nb
  induction nb with
  | nil => intro q t e; simp
  | cons a nb ih =>
      intro q t e
      rw [List.foldl_cons]
      by_cases hg : a ∉ visited ∧ a ∉ t
      · rw [show pushNew visited d (q, t) a = (q ++ [(a, d)], a :: t) from by
          unfold pushNew; rw [if_pos hg]]
        rw [ih]
        constructor
        · rintro (h | ⟨h1, h2, h3, h4⟩)
          · rcases List.mem_append.mp h with h' | h'
            · exact Or.inl h'
            · have : e = (a, d) := by simpa using h'
              subst this
              exact Or.inr ⟨rfl, List.mem_cons_self _ _, hg.1, hg.2⟩
          · refine Or.inr ⟨h1, List.mem_cons_of_mem a h2, h3, fun hc => h4 ?_⟩
            exact List.mem_cons_of_mem a hc
        · rintro (h | ⟨h1, h2, h3, h4⟩)
          · exact Or.inl (List.mem_append_left _ h)
          · by_cases hea : e.1 = a
            · refine Or.inl (List.mem_append_right _ ?_)
              have : e = (a, d) := Prod.ext hea h1
              rw [this]
              exact List.mem_cons_self _ _
            · rcases List.mem_cons.mp h2 with h' | h'
              · exact absurd h' hea
              · refine Or.inr ⟨h1, h', h3, fun hc => ?_⟩
                rcases List.mem_cons.mp hc with h'' | h''
                · exact hea h''
                · exact h4 h''
      · rw [show pushNew visited d (q, t) a = (q, t) from by
          unfold pushNew; rw [if_neg hg]]
        rw [ih]
        have hga : a ∈ visited ∨ a ∈ t := by
          by_contra hc
          push_neg at hc
          exact hg ⟨hc.1, hc.2⟩
        constructor
        · rintro (h | ⟨h1, h2, h3, h4⟩)
          · exact Or.inl h
          · exact Or.inr ⟨h1, List.mem_cons_of_mem a h2, h3, h4⟩
        · rintro (h | ⟨h1, h2, h3, h4⟩)
          · exact Or.inl h
          · rcases List.mem_cons.mp h2 with h' | h'
            · rw [h'] at h3 h4
              rcases hga with h'' | h''
              · exact absurd h'' h3
              · exact absurd h'' h4
            · exact Or.inr ⟨h1, h', h3, h4⟩

theorem pushNew_fold_nodup (visited : List Location) (d : Nat) :
    ∀ (nb : List Location) (q : List (Location × Nat)) (t : List Location),
      (q.map Prod.fst).Nodup → (∀ e ∈ q, e.1 ∈ t) →
      ((nb.foldl (pushNew visited d) (q, t)).1.map Prod.fst).Nodup ∧
        (∀ e ∈ (nb.foldl (pushNew visited d) (q, t)).1,
          e.1 ∈ (nb.foldl (pushNew visited d) (q, t)).2) := by
  intro nb
  induction nb with
  | nil => intro q t h1 h2; exact ⟨h1, h2⟩
  | cons a nb ih =>
      intro q t h1 h2
      rw [List.foldl_cons]
      by_cases hg : a ∉ visited ∧ a ∉ t
      · rw [show pushNew visited d (q, t) a = (q ++ [(a, d)], a :: t) from by
          unfold pushNew; rw [if_pos hg]]
        refine ih _ _ ?_ ?_
        · rw [List.map_append, List.map_cons, List.map_nil]
          rw [List.nodup_append]
          refine ⟨h1, by simp, ?_⟩
          intro x hx
          rcases List.mem_map.mp hx with ⟨e, he, hex⟩
          simp only [List.mem_singleton]
          intro hc
          rw [hc] at hex
          exact hg.2 (hex ▸ h2 e he)
        · intro e he
          rcases List.mem_append.mp he with h' | h'
          · exact List.mem_cons_of_mem a (h2 e h')
          · have : e = (a, d) := by simpa using h'
            rw [this]
            exact List.mem_cons_self _ _
      · rw [show pushNew visited d (q, t) a = (q, t) from by
          unfold pushNew; rw [if_neg hg]]
        exact ih q t h1 h2

theorem pushNew_fold_fuel (visited : List Location) (d : Nat) (A : List Location)
    (hA : A.Nodup) :
    ∀ (nb : List Location) (q : List (Location × Nat)) (t : List Location),
      (∀ l ∈ nb, l ∈ A) →
      (nb.foldl (pushNew visited d) (q, t)).1.length +
        (A.filter (fun l => decide (l ∉ (nb.foldl (pushNew visited d) (q, t)).2))).length ≤
      q.length + (A.filter (fun l => decide (l ∉ t))).length := by
  intro nb
  induction nb with
  | nil => intro q t _; exact Nat.le_refl _
  | cons a nb ih =>
      intro q t hnb
      rw [List.foldl_cons]
      by_cases hg : a ∉ visited ∧ a ∉ t
      · rw [show pushNew visited d (q, t) a = (q ++ [(a, d)], a :: t) from by
          unfold pushNew; rw [if_pos hg]]
        have hstep := ih (q ++ [(a, d)]) (a :: t)
          (fun l hl => hnb l (List.mem_cons_of_mem a hl))
        have hdec := filter_notmem_cons_length hA (hnb a (List.mem_cons_self a nb)) hg.2
        rw [List.length_append, List.length_cons, List.length_nil] at hstep
        omega
      · rw [show pushNew visited d (q, t) a = (q, t) from by
          unfold pushNew; rw [if_neg hg]]
        exact ih q t (fun l hl => hnb l (List.mem_cons_of_mem a hl))

theorem pushNew_fold_len (visited : List Location) (d : Nat) :
    ∀ (nb : List Location) (q : List (Location × Nat)) (t : List Location),
      (nb.foldl (pushNew visited d) (q, t)).1.length ≤ q.length + nb.length := by
  intro nb
  induction nb with
  | nil => intro q t; simp
  | cons a nb ih =>
      intro q t
      rw [List.foldl_cons]
      by_cases hg : a ∉ visited ∧ a ∉ t
      · rw [show pushNew visited d (q, t) a = (q ++ [(a, d)], a :: t) from by
          unfold pushNew; rw [if_pos hg]]
        have := ih (q ++ [(a, d)]) (a :: t)
        rw [List.length_append, List.length_cons, List.length_nil] at this
        rw [List.length_cons]
        omega
      · rw [show pushNew visited d (q, t) a = (q, t) from by
          unfold pushNew; rw [if_neg hg]]
        have := ih q t
        rw [List.length_cons]
        omega

theorem pushNew_fold_covers (visited : List Location) (d : Nat)
    (nb : List Location) (q : List (Location × Nat)) (t : List Location) :
    ∀ l ∈ nb, l ∈ (nb.foldl (pushNew visited d) (q, t)).2 ∨ l ∈ visited := by
  intro l hl
  by_cases hv : l ∈ visited
  · exact Or.inr hv
  · left
    rw [pushNew_fold_tvs_mem]
    by_cases ht : l ∈ t
    · exact Or.inl ht
    · exact Or.inr ⟨hl, hv, ht⟩

/-! ### BFS invariant lemmas -/

theorem bfsInv_rebaseline {g : Grid} {src : Location} {visited tvs : List Location}
    {queue : List (Location × Nat)} {dg : DistGrid} {d0 : Nat}
    (inv : BfsInv g src visited tvs queue dg d0)
    (hq : ∀ e ∈ queue, e.2 = d0 + 1) :
    BfsInv g src visited tvs queue dg (d0 + 1) := by
  refine ⟨⟨queue, [], by simp, hq, by simp⟩, inv.qmem, inv.qnodup, inv.seen,
    inv.srcVisited, inv.visitedChar, inv.expand, ?_, inv.dgSrc, inv.dgChar, inv.dgDim⟩
  intro l d hopen hdist hle
  by_cases hd : d ≤ d0
  · exact inv.complete l d hopen hdist hd
  · have hd1 : d = d0 + 1 := by omega
    subst hd1
    rcases reaches_succ hdist.1 with ⟨m, hm, hstep⟩
    rcases exists_isDistTo d0 hm with ⟨dm, hdm, hdmk⟩
    have hmv : m ∈ tvs ∨ m ∈ visited := by
      rcases reaches_open_or_src hm with rfl | hmopen
      · exact Or.inr inv.srcVisited
      · exact inv.complete m dm hmopen hdm hdmk
    have hmvis : m ∈ visited := by
      rcases hmv with hmt | hmv
      · by_cases hmv2 : m ∈ visited
        · exact hmv2
        · exfalso
          have hmq := (inv.seen m).mp ⟨hmt, hmv2⟩
          rcases List.mem_map.mp hmq with ⟨e, he, hem⟩
          have h1 := (inv.qmem e he).2.1
          have h2 := hq e he
          rw [hem] at h1
          have := isDistTo_unique hdm h1
          omega
      · exact hmv
    rcases inv.expand m hmvis l hstep with h | h
    · exact Or.inl h
    · exact Or.inr h

theorem bfsInv_final {g : Grid} {src : Location} {visited tvs : List Location}
    {dg : DistGrid} {d0 : Nat} (inv : BfsInv g src visited tvs [] dg d0) :
    dgAt dg src = some 0 ∧
    ∀ l, l ≠ src → ∀ d, dgAt dg l = some d ↔
      (cellAt g l = Cell.Open ∧ IsDistTo g src l d) := by
  have htvs : ∀ l ∈ tvs, l ∈ visited := by
    intro l hl
    by_contra hc
    have := (inv.seen l).mp ⟨hl, hc⟩
    simp at this
  have hvisited : ∀ (d : Nat) (l : Location), cellAt g l = Cell.Open →
      IsDistTo g src l d → l ∈ visited := by
    intro d
    induction d using Nat.strong_induction_on with
    | _ d ihd =>
        intro l hopen hdist
        cases d with
        | zero =>
            have := reaches_zero hdist.1
            subst this
            exact inv.srcVisited
        | succ k =>
            rcases reaches_succ hdist.1 with ⟨m, hm, hstep⟩
            rcases exists_isDistTo k hm with ⟨dm, hdm, hdmk⟩
            have hmv : m ∈ visited := by
              rcases reaches_open_or_src hm with rfl | hmopen
              · exact inv.srcVisited
              · exact ihd dm (by omega) m hmopen hdm
            rcases inv.expand m hmv l hstep with h | h
            · exact htvs l h
            · exact h
  refine ⟨inv.dgSrc, ?_⟩
  intro l hl d
  rw [inv.dgChar l hl d]
  constructor
  · rintro ⟨_, h2, h3⟩
    exact ⟨h2, h3⟩
  · rintro ⟨h2, h3⟩
    exact ⟨hvisited d l h2 h3, h2, h3⟩

theorem bfsInv_step {g : Grid} {src : Location} (hrect : Rect g)
    {visited tvs : List Location} {dg : DistGrid} {d0 : Nat} {cur : Location}
    {qrest qa' qb : List (Location × Nat)}
    (inv : BfsInv g src visited tvs ((cur, d0) :: qrest) dg d0)
    (hsplit : qrest = qa' ++ qb) (hqa : ∀ e ∈ qa', e.2 = d0)
    (hqb : ∀ e ∈ qb, e.2 = d0 + 1) :
    cellAt g cur = Cell.Open ∧ cur ∉ visited ∧
    BfsInv g src (cur :: visited)
      ((in_range g cur true).foldl (pushNew (cur :: visited) (d0 + 1)) (qrest, tvs)).2
      ((in_range g cur true).foldl (pushNew (cur :: visited) (d0 + 1)) (qrest, tvs)).1
      (dgSet dg cur (some d0)) d0 := by
  have hcur := inv.qmem (cur, d0) (List.mem_cons_self _ _)
  obtain ⟨hopen, hdist, htvs, hnvis⟩ := hcur
  have hqrest_nodup : (qrest.map Prod.fst).Nodup :=
    (List.nodup_cons.mp inv.qnodup).2
  have hcur_notin_rest : cur ∉ qrest.map Prod.fst :=
    (List.nodup_cons.mp inv.qnodup).1
  have hqrest_tvs : ∀ e ∈ qrest, e.1 ∈ tvs := by
    intro e he
    exact (inv.qmem e (List.mem_cons_of_mem _ he)).2.2.1
  have hnb_sub : ∀ l ∈ in_range g cur true, l ∈ allPositions g := by
    intro l hl
    have hb := open_bounds hrect (g := g) (l := l) (by rw [in_range_open hl]; simp)
    exact mem_allPositions.mpr hb
  have hboundsdg : cur.2 < dg.length ∧ cur.1 < (dg.getD cur.2 []).length := by
    have hb := open_bounds hrect (g := g) (l := cur) (by rw [hopen]; simp)
    refine ⟨?_, ?_⟩
    · rw [inv.dgDim.1]; exact hb.2
    · rw [inv.dgDim.2 cur.2 hb.2]; exact hb.1
  have hsrcne : cur ≠ src := fun hc => hnvis (hc ▸ inv.srcVisited)
  have hnodup2 := pushNew_fold_nodup (cur :: visited) (d0 + 1)
    (in_range g cur true) qrest tvs hqrest_nodup hqrest_tvs
  refine ⟨hopen, hnvis, ?_, ?_, hnodup2.1, ?_, ?_, ?_, ?_, ?_, ?_, ?_, ?_⟩
  -- levels
  · rcases pushNew_fold_shape (cur :: visited) (d0 + 1) (in_range g cur true)
      qrest tvs with ⟨ext, hext, hval⟩
    refine ⟨qa', qb ++ ext, by rw [hext, hsplit, List.append_assoc], hqa, ?_⟩
    intro e he
    rcases List.mem_append.mp he with h | h
    · exact hqb e h
    · exact hval e h
  -- qmem
  · intro e he
    rw [pushNew_fold_queue_mem] at he
    rcases he with he | ⟨hv, hin, hnv, hnt⟩
    · have hold := inv.qmem e (List.mem_cons_of_mem _ he)
      refine ⟨hold.1, hold.2.1, ?_, ?_⟩
      · exact hnodup2.2 e (by rw [pushNew_fold_queue_mem]; exact Or.inl he)
      · intro hc
        rcases List.mem_cons.mp hc with hc' | hc'
        · exact hcur_notin_rest (hc' ▸ List.mem_map_of_mem Prod.fst he)
        · exact hold.2.2.2 hc'
    · refine ⟨in_range_open hin, ?_, ?_, hnv⟩
      · rw [hv]
        have hreach : Reaches g src e.1 (d0 + 1) := Reaches.step hdist.1 hin
        rcases exists_isDistTo (d0 + 1) hreach with ⟨dl, hdl, hdlk⟩
        have : ¬ dl ≤ d0 := by
          intro hle
          rcases inv.complete e.1 dl (in_range_open hin) hdl hle with h | h
          · exact hnt h
          · exact hnv (List.mem_cons_of_mem _ h)
        have : dl = d0 + 1 := by omega
        rw [← this]
        exact hdl
      · exact hnodup2.2 e (by
          rw [pushNew_fold_queue_mem]
          exact Or.inr ⟨hv, hin, hnv, hnt⟩)
  -- seen
  · intro l
    constructor
    · rintro ⟨hlt, hlv⟩
      rw [pushNew_fold_tvs_mem] at hlt
      have hlcur : l ≠ cur := fun hc => hlv (hc ▸ List.mem_cons_self _ _)
      have hlvold : l ∉ visited := fun hc => hlv (List.mem_cons_of_mem _ hc)
      rcases hlt with hlt | ⟨h1, h2, h3⟩
      · have hmem := (inv.seen l).mp ⟨hlt, hlvold⟩
        rcases List.mem_map.mp hmem with ⟨e, he, hel⟩
        rcases List.mem_cons.mp he with rfl | he'
        · exact absurd hel.symm hlcur
        · refine List.mem_map.mpr ⟨e, ?_, hel⟩
          rw [pushNew_fold_queue_mem]
          exact Or.inl he'
      · refine List.mem_map.mpr ⟨(l, d0 + 1), ?_, rfl⟩
        rw [pushNew_fold_queue_mem]
        exact Or.inr ⟨rfl, h1, h2, h3⟩
    · intro hl
      rcases List.mem_map.mp hl with ⟨e, he, hel⟩
      have hmem := hnodup2.2 e he
      rw [pushNew_fold_queue_mem] at he
      rcases he with he | ⟨hv, hin, hnv, hnt⟩
      · have hold := inv.qmem e (List.mem_cons_of_mem _ he)
        refine ⟨hel ▸ hmem, ?_⟩
        rw [← hel]
        intro hc
        rcases List.mem_cons.mp hc with hc' | hc'
        · exact hcur_notin_rest (hc' ▸ List.mem_map_of_mem Prod.fst he)
        · exact hold.2.2.2 hc'
      · exact ⟨hel ▸ hmem, hel ▸ hnv⟩
  -- srcVisited
  · exact List.mem_cons_of_mem _ inv.srcVisited
  -- visitedChar
  · intro l hl
    rcases List.mem_cons.mp hl with rfl | hl'
    · exact Or.inr hopen
    · exact inv.visitedChar l hl'
  -- expand
  · intro m hm l hl
    rcases List.mem_cons.mp hm with rfl | hm'
    · rcases pushNew_fold_covers (m :: visited) (d0 + 1) (in_range g m true)
        qrest tvs l hl with h | h
      · exact Or.inl h
      · exact Or.inr h
    · rcases inv.expand m hm' l hl with h | h
      · exact Or.inl (pushNew_fold_tvs_sub _ _ _ _ _ l h)
      · exact Or.inr (List.mem_cons_of_mem _ h)
  -- complete
  · intro l d hlopen hldist hld
    rcases inv.complete l d hlopen hldist hld with h | h
    · exact Or.inl (pushNew_fold_tvs_sub _ _ _ _ _ l h)
    · exact Or.inr (List.mem_cons_of_mem _ h)
  -- dgSrc
  · rw [dgAt_dgSet_ne _ hsrcne]
    exact inv.dgSrc
  -- dgChar
  · intro l hl d
    by_cases hlc : l = cur
    · subst hlc
      rw [dgAt_dgSet_self _ hboundsdg.1 hboundsdg.2]
      constructor
      · intro h
        have hd : d = d0 := by
          have := Option.some.inj h
          omega
        subst hd
        exact ⟨List.mem_cons_self _ _, hopen, hdist⟩
      · rintro ⟨_, _, hdist'⟩
        rw [isDistTo_unique hdist' hdist]
    · rw [dgAt_dgSet_ne _ (fun hc => hlc hc.symm)]
      rw [inv.dgChar l hl d]
      constructor
      · rintro ⟨h1, h2, h3⟩
        exact ⟨List.mem_cons_of_mem _ h1, h2, h3⟩
      · rintro ⟨h1, h2, h3⟩
        rcases List.mem_cons.mp h1 with hc | h1'
        · exact absurd hc hlc
        · exact ⟨h1', h2, h3⟩
  -- dgDim
  · exact ⟨by rw [length_dgSet, inv.dgDim.1],
      fun y hy => by rw [rowlen_dgSet]; exact inv.dgDim.2 y hy⟩

/-- Main BFS loop soundness: with enough fuel and a valid invariant, the loop
runs to queue exhaustion and the final distance grid satisfies the invariant
with an empty queue. -/
theorem bfsLoop_sound {g : Grid} {src : Location} (hrect : Rect g) :
    ∀ (fuel : Nat) (visited tvs : List Location) (queue : List (Location × Nat))
      (dg : DistGrid) (d0 : Nat),
      BfsInv g src visited tvs queue dg d0 →
      queue.length +
        ((allPositions g).filter (fun l => decide (l ∉ tvs))).length < fuel →
      ∃ visited' tvs' d0',
        BfsInv g src visited' tvs' [] (bfsLoop g fuel visited tvs queue dg) d0' := by
  intro fuel
  induction fuel with
  | zero =>
      intro visited tvs queue dg d0 _ hbound
      omega
  | succ fuel ih =>
      intro visited tvs queue dg d0 inv hbound
      rcases queue with _ | ⟨⟨cur, d⟩, qrest⟩
      · have h0 : bfsLoop g (fuel + 1) visited tvs [] dg = dg := by rw [bfsLoop]
        rw [h0]
        exact ⟨visited, tvs, d0, inv⟩
      · obtain ⟨qa, qb, hsplit, hqa, hqb⟩ := inv.levels
        have hkey : ∃ qa' qb', BfsInv g src visited tvs ((cur, d) :: qrest) dg d ∧
            qrest = qa' ++ qb' ∧ (∀ e ∈ qa', e.2 = d) ∧ (∀ e ∈ qb', e.2 = d + 1) := by
          rcases qa with _ | ⟨e, qa'⟩
          · simp only [List.nil_append] at hsplit
            have hall : ∀ e ∈ (cur, d) :: qrest, e.2 = d0 + 1 := by
              rw [hsplit]; exact hqb
            have hd : d = d0 + 1 := hall (cur, d) (List.mem_cons_self _ _)
            subst hd
            refine ⟨qrest, [], bfsInv_rebaseline inv hall, by simp, ?_, by simp⟩
            intro x hx
            exact hall x (List.mem_cons_of_mem _ hx)
          · rw [List.cons_append] at hsplit
            have he := List.cons.inj hsplit
            have hed : e.2 = d0 := hqa e (List.mem_cons_self _ _)
            have hd : d = d0 := by rw [← he.1] at hed; exact hed
            subst hd
            refine ⟨qa', qb, inv, he.2, ?_, hqb⟩
            intro x hx
            exact hqa x (List.mem_cons_of_mem _ hx)
        obtain ⟨qa', qb', inv2, hsplit', hqa', hqb'⟩ := hkey
        obtain ⟨hopen, hnvis, inv3⟩ := bfsInv_step hrect inv2 hsplit' hqa' hqb'
        have hstep : bfsLoop g (fuel + 1) visited tvs ((cur, d) :: qrest) dg
            = bfsLoop g fuel (cur :: visited)
                ((in_range g cur true).foldl (pushNew (cur :: visited) (d + 1))
                  (qrest, tvs)).2
                ((in_range g cur true).foldl (pushNew (cur :: visited) (d + 1))
                  (qrest, tvs)).1
                (dgSet dg cur (some d)) := by
          rw [bfsLoop]
          rw [hopen]
          dsimp only
          rw [if_neg hnvis]
        rw [hstep]
        have hnb_sub : ∀ l ∈ in_range g cur true, l ∈ allPositions g := by
          intro l hl
          have hb := open_bounds hrect (g := g) (l := l)
            (by rw [in_range_open hl]; simp)
          exact mem_allPositions.mpr hb
        have hfuel := pushNew_fold_fuel (cur :: visited) (d + 1) (allPositions g)
          (allPositions_nodup g) (in_range g cur true) qrest tvs hnb_sub
        refine ih _ _ _ _ _ inv3 ?_
        simp only [List.length_cons] at hbound
        omega

theorem in_range_length_le (g : Grid) (loc : Location) (b : Bool) :
    (in_range g loc b).length ≤ 4 := by
  unfold in_range
  exact le_trans (List.length_filterMap_le _ _) (by decide)

/-- The state of `calculate_distance_grid` just before entering the while
loop satisfies the BFS invariant at frontier level 1. -/
theorem bfs_seed_inv {g : Grid} {src : Location} (hrect : Rect g)
    (hsrc : cellAt g src ≠ Cell.Wall) {pm : List Location}
    (hpm : ∀ l, l ∈ pm ↔ l ∈ in_range g src true) :
    BfsInv g src [src]
      (pm.foldl (pushNew [src] 1) ([], [])).2
      (pm.foldl (pushNew [src] 1) ([], [])).1
      (dgSet (List.replicate g.length (List.replicate (width g) none)) src (some 0))
      1 := by
  have hb := open_bounds hrect hsrc
  have hq_mem : ∀ e : Location × Nat, e ∈ (pm.foldl (pushNew [src] 1) ([], [])).1 ↔
      e.2 = 1 ∧ e.1 ∈ pm ∧ e.1 ≠ src := by
    intro e
    rw [pushNew_fold_queue_mem]
    simp
  have ht_mem : ∀ l : Location, l ∈ (pm.foldl (pushNew [src] 1) ([], [])).2 ↔
      l ∈ pm ∧ l ≠ src := by
    intro l
    rw [pushNew_fold_tvs_mem]
    simp
  have hnodup := pushNew_fold_nodup [src] 1 pm [] [] (by simp) (by simp)
  refine ⟨?_, ?_, hnodup.1, ?_, by simp, ?_, ?_, ?_, ?_, ?_, ?_⟩
  -- levels
  · refine ⟨(pm.foldl (pushNew [src] 1) ([], [])).1, [], by simp, ?_, by simp⟩
    intro e he
    exact ((hq_mem e).mp he).1
  -- qmem
  · intro e he
    obtain ⟨hv, hmem, hne⟩ := (hq_mem e).mp he
    have hin : e.1 ∈ in_range g src true := (hpm e.1).mp hmem
    refine ⟨in_range_open hin, ?_, hnodup.2 e he, by simp [hne]⟩
    rw [hv]
    refine ⟨Reaches.step Reaches.refl hin, ?_⟩
    intro k hk
    cases k with
    | zero => exact absurd (reaches_zero hk) hne
    | succ k => omega
  -- seen
  · intro l
    constructor
    · rintro ⟨hlt, _⟩
      obtain ⟨hlpm, hlne⟩ := (ht_mem l).mp hlt
      exact List.mem_map.mpr ⟨(l, 1), (hq_mem (l, 1)).mpr ⟨rfl, hlpm, hlne⟩, rfl⟩
    · intro hl
      rcases List.mem_map.mp hl with ⟨e, he, hel⟩
      obtain ⟨_, hmem, hne⟩ := (hq_mem e).mp he
      subst hel
      exact ⟨(ht_mem e.1).mpr ⟨hmem, hne⟩, by simp [hne]⟩
  -- visitedChar
  · intro l hl
    exact Or.inl (List.mem_singleton.mp hl)
  -- expand
  · intro m hm l hl
    rw [List.mem_singleton.mp hm] at hl
    rcases pushNew_fold_covers [src] 1 pm [] [] l ((hpm l).mpr hl) with h | h
    · exact Or.inl h
    · exact Or.inr h
  -- complete
  · intro l d hlopen hldist hld
    cases d with
    | zero =>
        have hls := reaches_zero hldist.1
        subst hls
        exact Or.inr (List.mem_singleton.mpr rfl)
    | succ k =>
        have hk : k = 0 := by omega
        subst hk
        rcases reaches_succ hldist.1 with ⟨m, hm, hstep⟩
        have hms := reaches_zero hm
        subst hms
        exact Or.inl ((ht_mem l).mpr ⟨(hpm l).mpr hstep, in_range_ne hstep⟩)
  -- dgSrc
  · exact dgAt_dgSet_self (some 0)
      (by rw [List.length_replicate]; exact hb.2)
      (by rw [getD_replicate g.length (List.replicate (width g) none) [] src.2 hb.2,
        List.length_replicate]; exact hb.1)
  -- dgChar
  · intro l hl d
    constructor
    · intro h
      exfalso
      rw [dgAt_dgSet_ne (some 0) (fun hc => hl hc.symm)] at h
      rw [dgAt_replicate_none] at h
      exact Option.noConfusion h
    · rintro ⟨hmem, _, _⟩
      exact absurd (List.mem_singleton.mp hmem) hl
  -- dgDim
  · refine ⟨by rw [length_dgSet, List.length_replicate], ?_⟩
    intro y hy
    rw [rowlen_dgSet, getD_replicate g.length (List.replicate (width g) none) [] y hy,
      List.length_replicate]

/-- `calculate_distance_grid` computes exactly the BFS shortest distances:
the source gets distance 0, every other cell gets `some d` iff it is open and
`d` is the minimal number of `in_range`-steps from the source, and
unreachable or non-open cells get `none`. -/
theorem calculate_distance_grid_correct {σ : GameState} {src : Location}
    (hrect : Rect σ.grid) (hsrc : cellAt σ.grid src ≠ Cell.Wall) :
    ∃ dg, calculate_distance_grid σ src = some dg ∧
      dgAt dg src = some 0 ∧
      ∀ l, l ≠ src → ∀ d, dgAt dg l = some d ↔
        (cellAt σ.grid l = Cell.Open ∧ IsDistTo σ.grid src l d) := by
  have hinv := bfs_seed_inv hrect hsrc
    (fun l => (List.perm_insertionSort readingLe (in_range σ.grid src true)).mem_iff)
  have hfuel : ((List.insertionSort readingLe (in_range σ.grid src true)).foldl
        (pushNew [src] 1) ([], [])).1.length +
      ((allPositions σ.grid).filter (fun l => decide (l ∉
        ((List.insertionSort readingLe (in_range σ.grid src true)).foldl
          (pushNew [src] 1) ([], [])).2))).length < totalCells σ.grid + 5 := by
    have h1 := pushNew_fold_len [src] 1
      (List.insertionSort readingLe (in_range σ.grid src true)) [] []
    simp only [List.length_nil] at h1
    have h2 : (List.insertionSort readingLe (in_range σ.grid src true)).length
        = (in_range σ.grid src true).length :=
      (List.perm_insertionSort readingLe (in_range σ.grid src true)).length_eq
    have h3 := in_range_length_le σ.grid src true
    have h4 := List.length_filter_le (fun l => decide (l ∉
        ((List.insertionSort readingLe (in_range σ.grid src true)).foldl
          (pushNew [src] 1) ([], [])).2)) (allPositions σ.grid)
    have h5 := length_allPositions σ.grid
    have h6 := totalCells_rect hrect
    omega
  obtain ⟨v', t', d0', invF⟩ := bfsLoop_sound hrect (totalCells σ.grid + 5)
    _ _ _ _ _ hinv hfuel
  have hfin := bfsInv_final invF
  exact ⟨_, rfl, hfin.1, hfin.2⟩

theorem head?_mem {α : Type} {l : List α} {a : α} (h : l.head? = some a) :
    a ∈ l := by
  cases l with
  | nil => simp at h
  | cons b t =>
      simp only [List.head?_cons, Option.some.injEq] at h
      rw [← h]
      exact List.mem_cons_self _ _

/-- Characterization of a successful movement decision: the destination is an
enemy-adjacent open candidate with a defined BFS distance, that distance is
minimal among all candidates with a defined distance, the step is produced by
`first_move_on_shortest_path` on the destination, and the destination is
earliest in reading order among the minimal-distance candidates that admit a
first move. -/
theorem moveDecision_some_spec {σ : GameState} {loc : Location} {u : Unit}
    {dest step : Location}
    (h : moveDecision σ loc u = some (dest, step)) :
    ∃ dg dd, calculate_distance_grid σ loc = some dg ∧
      dest ∈ (possible_targets σ u).flatMap (fun e => in_range σ.grid e.1 true) ∧
      dgAt dg dest = some dd ∧
      (∀ tl d', tl ∈ (possible_targets σ u).flatMap
          (fun e => in_range σ.grid e.1 true) →
        dgAt dg tl = some d' → dd ≤ d') ∧
      first_move_on_shortest_path σ loc dest = some step ∧
      (∀ tl m, tl ∈ (possible_targets σ u).flatMap
          (fun e => in_range σ.grid e.1 true) →
        dgAt dg tl = some dd →
        first_move_on_shortest_path σ loc tl = some m →
        readingLe dest tl) := by
  unfold moveDecision at h
  dsimp only at h
  split at h
  · simp at h
  split at h
  · simp at h
  rename_i dg heq
  split at h
  · simp at h
  split at h
  · simp at h
  rename_i t0 rest heqSort
  have hhead := congrArg List.head? heqSort
  have hq := (List.perm_insertionSort fmpLe _).subset (head?_mem h)
  rcases List.mem_filterMap.mp hq with ⟨p, hpf, hpm⟩
  rcases Option.map_eq_some'.mp hpm with ⟨m, hm, hfm⟩
  obtain ⟨hp1, hmstep⟩ : p.1 = dest ∧ m = step := by
    simpa only [Prod.mk.injEq] using hfm
  obtain ⟨hpsort, hpdec⟩ := List.mem_filter.mp hpf
  have hpdd : p.2 = t0.2 := of_decide_eq_true hpdec
  have hptwd := (List.perm_insertionSort distLe _).subset hpsort
  rcases List.mem_filterMap.mp hptwd with ⟨a, ha, hfa⟩
  rcases hda : dgAt dg a with _ | dval
  · rw [hda] at hfa
    exact Option.noConfusion hfa
  · rw [hda] at hfa
    simp only [Option.some.injEq] at hfa
    subst hfa
    have ha1 : a = dest := hp1
    have hd1 : dval = t0.2 := hpdd
    have hm1 : first_move_on_shortest_path σ loc a = some step := by
      rw [← hmstep]
      exact hm
    subst ha1
    subst hd1
    refine ⟨dg, t0.2, heq, ha, hda, ?_, hm1, ?_⟩
    · intro tl d' htl hd'
      exact head_insertionSort_min distLe hhead (x := (tl, d'))
        (List.mem_filterMap.mpr ⟨tl, htl, by rw [hd']⟩)
    · intro tl m' htl hdd hfm'
      refine head_insertionSort_min fmpLe h (x := (tl, m')) ?_
      refine List.mem_filterMap.mpr ⟨(tl, t0.2), List.mem_filter.mpr ⟨?_, ?_⟩, ?_⟩
      · exact (List.perm_insertionSort distLe _).mem_iff.mpr
          (List.mem_filterMap.mpr ⟨tl, htl, by rw [hdd]⟩)
      · simp
      · dsimp only
        rw [hfm', Option.map_some']

/-- On a rectangular grid the open-neighbour step is symmetric between open
cells: the boundary guards of the reverse direction are implied by the
in-bounds position of the (open) stepped-from cell. -/
theorem in_range_symm {g : Grid} (hrect : Rect g) {m c : Location}
    (hm : cellAt g m = Cell.Open) (hc : c ∈ in_range g m true) :
    m ∈ in_range g c true := by
  obtain ⟨_, hstep⟩ := mem_in_range_iff.mp hc
  have hmb := open_bounds hrect (g := g) (l := m) (by rw [hm]; simp)
  refine mem_in_range_iff.mpr ⟨Or.inl hm, ?_⟩
  unfold inRangeStep at hstep ⊢
  rcases hstep with ⟨h1, h2⟩ | ⟨h1, h2⟩ | ⟨h1, h2⟩ | ⟨h1, h2⟩ <;> subst h2
  · right; right; left
    exact ⟨by show m.2 + 1 ≠ 0; omega,
      Prod.ext rfl (by show m.2 = m.2 + 1 - 1; omega)⟩
  · right; right; right
    exact ⟨by show m.1 + 1 ≠ 0; omega,
      Prod.ext (by show m.1 = m.1 + 1 - 1; omega) rfl⟩
  · left
    have hb2 := hmb.2
    exact ⟨by show m.2 - 1 ≠ g.length - 1; omega,
      Prod.ext rfl (by show m.2 = m.2 - 1 + 1; omega)⟩
  · right; left
    have hb1 := hmb.1
    exact ⟨by show m.1 - 1 ≠ width g - 1; omega,
      Prod.ext (by show m.1 = m.1 - 1 + 1; omega) rfl⟩

/-- Prepend one step at the source end of a walk. -/
theorem reaches_cons {g : Grid} {c m x : Location} {j : Nat}
    (hstep : m ∈ in_range g c true) (h : Reaches g m x j) :
    Reaches g c x (j + 1) := by
  induction h with
  | refl => exact Reaches.step Reaches.refl hstep
  | step _ hs ih => exact Reaches.step ih hs

/-- Walks between open cells reverse on a rectangular grid, preserving
length. -/
theorem reaches_symm {g : Grid} (hrect : Rect g) {a : Location}
    (ha : cellAt g a = Cell.Open) :
    ∀ {b : Location} {n : Nat}, Reaches g a b n → cellAt g b = Cell.Open →
      Reaches g b a n := by
  intro b n h
  induction h with
  | refl => intro _; exact Reaches.refl
  | step hr hs ih =>
      intro _
      rcases reaches_open_or_src hr with rfl | hmopen
      · exact reaches_cons (in_range_symm hrect ha hs) (ih ha)
      · exact reaches_cons (in_range_symm hrect hmopen hs) (ih hmopen)

/-- The head of the filtered stable sort is minimal among all elements of the
original list that pass the filter. -/
theorem head_filter_sorted_min {α : Type} (r : α → α → Prop) [DecidableRel r]
    [IsTotal α r] [IsTrans α r] {l : List α} (p : α → Bool) {a : α}
    (h : ((List.insertionSort r l).filter p).head? = some a)
    {x : α} (hx : x ∈ l) (hpx : p x = true) : r a x := by
  have hs : List.Sorted r (List.insertionSort r l) := List.sorted_insertionSort r l
  have hs' : List.Sorted r ((List.insertionSort r l).filter p) :=
    List.Pairwise.sublist (List.filter_sublist _) hs
  have hx' : x ∈ (List.insertionSort r l).filter p :=
    List.mem_filter.mpr ⟨(List.perm_insertionSort r l).symm.subset hx, hpx⟩
  rcases hfil : (List.insertionSort r l).filter p with _ | ⟨b, t⟩
  · rw [hfil] at h
    simp at h
  · rw [hfil] at h hs' hx'
    simp only [List.head?_cons, Option.some.injEq] at h
    subst h
    rcases List.mem_cons.mp hx' with rfl | hmem
    · rcases IsTotal.total (r := r) x x with h' | h'
      · exact h'
      · exact h'
    · exact (List.sorted_cons.mp hs').1 x hmem

/-- A walk of positive length admits a first step: an open neighbour of the
source from which the rest of the walk continues. -/
theorem reaches_first_step {g : Grid} {src : Location} :
    ∀ (j : Nat) (x : Location), Reaches g src x (j + 1) →
      ∃ n, n ∈ in_range g src true ∧ Reaches g n x j := by
  intro j
  induction j with
  | zero =>
      intro x h
      rcases reaches_succ h with ⟨m, hm, hstep⟩
      have hms := reaches_zero hm
      subst hms
      exact ⟨x, hstep, Reaches.refl⟩
  | succ k ih =>
      intro x h
      rcases reaches_succ h with ⟨m, hm, hstep⟩
      rcases ih m hm with ⟨n, hn, hr⟩
      exact ⟨n, hn, Reaches.step hr hstep⟩

/-- A target cell distinct from the unit's position and at a finite shortest
distance always admits a first move: the filtered candidate list of
`first_move_on_shortest_path` is nonempty. -/
theorem first_move_exists {σ : GameState} (hrect : Rect σ.grid)
    {loc tl : Location} {dd : Nat}
    (hne : tl ≠ loc) (hopen : cellAt σ.grid tl = Cell.Open)
    (hdist : IsDistTo σ.grid loc tl dd) :
    ∃ m, first_move_on_shortest_path σ loc tl = some m := by
  cases dd with
  | zero => exact absurd (reaches_zero hdist.1) hne
  | succ k =>
      rcases reaches_first_step k tl hdist.1 with ⟨n, hn, hr⟩
      have hnopen := in_range_open hn
      have htlnw : cellAt σ.grid tl ≠ Cell.Wall := by rw [hopen]; simp
      obtain ⟨dg2, hdg2, hsrc2, hchar2⟩ :=
        calculate_distance_grid_correct hrect htlnw
      have hnsome : (dgAt dg2 n).isSome = true := by
        by_cases hntl : n = tl
        · subst hntl
          rw [hsrc2]
          rfl
        · have hrev : Reaches σ.grid tl n k := reaches_symm hrect hnopen hr hopen
          rcases exists_isDistTo k hrev with ⟨d2, hd2, _⟩
          rw [(hchar2 n hntl d2).mpr ⟨hnopen, hd2⟩]
          rfl
      unfold first_move_on_shortest_path
      rw [hdg2]
      dsimp only
      have hmem : n ∈ (List.insertionSort (fmLe dg2)
          (in_range σ.grid loc true)).filter (fun x => (dgAt dg2 x).isSome) :=
        List.mem_filter.mpr
          ⟨(List.perm_insertionSort (fmLe dg2) _).symm.subset hn, hnsome⟩
      rcases hcase : (List.insertionSort (fmLe dg2)
          (in_range σ.grid loc true)).filter (fun x => (dgAt dg2 x).isSome)
        with _ | ⟨b, t⟩
      · rw [hcase] at hmem
        exact absurd hmem (by simp)
      · exact ⟨b, rfl⟩

/-- Characterization of a successful `first_move_on_shortest_path`: the step
is an open neighbour of the unit's position with a defined distance from the
target, minimal with respect to (distance from the target, then reading
order) among all such neighbours. -/
theorem first_move_some_spec {σ : GameState} {loc to_ step : Location}
    (h : first_move_on_shortest_path σ loc to_ = some step) :
    ∃ dg2, calculate_distance_grid σ to_ = some dg2 ∧
      step ∈ in_range σ.grid loc true ∧ (dgAt dg2 step).isSome = true ∧
      ∀ n ∈ in_range σ.grid loc true, (dgAt dg2 n).isSome = true →
        fmLe dg2 step n := by
  unfold first_move_on_shortest_path at h
  dsimp only at h
  split at h
  · simp at h
  rename_i dg2 heq
  have hmem := head?_mem h
  obtain ⟨hsort, hsome⟩ := List.mem_filter.mp hmem
  refine ⟨dg2, heq, (List.perm_insertionSort _ _).subset hsort, hsome, ?_⟩
  intro n hn hnsome
  exact head_filter_sorted_min (fmLe dg2) _ h hn hnsome

/-! ### Claim C9 -/

/-- C9: on a rectangular grid, for any two open cells `a` and `b`, the
distance that `calculate_distance_grid` run from `a` assigns to `b` equals
the distance the run from `b` assigns to `a`, including both being
no-distance when the cells are mutually unreachable. -/
theorem distance_grid_symmetric {σ : GameState} {a b : Location}
    (hrect : Rect σ.grid)
    (ha : cellAt σ.grid a = Cell.Open) (hb : cellAt σ.grid b = Cell.Open) :
    ∃ dga dgb, calculate_distance_grid σ a = some dga ∧
      calculate_distance_grid σ b = some dgb ∧
      dgAt dga b = dgAt dgb a := by
  have hanw : cellAt σ.grid a ≠ Cell.Wall := by rw [ha]; simp
  have hbnw : cellAt σ.grid b ≠ Cell.Wall := by rw [hb]; simp
  obtain ⟨dga, hdga, hsrca, hchara⟩ := calculate_distance_grid_correct hrect hanw
  obtain ⟨dgb, hdgb, hsrcb, hcharb⟩ := calculate_distance_grid_correct hrect hbnw
  refine ⟨dga, dgb, hdga, hdgb, ?_⟩
  by_cases hab : a = b
  · subst hab
    have hee : dga = dgb := by
      rw [hdga] at hdgb
      exact Option.some.inj hdgb
    rw [hee]
  · have hba : b ≠ a := fun hc => hab hc.symm
    cases hcase : dgAt dga b with
    | some d =>
        obtain ⟨_, hdist⟩ := (hchara b hba d).mp hcase
        have hrev : IsDistTo σ.grid b a d := by
          constructor
          · exact reaches_symm hrect ha hdist.1 hb
          · intro k hk
            exact hdist.2 k (reaches_symm hrect hb hk ha)
        rw [(hcharb a hab d).mpr ⟨ha, hrev⟩]
    | none =>
        cases hcase2 : dgAt dgb a with
        | none => rfl
        | some d =>
            exfalso
            obtain ⟨_, hdist⟩ := (hcharb a hab d).mp hcase2
            have hrev : Reaches σ.grid a b d := reaches_symm hrect hb hdist.1 ha
            rcases exists_isDistTo d hrev with ⟨d2, hd2, _⟩
            have hcontra := (hchara b hba d2).mpr ⟨hb, hd2⟩
            rw [hcase] at hcontra
            exact Option.noConfusion hcontra

/-- Concrete instantiation of the C9 theorem on a parsed 4x3 corridor with
two open cells. -/
theorem distance_grid_symmetric_witness :
    Rect ((GameState.fromStr "####\n#..#\n####").getD ⟨[], [], []⟩).grid ∧
    cellAt ((GameState.fromStr "####\n#..#\n####").getD ⟨[], [], []⟩).grid (1, 1)
      = Cell.Open ∧
    cellAt ((GameState.fromStr "####\n#..#\n####").getD ⟨[], [], []⟩).grid (2, 1)
      = Cell.Open ∧
    (∃ dga dgb,
      calculate_distance_grid ((GameState.fromStr "####\n#..#\n####").getD
        ⟨[], [], []⟩) (1, 1) = some dga ∧
      calculate_distance_grid ((GameState.fromStr "####\n#..#\n####").getD
        ⟨[], [], []⟩) (2, 1) = some dgb ∧
      dgAt dga (2, 1) = dgAt dgb (1, 1)) :=
  ⟨by decide, by decide, by decide,
    distance_grid_symmetric (by decide) (by decide) (by decide)⟩

/-! ### Registry-order equivalence (hash-map iteration order independence) -/

theorem perm_isEmpty {α : Type} {l1 l2 : List α} (h : List.Perm l1 l2) :
    l1.isEmpty = l2.isEmpty := by
  rcases l1 with _ | ⟨a, t⟩
  · rw [← h.nil_eq]
  · have hlen := h.length_eq
    rcases l2 with _ | ⟨b, t2⟩
    · simp at hlen
    · rfl

theorem perm_flatMap {α β : Type} (f : α → List β) {l1 l2 : List α}
    (h : List.Perm l1 l2) : List.Perm (l1.flatMap f) (l2.flatMap f) := by
  induction h with
  | nil => simp
  | cons a h ih =>
      simp only [List.flatMap_cons]
      exact List.Perm.append_left (f a) ih
  | swap a b l =>
      simp only [List.flatMap_cons]
      rw [← List.append_assoc, ← List.append_assoc]
      exact List.Perm.append_right _ List.perm_append_comm
  | trans h1 h2 ih1 ih2 => exact ih1.trans ih2

theorem foldl_count_perm {α : Type} (p : α → Prop) [DecidablePred p]
    {l1 l2 : List α} (hp : List.Perm l1 l2) (n : Nat) :
    l1.foldl (fun acc e => if p e then acc + 1 else acc) n =
      l2.foldl (fun acc e => if p e then acc + 1 else acc) n := by
  rw [foldl_count_eq, foldl_count_eq, hp.countP_eq]

theorem foldl_sum_perm {α : Type} (p : α → Prop) [DecidablePred p] (f : α → Nat)
    {l1 l2 : List α} (hp : List.Perm l1 l2) (n : Nat) :
    l1.foldl (fun acc e => if p e then acc + f e else acc) n =
      l2.foldl (fun acc e => if p e then acc + f e else acc) n := by
  rw [foldl_sum_eq, foldl_sum_eq]
  congr 1
  exact List.Perm.sum_eq (List.Perm.map f (hp.filter _))

theorem insertionSort_rel_congr {α : Type} (r r' : α → α → Prop)
    [DecidableRel r] [DecidableRel r'] [IsTotal α r] [IsTrans α r]
    [IsTotal α r'] [IsTrans α r'] {l : List α}
    (hiff : ∀ a b, r a b ↔ r' a b)
    (hanti : ∀ a b, a ∈ l → b ∈ l → r a b → r b a → a = b) :
    List.insertionSort r l = List.insertionSort r' l := by
  refine sorted_perm_eq
    ((List.perm_insertionSort r l).trans (List.perm_insertionSort r' l).symm)
    (List.sorted_insertionSort r l) ?_ ?_
  · exact List.Pairwise.imp (fun h => (hiff _ _).mpr h)
      (List.sorted_insertionSort r' l)
  · intro a b ha hb
    exact hanti a b ((List.perm_insertionSort r l).subset ha)
      ((List.perm_insertionSort r l).subset hb)

theorem num_alive_equiv {σ1 σ2 : GameState} (hh : σ1.heap = σ2.heap)
    (hp : List.Perm σ1.combatants σ2.combatants) (t : UnitType) :
    num_combatants_alive σ1 t = num_combatants_alive σ2 t := by
  unfold num_combatants_alive
  rw [hh]
  exact foldl_count_perm _ hp 0

theorem remaining_health_equiv {σ1 σ2 : GameState} (hh : σ1.heap = σ2.heap)
    (hp : List.Perm σ1.combatants σ2.combatants) (t : UnitType) :
    remaining_health_for_faction σ1 t = remaining_health_for_faction σ2 t := by
  unfold remaining_health_for_faction
  rw [hh]
  exact foldl_sum_perm _ _ hp 0

theorem possible_targets_equiv {σ1 σ2 : GameState} (hh : σ1.heap = σ2.heap)
    (hp : List.Perm σ1.combatants σ2.combatants) (u : Unit) :
    List.Perm (possible_targets σ1 u) (possible_targets σ2 u) := by
  unfold possible_targets
  rw [hh]
  exact hp.filter _

theorem calculate_distance_grid_grid_congr {σ1 σ2 : GameState}
    (hg : σ1.grid = σ2.grid) (src : Location) :
    calculate_distance_grid σ1 src = calculate_distance_grid σ2 src := by
  unfold calculate_distance_grid
  rw [hg]

theorem first_move_grid_congr {σ1 σ2 : GameState} (hg : σ1.grid = σ2.grid)
    (loc to_ : Location) :
    first_move_on_shortest_path σ1 loc to_
      = first_move_on_shortest_path σ2 loc to_ := by
  unfold first_move_on_shortest_path
  rw [calculate_distance_grid_grid_congr hg, hg]

theorem adjacentEnemies_equiv {σ1 σ2 : GameState} (hg : σ1.grid = σ2.grid)
    (hh : σ1.heap = σ2.heap) (hp : List.Perm σ1.combatants σ2.combatants)
    (hnd : NodupKeys σ1.combatants) (u : Unit) (loc : Location) :
    adjacentEnemies σ1 u loc = adjacentEnemies σ2 u loc := by
  unfold adjacentEnemies
  rw [hg, hh]
  congr 1
  funext p
  rw [lookupLoc_perm hp hnd p]

theorem enemyLe_iff_equiv {σ1 σ2 : GameState} (hh : σ1.heap = σ2.heap) :
    ∀ a b, enemyLe σ1 a b ↔ enemyLe σ2 a b := by
  intro a b
  unfold enemyLe
  rw [hh]

theorem prioritized_enemy_equiv {σ1 σ2 : GameState} (hg : σ1.grid = σ2.grid)
    (hh : σ1.heap = σ2.heap) (hp : List.Perm σ1.combatants σ2.combatants)
    (hnd : NodupKeys σ1.combatants) (u : Unit) (loc : Location) :
    prioritized_enemy σ1 u loc = prioritized_enemy σ2 u loc := by
  have hAE := adjacentEnemies_equiv hg hh hp hnd u loc
  unfold prioritized_enemy
  rw [hAE]
  dsimp only
  have hsort : List.insertionSort (enemyLe σ1) (adjacentEnemies σ2 u loc)
      = List.insertionSort (enemyLe σ2) (adjacentEnemies σ2 u loc) := by
    refine insertionSort_rel_congr _ _ (enemyLe_iff_equiv hh) ?_
    rintro ⟨ap, aid⟩ ⟨bp, bid⟩ ha hb h1 h2
    have hloc : ap = bp := by
      simp only [enemyLe] at h1 h2
      rcases h1 with h1 | ⟨he1, hr1⟩
      · rcases h2 with h2 | ⟨he2, hr2⟩
        · omega
        · omega
      · rcases h2 with h2 | ⟨he2, hr2⟩
        · omega
        · exact readingLe_antisymm hr1 hr2
    subst hloc
    have hma := (mem_adjacentEnemies_iff.mp ha).2.1
    have hmb := (mem_adjacentEnemies_iff.mp hb).2.1
    rw [hma] at hmb
    rw [Option.some.inj hmb]
  rw [hsort]

/-- The movement decision does not depend on the registry iteration order:
permuting the registry (hash-map order) leaves the chosen destination and
step unchanged. -/
theorem moveDecision_equiv {σ1 σ2 : GameState} (hg : σ1.grid = σ2.grid)
    (hh : σ1.heap = σ2.heap) (hp : List.Perm σ1.combatants σ2.combatants)
    (hnd : NodupKeys σ1.combatants) (loc : Location) (u : Unit) :
    moveDecision σ1 loc u = moveDecision σ2 loc u := by
  have hpt := possible_targets_equiv hh hp u
  unfold moveDecision
  dsimp only
  rw [hg, calculate_distance_grid_grid_congr hg loc]
  have hfmf : (fun p : Location × Nat =>
      (first_move_on_shortest_path σ1 loc p.1).map (fun m => (p.1, m)))
      = (fun p : Location × Nat =>
      (first_move_on_shortest_path σ2 loc p.1).map (fun m => (p.1, m))) :=
    funext fun p => by rw [first_move_grid_congr hg]
  rw [hfmf]
  rw [perm_isEmpty hpt]
  by_cases hempty : (possible_targets σ2 u).isEmpty = true
  · rw [if_pos hempty, if_pos hempty]
  · rw [if_neg hempty, if_neg hempty]
    rcases hcd : calculate_distance_grid σ2 loc with _ | dg
    · rfl
    · dsimp only
      have htwd : List.Perm
          (((possible_targets σ1 u).flatMap
            (fun e => in_range σ2.grid e.1 true)).filterMap
            (fun tl => match dgAt dg tl with
              | none => none
              | some d => some (tl, d)))
          (((possible_targets σ2 u).flatMap
            (fun e => in_range σ2.grid e.1 true)).filterMap
            (fun tl => match dgAt dg tl with
              | none => none
              | some d => some (tl, d))) :=
        List.Perm.filterMap _ (perm_flatMap _ hpt)
      rw [perm_isEmpty htwd]
      by_cases htwde : (((possible_targets σ2 u).flatMap
          (fun e => in_range σ2.grid e.1 true)).filterMap
          (fun tl => match dgAt dg tl with
            | none => none
            | some d => some (tl, d))).isEmpty = true
      · rw [if_pos htwde, if_pos htwde]
      · rw [if_neg htwde, if_neg htwde]
        have hsperm := (List.perm_insertionSort distLe
            (((possible_targets σ1 u).flatMap
              (fun e => in_range σ2.grid e.1 true)).filterMap
              (fun tl => match dgAt dg tl with
                | none => none
                | some d => some (tl, d)))).trans
          (htwd.trans (List.perm_insertionSort distLe _).symm)
        rcases h1 : List.insertionSort distLe
            (((possible_targets σ1 u).flatMap
              (fun e => in_range σ2.grid e.1 true)).filterMap
              (fun tl => match dgAt dg tl with
                | none => none
                | some d => some (tl, d))) with _ | ⟨t1, r1⟩
        · rcases h2 : List.insertionSort distLe
              (((possible_targets σ2 u).flatMap
                (fun e => in_range σ2.grid e.1 true)).filterMap
                (fun tl => match dgAt dg tl with
                  | none => none
                  | some d => some (tl, d))) with _ | ⟨t2, r2⟩
          · rfl
          · rw [h1, h2] at hsperm
            exact absurd hsperm.nil_eq (by simp)
        · rcases h2 : List.insertionSort distLe
              (((possible_targets σ2 u).flatMap
                (fun e => in_range σ2.grid e.1 true)).filterMap
                (fun tl => match dgAt dg tl with
                  | none => none
                  | some d => some (tl, d))) with _ | ⟨t2, r2⟩
          · rw [h1, h2] at hsperm
            exact absurd hsperm.symm.nil_eq (by simp)
          · have hsp12 : List.Perm (t1 :: r1) (t2 :: r2) := by
              rw [← h1, ← h2]
              exact hsperm
            have hsh : t1.2 = t2.2 := by
              have ht2 : t2 ∈ List.insertionSort distLe
                  (((possible_targets σ1 u).flatMap
                    (fun e => in_range σ2.grid e.1 true)).filterMap
                    (fun tl => match dgAt dg tl with
                      | none => none
                      | some d => some (tl, d))) := by
                rw [h1]
                exact hsp12.symm.subset (List.mem_cons_self _ _)
              have ht1 : t1 ∈ List.insertionSort distLe
                  (((possible_targets σ2 u).flatMap
                    (fun e => in_range σ2.grid e.1 true)).filterMap
                    (fun tl => match dgAt dg tl with
                      | none => none
                      | some d => some (tl, d))) := by
                rw [h2]
                exact hsp12.subset (List.mem_cons_self _ _)
              have hm1 := head_insertionSort_min distLe (x := t2)
                (congrArg List.head? h1)
                ((List.perm_insertionSort distLe _).subset ht2)
              have hm2 := head_insertionSort_min distLe (x := t1)
                (congrArg List.head? h2)
                ((List.perm_insertionSort distLe _).subset ht1)
              exact Nat.le_antisymm hm1 hm2
            have hfperm : List.Perm
                ((t1 :: r1).filter (fun p => p.2 = t1.2))
                ((t2 :: r2).filter (fun p => p.2 = t2.2)) := by
              rw [hsh]
              exact hsp12.filter _
            have hfmsperm := List.Perm.filterMap
              (fun p : Location × Nat =>
                (first_move_on_shortest_path σ2 loc p.1).map (fun m => (p.1, m)))
              hfperm
            have hdet : ∀ x ∈ ((t1 :: r1).filter
                (fun p : Location × Nat => p.2 = t1.2)).filterMap
                (fun p : Location × Nat =>
                  (first_move_on_shortest_path σ2 loc p.1).map (fun m => (p.1, m))),
                first_move_on_shortest_path σ2 loc x.1 = some x.2 := by
              intro x hx
              rcases List.mem_filterMap.mp hx with ⟨q, _, hq⟩
              rcases Option.map_eq_some'.mp hq with ⟨m, hm, hqm⟩
              rw [← hqm]
              exact hm
            have heq : List.insertionSort fmpLe (((t1 :: r1).filter
                (fun p : Location × Nat => p.2 = t1.2)).filterMap
                (fun p : Location × Nat =>
                  (first_move_on_shortest_path σ2 loc p.1).map (fun m => (p.1, m))))
                = List.insertionSort fmpLe (((t2 :: r2).filter
                (fun p : Location × Nat => p.2 = t2.2)).filterMap
                (fun p : Location × Nat =>
                  (first_move_on_shortest_path σ2 loc p.1).map (fun m => (p.1, m)))) := by
              refine sorted_perm_eq
                ((List.perm_insertionSort fmpLe _).trans
                  (hfmsperm.trans (List.perm_insertionSort fmpLe _).symm))
                (List.sorted_insertionSort fmpLe _)
                (List.sorted_insertionSort fmpLe _) ?_
              intro a b ha hb hab hba
              have ha' := hdet a ((List.perm_insertionSort fmpLe _).subset ha)
              have hb' := hdet b ((List.perm_insertionSort fmpLe _).subset hb)
              have hab' : readingLe a.1 b.1 := hab
              have hba' : readingLe b.1 a.1 := hba
              have hab1 : a.1 = b.1 := readingLe_antisymm hab' hba'
              rw [hab1] at ha'
              rw [ha'] at hb'
              exact Prod.ext hab1 (Option.some.inj hb')
            dsimp only
            rw [heq]

/-- `cheat` reads only the grid and the unit heap, never the registry. -/
theorem cheat_congr {σ1 σ2 : GameState} (hg : σ1.grid = σ2.grid)
    (hh : σ1.heap = σ2.heap) (p : Nat) : cheat σ1 p = cheat σ2 p := by
  unfold cheat
  rw [hg, hh]

theorem attackStep_equiv {σ1 σ2 : GameState} (hg : σ1.grid = σ2.grid)
    (hh : σ1.heap = σ2.heap) (hp : List.Perm σ1.combatants σ2.combatants)
    (hnd : NodupKeys σ1.combatants) (s : Nat) (eloc : Location) (eid : Nat) :
    (attackStep σ1 s eloc eid).grid = (attackStep σ2 s eloc eid).grid ∧
    (attackStep σ1 s eloc eid).heap = (attackStep σ2 s eloc eid).heap ∧
    List.Perm (attackStep σ1 s eloc eid).combatants
      (attackStep σ2 s eloc eid).combatants ∧
    NodupKeys (attackStep σ1 s eloc eid).combatants := by
  unfold attackStep
  dsimp only
  rw [hh, hg]
  by_cases hdie : (take_damage (heapGet σ2.heap eid) s).2 = true
  · rw [if_pos hdie, if_pos hdie]
    exact ⟨rfl, rfl, removeLoc_perm hp eloc, nodupKeys_removeLoc hnd eloc⟩
  · rw [if_neg hdie, if_neg hdie]
    exact ⟨rfl, rfl, hp, hnd⟩

theorem applyMove_equiv {σ1 σ2 : GameState} (hg : σ1.grid = σ2.grid)
    (hh : σ1.heap = σ2.heap) (hp : List.Perm σ1.combatants σ2.combatants)
    (hnd : NodupKeys σ1.combatants) (loc newLoc : Location) (uid : Nat) :
    (applyMove σ1 loc newLoc uid).grid = (applyMove σ2 loc newLoc uid).grid ∧
    (applyMove σ1 loc newLoc uid).heap = (applyMove σ2 loc newLoc uid).heap ∧
    List.Perm (applyMove σ1 loc newLoc uid).combatants
      (applyMove σ2 loc newLoc uid).combatants ∧
    NodupKeys (applyMove σ1 loc newLoc uid).combatants := by
  unfold applyMove
  dsimp only
  rw [hh, hg]
  refine ⟨rfl, rfl, ?_, ?_⟩
  · unfold insertLoc
    exact List.Perm.cons _ (removeLoc_perm (removeLoc_perm hp loc) newLoc)
  · exact nodupKeys_insertLoc (nodupKeys_removeLoc hnd loc) newLoc uid

/-- One full pass of the per-unit turn body gives the same round result and
registry-order-equivalent states, for any two registry orders. -/
theorem turnGo_equiv :
    ∀ (snap : List (Location × Nat)) (σ1 σ2 : GameState),
      σ1.grid = σ2.grid → σ1.heap = σ2.heap →
      List.Perm σ1.combatants σ2.combatants → NodupKeys σ1.combatants →
      (turnGo snap σ1).1 = (turnGo snap σ2).1 ∧
      (turnGo snap σ1).2.grid = (turnGo snap σ2).2.grid ∧
      (turnGo snap σ1).2.heap = (turnGo snap σ2).2.heap ∧
      List.Perm (turnGo snap σ1).2.combatants (turnGo snap σ2).2.combatants ∧
      NodupKeys (turnGo snap σ1).2.combatants := by
  intro snap
  induction snap with
  | nil =>
      intro σ1 σ2 hg hh hp hnd
      rw [turnGo, turnGo]
      unfold finalCount
      dsimp only
      rw [num_alive_equiv hh hp UnitType.Goblin, num_alive_equiv hh hp UnitType.Elf]
      by_cases h0 : num_combatants_alive σ2 UnitType.Goblin = 0 ∨
          num_combatants_alive σ2 UnitType.Elf = 0
      · rw [if_pos h0, if_pos h0]
        by_cases hgob : num_combatants_alive σ2 UnitType.Goblin = 0
        · rw [if_pos hgob, if_pos hgob]
          exact ⟨rfl, hg, hh, hp, hnd⟩
        · rw [if_neg hgob, if_neg hgob]
          exact ⟨rfl, hg, hh, hp, hnd⟩
      · rw [if_neg h0, if_neg h0]
        exact ⟨rfl, hg, hh, hp, hnd⟩
  | cons e rest ih =>
      intro σ1 σ2 hg hh hp hnd
      rcases e with ⟨loc, uid⟩
      rw [turnGo, turnGo]
      dsimp only
      rw [hh]
      have hea : enemies_alive σ1 (heapGet σ2.heap uid) ↔
          enemies_alive σ2 (heapGet σ2.heap uid) := by
        unfold enemies_alive
        rw [num_alive_equiv hh hp]
      by_cases he : enemies_alive σ2 (heapGet σ2.heap uid)
      · rw [if_neg (not_not.mpr (hea.mpr he)), if_neg (not_not.mpr he)]
        by_cases hdead : (heapGet σ2.heap uid).is_dead = true
        · rw [if_pos hdead, if_pos hdead]
          exact ih σ1 σ2 hg hh hp hnd
        · rw [if_neg hdead, if_neg hdead]
          rw [prioritized_enemy_equiv hg hh hp hnd (heapGet σ2.heap uid) loc]
          rcases hpe : prioritized_enemy σ2 (heapGet σ2.heap uid) loc with _ | en
          · dsimp only
            rw [moveDecision_equiv hg hh hp hnd loc (heapGet σ2.heap uid)]
            rcases hmv : moveDecision σ2 loc (heapGet σ2.heap uid) with _ | mv
            · dsimp only
              exact ih σ1 σ2 hg hh hp hnd
            · dsimp only
              obtain ⟨hg2, hh2, hp2, hnd2⟩ := applyMove_equiv hg hh hp hnd loc mv.2 uid
              rw [hh2]
              rw [prioritized_enemy_equiv hg2 hh2 hp2 hnd2
                (heapGet (applyMove σ2 loc mv.2 uid).heap uid) mv.2]
              rcases hpe2 : prioritized_enemy (applyMove σ2 loc mv.2 uid)
                  (heapGet (applyMove σ2 loc mv.2 uid).heap uid) mv.2 with _ | ne
              · dsimp only
                exact ih _ _ hg2 hh2 hp2 hnd2
              · dsimp only
                obtain ⟨hg3, hh3, hp3, hnd3⟩ := attackStep_equiv hg2 hh2 hp2 hnd2
                  (heapGet (applyMove σ2 loc mv.2 uid).heap uid).strength ne.1 ne.2
                exact ih _ _ hg3 hh3 hp3 hnd3
          · dsimp only
            obtain ⟨hg2, hh2, hp2, hnd2⟩ := attackStep_equiv hg hh hp hnd
              (heapGet σ2.heap uid).strength en.1 en.2
            exact ih _ _ hg2 hh2 hp2 hnd2
      · rw [if_pos (fun hc => he (hea.mp hc)), if_pos he]
        exact ⟨rfl, hg, hh, hp, hnd⟩

/-- A full round gives the same result and equivalent states for any registry
order: the round-start snapshots of two permuted registries are literally
equal (reading order is antisymmetric on the distinct unit locations). -/
theorem turn_equiv {σ1 σ2 : GameState} (hg : σ1.grid = σ2.grid)
    (hh : σ1.heap = σ2.heap) (hp : List.Perm σ1.combatants σ2.combatants)
    (hnd : NodupKeys σ1.combatants) :
    (turn σ1).1 = (turn σ2).1 ∧
    (turn σ1).2.grid = (turn σ2).2.grid ∧
    (turn σ1).2.heap = (turn σ2).2.heap ∧
    List.Perm (turn σ1).2.combatants (turn σ2).2.combatants ∧
    NodupKeys (turn σ1).2.combatants := by
  unfold turn
  have hsnap : List.insertionSort snapLe σ1.combatants
      = List.insertionSort snapLe σ2.combatants := by
    refine sorted_perm_eq
      ((List.perm_insertionSort snapLe σ1.combatants).trans
        (hp.trans (List.perm_insertionSort snapLe σ2.combatants).symm))
      (List.sorted_insertionSort snapLe σ1.combatants)
      (List.sorted_insertionSort snapLe σ2.combatants) ?_
    intro a b ha hb hab hba
    have ha' : a ∈ σ1.combatants := (List.perm_insertionSort snapLe _).subset ha
    have hb' : b ∈ σ1.combatants := (List.perm_insertionSort snapLe _).subset hb
    have hab' : readingLe a.1 b.1 := hab
    have hba' : readingLe b.1 a.1 := hba
    have h1 : a.1 = b.1 := readingLe_antisymm hab' hba'
    have hla : lookupLoc σ1.combatants a.1 = some a.2 :=
      mem_lookupLoc_of_nodup hnd ha'
    have hlb : lookupLoc σ1.combatants b.1 = some b.2 :=
      mem_lookupLoc_of_nodup hnd hb'
    rw [h1] at hla
    rw [hla] at hlb
    exact Prod.ext h1 (Option.some.inj hlb)
  rw [hsnap]
  exact turnGo_equiv _ σ1 σ2 hg hh hp hnd

theorem starOneLoop_equiv :
    ∀ (fuel id : Nat) (σ1 σ2 : GameState),
      σ1.grid = σ2.grid → σ1.heap = σ2.heap →
      List.Perm σ1.combatants σ2.combatants → NodupKeys σ1.combatants →
      (starOneLoop fuel id σ1 = none ∧ starOneLoop fuel id σ2 = none) ∨
      (∃ i b f σ1' σ2', starOneLoop fuel id σ1 = some (i, b, f, σ1') ∧
        starOneLoop fuel id σ2 = some (i, b, f, σ2') ∧
        σ1'.heap = σ2'.heap ∧ List.Perm σ1'.combatants σ2'.combatants) := by
  intro fuel
  induction fuel with
  | zero =>
      intro id σ1 σ2 _ _ _ _
      exact Or.inl ⟨rfl, rfl⟩
  | succ fuel ih =>
      intro id σ1 σ2 hg hh hp hnd
      obtain ⟨ht1, htg, hth, htp, htnd⟩ := turn_equiv hg hh hp hnd
      simp only [starOneLoop]
      rw [ht1]
      rcases hr : (turn σ2).1.2 with _ | f
      · exact ih (id + 1) (turn σ1).2 (turn σ2).2 htg hth htp htnd
      · right
        exact ⟨id, (turn σ2).1.1, f, (turn σ1).2, (turn σ2).2, rfl, rfl, hth, htp⟩

theorem starTwoTrial_equiv :
    ∀ (fuel id initElves : Nat) (σ1 σ2 : GameState),
      σ1.grid = σ2.grid → σ1.heap = σ2.heap →
      List.Perm σ1.combatants σ2.combatants → NodupKeys σ1.combatants →
      (starTwoTrial fuel id initElves σ1 = none ∧
        starTwoTrial fuel id initElves σ2 = none) ∨
      (∃ i f σ1' σ2', starTwoTrial fuel id initElves σ1 = some (i, f, σ1') ∧
        starTwoTrial fuel id initElves σ2 = some (i, f, σ2') ∧
        σ1'.heap = σ2'.heap ∧ List.Perm σ1'.combatants σ2'.combatants) := by
  intro fuel
  induction fuel with
  | zero =>
      intro id initElves σ1 σ2 _ _ _ _
      exact Or.inl ⟨rfl, rfl⟩
  | succ fuel ih =>
      intro id initElves σ1 σ2 hg hh hp hnd
      obtain ⟨ht1, htg, hth, htp, htnd⟩ := turn_equiv hg hh hp hnd
      simp only [starTwoTrial]
      rw [ht1, num_alive_equiv hth htp UnitType.Elf]
      by_cases hlt : num_combatants_alive (turn σ2).2 UnitType.Elf < initElves
      · rw [if_pos hlt, if_pos hlt]
        right
        exact ⟨id, UnitType.Goblin, (turn σ1).2, (turn σ2).2, rfl, rfl, hth, htp⟩
      · rw [if_neg hlt, if_neg hlt]
        rcases hr : (turn σ2).1.2 with _ | f
        · exact ih (id + 1) initElves (turn σ1).2 (turn σ2).2 htg hth htp htnd
        · right
          exact ⟨if (turn σ2).1.1 then id + 1 else id, f, (turn σ1).2, (turn σ2).2,
            rfl, rfl, hth, htp⟩

/-- The outer strength search reads the base state only through `cheat`,
which depends only on grid and heap, so it is identical for any registry
order of the base state. -/
theorem starTwoLoop_equiv :
    ∀ (fuel innerFuel initElves : Nat) (σ1 σ2 : GameState) (k : Nat),
      σ1.grid = σ2.grid → σ1.heap = σ2.heap →
      starTwoLoop innerFuel initElves σ1 fuel k
        = starTwoLoop innerFuel initElves σ2 fuel k := by
  intro fuel
  induction fuel with
  | zero =>
      intro innerFuel initElves σ1 σ2 k _ _
      rfl
  | succ fuel ih =>
      intro innerFuel initElves σ1 σ2 k hg hh
      simp only [starTwoLoop]
      rw [cheat_congr hg hh (4 + k)]
      rcases hr : starTwoTrial innerFuel 0 initElves (cheat σ2 (4 + k)) with _ | r
      · rfl
      · dsimp only
        by_cases hgob : r.2.1 = UnitType.Goblin
        · rw [if_pos hgob, if_pos hgob]
          exact ih innerFuel initElves σ1 σ2 (k + 1) hg hh
        · rw [if_neg hgob, if_neg hgob]

theorem parseRow_nodupKeys {y : Nat} :
    ∀ {row : List Char} {x nid : Nat} {r}, parseRow y x nid row = some r →
      NodupKeys r.2.1 := by
  intro row
  induction row with
  | nil =>
      intro x nid r h
      rw [parseRow] at h
      simp only [Option.some.injEq] at h
      subst h
      simp [NodupKeys]
  | cons c rest ih =>
      intro x nid r h
      rw [parseRow] at h
      rcases hc : parseChar c with _ | pp
      · rw [hc] at h
        exact absurd h (by simp)
      rw [hc] at h
      rcases pp with _ | _ | t
      · rcases hrec : parseRow y (x + 1) nid rest with _ | r' <;> rw [hrec] at h
        · exact absurd h (by simp)
        simp only [Option.map_some', Option.some.injEq] at h
        subst h
        exact ih (r := r') hrec
      · rcases hrec : parseRow y (x + 1) nid rest with _ | r' <;> rw [hrec] at h
        · exact absurd h (by simp)
        simp only [Option.map_some', Option.some.injEq] at h
        subst h
        exact ih (r := r') hrec
      · rcases hrec : parseRow y (x + 1) (nid + 1) rest with _ | r' <;> rw [hrec] at h
        · exact absurd h (by simp)
        simp only [Option.map_some', Option.some.injEq] at h
        subst h
        have hkeys := (parseRow_cells hrec).2.1
        have hgoal : NodupKeys (((x, y), nid) :: r'.2.1) := by
          unfold NodupKeys
          rw [List.map_cons, List.nodup_cons]
          refine ⟨?_, ih hrec⟩
          intro hc2
          rcases List.mem_map.mp hc2 with ⟨e, he, hee⟩
          have hb := hkeys e he
          have hx : e.1.1 = x := by rw [hee]
          omega
        exact hgoal

theorem parseRows_nodupKeys :
    ∀ {rows : List (List Char)} {y nid : Nat} {r}, parseRows y nid rows = some r →
      NodupKeys r.2.1 := by
  intro rows
  induction rows with
  | nil =>
      intro y nid r h
      rw [parseRows] at h
      simp only [Option.some.injEq] at h
      subst h
      simp [NodupKeys]
  | cons row rest ih =>
      intro y nid r h
      rw [parseRows] at h
      rcases hrow : parseRow y 0 nid row with _ | r₁ <;> rw [hrow] at h
      · exact absurd h (by simp)
      dsimp only at h
      rcases hrest : parseRows (y + 1) r₁.2.2.2 rest with _ | r₂ <;> rw [hrest] at h
      · exact absurd h (by simp)
      simp only [Option.map_some', Option.some.injEq] at h
      subst h
      have h1 := parseRow_nodupKeys hrow
      have h2 := ih hrest
      have hk1 := (parseRow_cells hrow).2.1
      have hk2 := (parseRows_cells hrest).1
      have hgoal : NodupKeys (r₁.2.1 ++ r₂.2.1) := by
        unfold NodupKeys
        rw [List.map_append, List.nodup_append]
        refine ⟨h1, h2, ?_⟩
        intro k hka hkb
        rcases List.mem_map.mp hka with ⟨e, he, hee⟩
        rcases List.mem_map.mp hkb with ⟨e', he', hee'⟩
        have hb1 := hk1 e he
        have hb2 := hk2 e' he'
        have heq2 : e.1.2 = e'.1.2 := by rw [hee, hee']
        omega
      exact hgoal

theorem fromStr_nodupKeys (input : String) (σ : GameState)
    (h : GameState.fromStr input = some σ) : NodupKeys σ.combatants := by
  rw [GameState.fromStr] at h
  rcases hp : parseRows 0 0
      (((splitNewlines input.data).map trimChars).filter
        (fun l => l.length > 0)) with _ | r
  · rw [hp] at h
    exact absurd h (by simp)
  · rw [hp] at h
    simp only [Option.map_some', Option.some.injEq] at h
    subst h
    exact parseRows_nodupKeys hp

/-! ### Claim C8 -/

/-- C8: the scores of `star_one` and `star_two` are deterministic functions
of the input text, independent of the hash-map iteration order.  Registry
iteration order is modelled by the order of the registry association list:
re-running either star on the same parsed input with the registry arbitrarily
permuted (as a different hash order would enumerate it) yields the same
score. -/
theorem star_scores_deterministic_and_order_independent :
    ∀ (input : String) (σ0 σ0' : GameState),
      GameState.fromStr input = some σ0 →
      σ0'.grid = σ0.grid → σ0'.heap = σ0.heap →
      List.Perm σ0'.combatants σ0.combatants →
      (∀ fuel, star_one input fuel =
        (starOneLoop fuel 0 σ0').map
          (fun r => r.1 * remaining_health_for_faction r.2.2.2 r.2.2.1)) ∧
      (∀ outerFuel innerFuel, star_two input outerFuel innerFuel =
        (starTwoLoop innerFuel (num_combatants_alive σ0' UnitType.Elf) σ0'
          outerFuel 0).map
          (fun r => r.1 * remaining_health_for_faction r.2.2 r.2.1)) := by
  intro input σ0 σ0' hparse hg hh hp
  have hnd : NodupKeys σ0.combatants := fromStr_nodupKeys input σ0 hparse
  have hg' : σ0.grid = σ0'.grid := hg.symm
  have hh' : σ0.heap = σ0'.heap := hh.symm
  have hp' : List.Perm σ0.combatants σ0'.combatants := hp.symm
  constructor
  · intro fuel
    unfold star_one
    rw [hparse, Option.some_bind]
    rcases starOneLoop_equiv fuel 0 σ0 σ0' hg' hh' hp' hnd with
      ⟨h1, h2⟩ | ⟨i, b, f, s1, s2, h1, h2, hsh, hsp⟩
    · rw [h1, h2]
    · rw [h1, h2]
      simp only [Option.map_some']
      rw [remaining_health_equiv hsh hsp f]
  · intro outerFuel innerFuel
    unfold star_two
    rw [hparse, Option.some_bind]
    rw [num_alive_equiv hh' hp' UnitType.Elf]
    rw [starTwoLoop_equiv outerFuel innerFuel
      (num_combatants_alive σ0' UnitType.Elf) σ0 σ0' 0 hg' hh']

/-- Concrete instantiation of the C8 theorem: the two-unit arena with its
registry enumerated in the opposite order yields the same scores. -/
theorem star_scores_deterministic_and_order_independent_witness :
    (GameState.fromStr exC1 = some gsC1 ∧
      ({ gsC1 with combatants := [((2, 1), 1), ((1, 1), 0)] } : GameState).grid
        = gsC1.grid ∧
      ({ gsC1 with combatants := [((2, 1), 1), ((1, 1), 0)] } : GameState).heap
        = gsC1.heap ∧
      List.Perm
        ({ gsC1 with combatants := [((2, 1), 1), ((1, 1), 0)] } :
          GameState).combatants gsC1.combatants) ∧
    ((∀ fuel, star_one exC1 fuel =
        (starOneLoop fuel 0
          ({ gsC1 with combatants := [((2, 1), 1), ((1, 1), 0)] } :
            GameState)).map
          (fun r => r.1 * remaining_health_for_faction r.2.2.2 r.2.2.1)) ∧
      (∀ outerFuel innerFuel, star_two exC1 outerFuel innerFuel =
        (starTwoLoop innerFuel
          (num_combatants_alive
            ({ gsC1 with combatants := [((2, 1), 1), ((1, 1), 0)] } : GameState)
            UnitType.Elf)
          ({ gsC1 with combatants := [((2, 1), 1), ((1, 1), 0)] } : GameState)
          outerFuel 0).map
          (fun r => r.1 * remaining_health_for_faction r.2.2 r.2.1))) :=
  ⟨⟨by decide, by decide, by decide, by decide⟩,
    star_scores_deterministic_and_order_independent exC1 gsC1
      ({ gsC1 with combatants := [((2, 1), 1), ((1, 1), 0)] } : GameState)
      (by decide) (by decide) (by decide) (by decide)⟩

/-! ### Claim C3 -/

/-- C3: when a unit at an occupied cell moves, the destination is the
enemy-adjacent open candidate of minimal BFS distance from the unit, ties
broken by earliest reading order among all minimal-distance candidates; then,
independently and in sequence, the step taken is the unit's open neighbour
minimizing (BFS distance computed from the chosen destination, then reading
order).  The two tie-breaks are resolved one after the other on two separate
distance grids, never jointly. -/
theorem move_tiebreaks_sequential_not_joint
    {σ : GameState} {loc : Location} {u : Unit} {uid : Nat}
    (hrect : Rect σ.grid) (hocc : cellAt σ.grid loc = Cell.Occupied uid)
    {dest step : Location} (hmd : moveDecision σ loc u = some (dest, step)) :
    ∃ dg dd, calculate_distance_grid σ loc = some dg ∧
      dest ∈ (possible_targets σ u).flatMap (fun e => in_range σ.grid e.1 true) ∧
      cellAt σ.grid dest = Cell.Open ∧
      dgAt dg dest = some dd ∧
      (∀ tl d', tl ∈ (possible_targets σ u).flatMap
          (fun e => in_range σ.grid e.1 true) →
        dgAt dg tl = some d' → dd ≤ d') ∧
      (∀ tl, tl ∈ (possible_targets σ u).flatMap
          (fun e => in_range σ.grid e.1 true) →
        dgAt dg tl = some dd → readingLe dest tl) ∧
      ∃ dg2, calculate_distance_grid σ dest = some dg2 ∧
        step ∈ in_range σ.grid loc true ∧
        (dgAt dg2 step).isSome = true ∧
        (∀ n ∈ in_range σ.grid loc true, (dgAt dg2 n).isSome = true →
          fmLe dg2 step n) := by
  obtain ⟨dg, dd, hdg, hdestmem, hdd, hmin, hfm, hread⟩ := moveDecision_some_spec hmd
  have hdopen : cellAt σ.grid dest = Cell.Open := by
    rcases List.mem_flatMap.mp hdestmem with ⟨e, _, hin⟩
    exact in_range_open hin
  have hlocnw : cellAt σ.grid loc ≠ Cell.Wall := by rw [hocc]; simp
  obtain ⟨dgc, hdgc, _, hcharc⟩ := calculate_distance_grid_correct hrect hlocnw
  have hdgeq : dgc = dg := by
    rw [hdg] at hdgc
    exact (Option.some.inj hdgc).symm
  subst hdgeq
  have hstrong : ∀ tl, tl ∈ (possible_targets σ u).flatMap
      (fun e => in_range σ.grid e.1 true) →
      dgAt dgc tl = some dd → readingLe dest tl := by
    intro tl htl hdda
    have htlopen : cellAt σ.grid tl = Cell.Open := by
      rcases List.mem_flatMap.mp htl with ⟨e, _, hin⟩
      exact in_range_open hin
    have htlne : tl ≠ loc := by
      intro hc
      rw [hc, hocc] at htlopen
      exact Cell.noConfusion htlopen
    have hdist : IsDistTo σ.grid loc tl dd := ((hcharc tl htlne dd).mp hdda).2
    obtain ⟨m, hm⟩ := first_move_exists hrect htlne htlopen hdist
    exact hread tl m htl hdda hm
  obtain ⟨dg2, hdg2, hstep_mem, hstep_some, hstep_min⟩ := first_move_some_spec hfm
  exact ⟨dgc, dd, hdg, hdestmem, hdopen, hdd, hmin, hstrong,
    dg2, hdg2, hstep_mem, hstep_some, hstep_min⟩

/-- Concrete instantiation of the C3 theorem: an elf at (1,1) facing a goblin
at (3,1) across one open cell moves to (2,1). -/
theorem move_tiebreaks_sequential_not_joint_witness :
    Rect ((GameState.fromStr "#####\n#E.G#\n#####").getD ⟨[], [], []⟩).grid ∧
    cellAt ((GameState.fromStr "#####\n#E.G#\n#####").getD ⟨[], [], []⟩).grid
      (1, 1) = Cell.Occupied 0 ∧
    moveDecision ((GameState.fromStr "#####\n#E.G#\n#####").getD ⟨[], [], []⟩)
      (1, 1) (Unit.new UnitType.Elf) = some ((2, 1), (2, 1)) ∧
    (∃ dg dd, calculate_distance_grid
        ((GameState.fromStr "#####\n#E.G#\n#####").getD ⟨[], [], []⟩) (1, 1)
        = some dg ∧
      (2, 1) ∈ (possible_targets
          ((GameState.fromStr "#####\n#E.G#\n#####").getD ⟨[], [], []⟩)
          (Unit.new UnitType.Elf)).flatMap
        (fun e => in_range ((GameState.fromStr "#####\n#E.G#\n#####").getD
          ⟨[], [], []⟩).grid e.1 true) ∧
      cellAt ((GameState.fromStr "#####\n#E.G#\n#####").getD ⟨[], [], []⟩).grid
        (2, 1) = Cell.Open ∧
      dgAt dg (2, 1) = some dd ∧
      (∀ tl d', tl ∈ (possible_targets
          ((GameState.fromStr "#####\n#E.G#\n#####").getD ⟨[], [], []⟩)
          (Unit.new UnitType.Elf)).flatMap
          (fun e => in_range ((GameState.fromStr "#####\n#E.G#\n#####").getD
            ⟨[], [], []⟩).grid e.1 true) →
        dgAt dg tl = some d' → dd ≤ d') ∧
      (∀ tl, tl ∈ (possible_targets
          ((GameState.fromStr "#####\n#E.G#\n#####").getD ⟨[], [], []⟩)
          (Unit.new UnitType.Elf)).flatMap
          (fun e => in_range ((GameState.fromStr "#####\n#E.G#\n#####").getD
            ⟨[], [], []⟩).grid e.1 true) →
        dgAt dg tl = some dd → readingLe (2, 1) tl) ∧
      ∃ dg2, calculate_distance_grid
          ((GameState.fromStr "#####\n#E.G#\n#####").getD ⟨[], [], []⟩) (2, 1)
          = some dg2 ∧
        (2, 1) ∈ in_range ((GameState.fromStr "#####\n#E.G#\n#####").getD
          ⟨[], [], []⟩).grid (1, 1) true ∧
        (dgAt dg2 (2, 1)).isSome = true ∧
        (∀ n ∈ in_range ((GameState.fromStr "#####\n#E.G#\n#####").getD
            ⟨[], [], []⟩).grid (1, 1) true,
          (dgAt dg2 n).isSome = true → fmLe dg2 (2, 1) n)) :=
  ⟨by decide, by decide, by decide,
    @move_tiebreaks_sequential_not_joint
      ((GameState.fromStr "#####\n#E.G#\n#####").getD ⟨[], [], []⟩) (1, 1)
      (Unit.new UnitType.Elf) 0 (by decide) (by decide) (2, 1) (2, 1)
      (by decide)⟩

/-! ### Claim C6 -/

/-- C6: for every non-wall source on a rectangular grid,
`calculate_distance_grid` returns a grid that assigns the source distance 0
(even when the source cell is occupied), assigns every open cell reachable
from the source through open cells its minimal 4-directional step count,
assigns no distance to every other cell, and a no-distance cell is never
chosen as a movement destination: it is silently excluded from the movement
candidates rather than treated as an error. -/
theorem distance_grid_spec_and_silent_exclusion
    {σ : GameState} {src : Location}
    (hrect : Rect σ.grid) (hsrc : cellAt σ.grid src ≠ Cell.Wall) :
    ∃ dg, calculate_distance_grid σ src = some dg ∧
      dgAt dg src = some 0 ∧
      (∀ l, l ≠ src → cellAt σ.grid l = Cell.Open →
        ∀ k, Reaches σ.grid src l k →
          ∃ d, IsDistTo σ.grid src l d ∧ dgAt dg l = some d) ∧
      (∀ l, l ≠ src →
        (cellAt σ.grid l ≠ Cell.Open ∨ ∀ k, ¬ Reaches σ.grid src l k) →
        dgAt dg l = none) ∧
      (∀ (u : Unit) (dest step : Location),
        moveDecision σ src u = some (dest, step) → dgAt dg dest ≠ none) := by
  obtain ⟨dg, hdg, hsrc0, hchar⟩ := calculate_distance_grid_correct hrect hsrc
  refine ⟨dg, hdg, hsrc0, ?_, ?_, ?_⟩
  · intro l hl hopen k hk
    rcases exists_isDistTo k hk with ⟨d, hd, _⟩
    exact ⟨d, hd, (hchar l hl d).mpr ⟨hopen, hd⟩⟩
  · intro l hl hbad
    cases hcase : dgAt dg l with
    | none => rfl
    | some d =>
        exfalso
        have hres := (hchar l hl d).mp hcase
        rcases hbad with hb | hb
        · exact hb hres.1
        · exact hb d hres.2.1
  · intro u dest step hmd
    obtain ⟨dg', dd, hdg', _, hdd, _, _, _⟩ := moveDecision_some_spec hmd
    have hdgeq : dg' = dg := by
      rw [hdg] at hdg'
      exact (Option.some.inj hdg').symm
    rw [← hdgeq, hdd]
    simp

/-- Concrete instantiation of the C6 theorem: the parsed 4x3 grid with one
elf and one goblin, source at the elf's (occupied) cell. -/
theorem distance_grid_spec_and_silent_exclusion_witness :
    Rect gsC1.grid ∧ cellAt gsC1.grid (1, 1) ≠ Cell.Wall ∧
    (∃ dg, calculate_distance_grid gsC1 (1, 1) = some dg ∧
      dgAt dg (1, 1) = some 0 ∧
      (∀ l, l ≠ (1, 1) → cellAt gsC1.grid l = Cell.Open →
        ∀ k, Reaches gsC1.grid (1, 1) l k →
          ∃ d, IsDistTo gsC1.grid (1, 1) l d ∧ dgAt dg l = some d) ∧
      (∀ l, l ≠ (1, 1) →
        (cellAt gsC1.grid l ≠ Cell.Open ∨ ∀ k, ¬ Reaches gsC1.grid (1, 1) l k) →
        dgAt dg l = none) ∧
      (∀ (u : Unit) (dest step : Location),
        moveDecision gsC1 (1, 1) u = some (dest, step) → dgAt dg dest ≠ none)) :=
  ⟨by decide, by decide,
    distance_grid_spec_and_silent_exclusion (by decide) (by decide)⟩

/-- C10: every unit created at parse time — for any input glyph `G` or `E` —
starts with health exactly 200 and attack strength exactly 3, and `cheat`
changes only the strength of elves, leaving every unit's health (and faction
and alive flag) at its current value. -/
theorem parse_units_initial_and_cheat_only_elf_strength :
    (∀ (input : String) (σ : GameState), GameState.fromStr input = some σ →
      ∀ e : Nat × Unit, e ∈ σ.heap → e.2 = Unit.new e.2.unit_type) ∧
    (∀ t : UnitType, (Unit.new t).health = 200 ∧ (Unit.new t).strength = 3) ∧
    (∀ (σ : GameState) (p : Nat) (e : Nat × Unit), e ∈ (cheat σ p).heap →
      ∃ u, u ∈ gridUnits σ ∧
        (e.2 = u ∨ (u.unit_type = UnitType.Elf ∧ e.2 = { u with strength := p }))) := by
  refine ⟨?_, fun t => ⟨rfl, rfl⟩, ?_⟩
  · intro input σ h e he
    rw [GameState.fromStr] at h
    rcases hp : parseRows 0 0
        ((((splitNewlines input.data).map trimChars).filter
          (fun l => l.length > 0))) with _ | r
    · rw [hp] at h; exact absurd h (by simp)
    · rw [hp] at h
      simp only [Option.map_some', Option.some.injEq] at h
      rw [← h] at he
      rcases parseRows_heap_new hp e he with ⟨t, ht⟩
      rw [ht]
      rfl
  · intro σ p e he
    rw [cheat] at he
    rcases cheatRows_heap_src σ.heap p σ.grid 0 0 e he with ⟨row, oid, hrow, hcell, hcase⟩
    refine ⟨heapGet σ.heap oid, ?_, ?_⟩
    · exact List.mem_flatMap.mpr ⟨row, hrow,
        List.mem_filterMap.mpr ⟨Cell.Occupied oid, hcell, rfl⟩⟩
    · rcases hcase with h1 | ⟨h2, h3⟩
      · exact Or.inl h1
      · exact Or.inr ⟨h2, h3⟩

/-- Witness for C10 at the concrete arena `exC1`. -/
theorem parse_units_initial_and_cheat_only_elf_strength_witness :
    (GameState.fromStr exC1 = some gsC1 ∧
      ((0, Unit.new UnitType.Elf) : Nat × Unit) ∈ gsC1.heap) ∧
    ((0, Unit.new UnitType.Elf) : Nat × Unit).2 =
      Unit.new ((0, Unit.new UnitType.Elf) : Nat × Unit).2.unit_type :=
  ⟨⟨by decide, by decide⟩,
    parse_units_initial_and_cheat_only_elf_strength.1 exC1 gsC1 (by decide) _ (by decide)⟩

/-! ### Claim C1 -/

/-- C1 (code bug exhibit): on `exC1` the final (67th) turn is a full round —
the loop runs through all snapshot units and only the post-round faction count
ends combat, so `turn` reports the round as full — yet `star_one` scores
with 66 completed rounds (it ignores the full-round flag), while `star_two`'s
inner loop (run here with `initElves = 0`, which disables the elf-death abort)
counts 67 rounds for the very same turn sequence.  The surviving elf has
health 2: `star_one` returns 132 where the claimed common counting rule
(count the final round when it completed in full) yields 134. -/
theorem star_one_drops_completed_final_round :
    star_one exC1 200 = some 132 ∧
    ((GameState.fromStr exC1).bind (starOneLoop 200 0)).map
        (fun r => (r.1, r.2.1, r.2.2.1)) = some (66, true, UnitType.Elf) ∧
    ((GameState.fromStr exC1).bind (starTwoTrial 200 0 0)).map
        (fun r => (r.1, r.2.1)) = some (67, UnitType.Elf) ∧
    ((GameState.fromStr exC1).bind (starOneLoop 200 0)).map
        (fun r => remaining_health_for_faction r.2.2.2 r.2.2.1) = some 2 ∧
    132 ≠ 67 * 2 :=
  ⟨by decide, by decide, by decide, by decide, by decide⟩

/-! ### Claim C2: counterexample -/

/-- C2 is false as stated: after `cheat` the grid cell and the registry entry
for the same location hold *different* units — on the cheated `gsC1` at the
elf's location `(1, 1)`, the grid references handle 1 (the pre-mutation clone,
strength 3) while the registry references handle 0 (strength 4). -/
theorem cheat_desyncs_grid_and_registry_units :
    cellAt (cheat gsC1 4).grid (1, 1) = Cell.Occupied 1 ∧
    lookupLoc (cheat gsC1 4).combatants (1, 1) = some 0 ∧
    (heapGet (cheat gsC1 4).heap 1).strength = 3 ∧
    (heapGet (cheat gsC1 4).heap 0).strength = 4 ∧
    heapGet (cheat gsC1 4).heap 1 ≠ heapGet (cheat gsC1 4).heap 0 :=
  ⟨by decide, by decide, by decide, by decide, by decide⟩

/-- C2 (amended): after parsing, grid occupancy and the registry agree per
location on the very same unit handle; `cheat` preserves the keyset bijection
but installs, at each occupied location, a pre-mutation copy in the grid
(distinct handle, unadjusted unit) and the elf-adjusted copy in the registry,
preserving health; and every per-unit step of the turn engine (moves, attacks,
deaths) preserves the keyset bijection `Sync`. -/
theorem grid_registry_sync :
    (∀ (input : String) (σ : GameState), GameState.fromStr input = some σ →
      ∀ (l : Location) (i : Nat),
        cellAt σ.grid l = Cell.Occupied i ↔ lookupLoc σ.combatants l = some i) ∧
    (∀ (input : String) (σ : GameState), GameState.fromStr input = some σ → Sync σ) ∧
    (∀ (σ : GameState) (p : Nat), Sync (cheat σ p)) ∧
    (∀ (σ : GameState) (p : Nat) (l : Location) (i : Nat),
      lookupLoc (cheat σ p).combatants l = some i →
      ∃ j u, cellAt (cheat σ p).grid l = Cell.Occupied j ∧ j ≠ i ∧
        (j, u) ∈ (cheat σ p).heap ∧ (i, elfAdjust p u) ∈ (cheat σ p).heap ∧
        (elfAdjust p u).health = u.health) ∧
    (∀ (snap : List (Location × Nat)) (σ : GameState), Sync σ →
      Sync (turnGo snap σ).2) ∧
    (∀ σ : GameState, Sync σ → Sync (turn σ).2) := by
  have hparse : ∀ (input : String) (σ : GameState), GameState.fromStr input = some σ →
      ∀ (l : Location) (i : Nat),
        cellAt σ.grid l = Cell.Occupied i ↔ lookupLoc σ.combatants l = some i := by
    intro input σ h l i
    rw [GameState.fromStr] at h
    rcases hp : parseRows 0 0
        ((((splitNewlines input.data).map trimChars).filter
          (fun l => l.length > 0))) with _ | r
    · rw [hp] at h; exact absurd h (by simp)
    · rw [hp] at h
      simp only [Option.map_some', Option.some.injEq] at h
      subst h
      have := (parseRows_cells hp).2 l i (Nat.zero_le _)
      rw [Nat.sub_zero] at this
      exact this
  refine ⟨hparse, ?_, ?_, ?_, sync_turnGo, fun σ hs => sync_turn hs⟩
  · intro input σ h l
    constructor
    · rintro ⟨i, hi⟩
      exact ⟨i, (hparse input σ h l i).mp hi⟩
    · rintro ⟨i, hi⟩
      exact ⟨i, (hparse input σ h l i).mpr hi⟩
  · intro σ p l
    rcases cheat_cells σ p l with ⟨hno, hcell, hlr⟩ | ⟨oid, k', h1, h2, h3, h4, h5⟩
    · constructor
      · rintro ⟨i, hi⟩
        rw [hcell] at hi
        exact absurd hi (hno i)
      · rintro ⟨i, hi⟩
        rw [hlr] at hi
        cases hi
    · constructor
      · rintro ⟨i, hi⟩
        exact ⟨2 * k', h3⟩
      · rintro ⟨i, hi⟩
        exact ⟨2 * k' + 1, h2⟩
  · intro σ p l i hlook
    rcases cheat_cells σ p l with ⟨hno, hcell, hlr⟩ | ⟨oid, k', h1, h2, h3, h4, h5⟩
    · rw [hlr] at hlook
      cases hlook
    · rw [h3] at hlook
      have hi : i = 2 * k' := (Option.some.inj hlook).symm
      subst hi
      refine ⟨2 * k' + 1, heapGet σ.heap oid, h2, by omega, h5, h4, ?_⟩
      unfold elfAdjust
      by_cases he : (heapGet σ.heap oid).unit_type = UnitType.Elf
      · rw [if_pos he]
      · rw [if_neg he]

/-- Witness for C2's amended claim on the concrete arena `exC1`. -/
theorem grid_registry_sync_witness :
    (GameState.fromStr exC1 = some gsC1 ∧
      (cellAt gsC1.grid (1, 1) = Cell.Occupied 0 ↔
        lookupLoc gsC1.combatants (1, 1) = some 0)) ∧
    Sync (cheat gsC1 4) ∧
    (lookupLoc (cheat gsC1 4).combatants (1, 1) = some 0 ∧
      ∃ j u, cellAt (cheat gsC1 4).grid (1, 1) = Cell.Occupied j ∧ j ≠ 0 ∧
        (j, u) ∈ (cheat gsC1 4).heap ∧ (0, elfAdjust 4 u) ∈ (cheat gsC1 4).heap ∧
        (elfAdjust 4 u).health = u.health) ∧
    Sync (turn gsC1).2 :=
  ⟨⟨by decide, grid_registry_sync.1 exC1 gsC1 (by decide) (1, 1) 0⟩,
    grid_registry_sync.2.2.1 gsC1 4,
    ⟨by decide, grid_registry_sync.2.2.2.1 gsC1 4 (1, 1) 0 (by decide)⟩,
    grid_registry_sync.2.2.2.2.2 gsC1
      (grid_registry_sync.2.1 exC1 gsC1 (by decide))⟩

/-! ### Claim C5 -/

/-- C5: a unit adjacent to a living enemy attacks the adjacent enemy with
lowest health, ties by reading order of location (`enemyLe`); the target's
health drops by the attacker's strength, floored at 0, never wrapped; on
reaching 0 the target is removed from registry and grid in the same step, and
the remaining snapshot is processed against the updated state, so later units
this round observe the death. -/
theorem attack_selection_and_damage :
    (∀ (u : Unit) (d : Nat),
      (take_damage u d).1.health = u.health - d ∧
      ((take_damage u d).2 = true ↔ u.health ≤ d) ∧
      ((take_damage u d).1.is_dead = true ↔ (u.is_dead = true ∨ u.health ≤ d)) ∧
      (take_damage u d).1.unit_type = u.unit_type ∧
      (take_damage u d).1.strength = u.strength) ∧
    (∀ (σ : GameState) (u : Unit) (loc : Location) (e : Location × Nat),
      prioritized_enemy σ u loc = some e →
        e ∈ adjacentEnemies σ u loc ∧ ∀ q ∈ adjacentEnemies σ u loc, enemyLe σ e q) ∧
    (∀ (σ : GameState) (u : Unit) (loc : Location),
      adjacentEnemies σ u loc ≠ [] → (prioritized_enemy σ u loc).isSome = true) ∧
    (∀ (σ : GameState) (s : Nat) (eloc : Location) (eid j : Nat),
      hasId σ.heap eid → cellAt σ.grid eloc = Cell.Occupied j →
      heapGet (attackStep σ s eloc eid).heap eid = (take_damage (heapGet σ.heap eid) s).1 ∧
      ((heapGet σ.heap eid).health ≤ s →
        lookupLoc (attackStep σ s eloc eid).combatants eloc = none ∧
        cellAt (attackStep σ s eloc eid).grid eloc = Cell.Open) ∧
      (¬ (heapGet σ.heap eid).health ≤ s →
        (attackStep σ s eloc eid).combatants = σ.combatants ∧
        (attackStep σ s eloc eid).grid = σ.grid)) ∧
    (∀ (loc : Location) (uid : Nat) (rest : List (Location × Nat)) (σ : GameState),
      enemies_alive σ (heapGet σ.heap uid) →
      (heapGet σ.heap uid).is_dead = false →
      ∀ e, prioritized_enemy σ (heapGet σ.heap uid) loc = some e →
        turnGo ((loc, uid) :: rest) σ =
          turnGo rest (attackStep σ (heapGet σ.heap uid).strength e.1 e.2)) := by
  refine ⟨?_, ?_, ?_, ?_, ?_⟩
  · intro u d
    unfold take_damage
    by_cases h1 : d ≤ u.health
    · rw [if_pos h1]
      by_cases h2 : u.health - d = 0
      · rw [if_pos h2]
        refine ⟨by simp; omega, by simp; omega, by simp; omega, rfl, rfl⟩
      · rw [if_neg h2]
        refine ⟨rfl, by simp; omega, by simp; omega, rfl, rfl⟩
    · rw [if_neg h1]
      refine ⟨by simp; omega, by simp; omega, by simp; omega, rfl, rfl⟩
  · intro σ u loc e h
    exact prioritized_enemy_sound h
  · intro σ u loc h
    exact prioritized_enemy_isSome h
  · intro σ s eloc eid j hh hc
    have hbounds := cellAt_nonwall_bounds (g := σ.grid) (l := eloc) (by rw [hc]; simp)
    unfold attackStep
    dsimp only
    by_cases hdie : (take_damage (heapGet σ.heap eid) s).2 = true
    · rw [hdie]
      simp only [if_true]
      refine ⟨heapGet_heapSet_self hh _, ?_, ?_⟩
      · intro _
        exact ⟨lookupLoc_removeLoc_self _ _, cellAt_setCell_self _ hbounds.1 hbounds.2⟩
      · intro hlt
        unfold take_damage at hdie
        rcases Nat.lt_or_ge (heapGet σ.heap eid).health s with h' | h'
        · exact absurd (Nat.le_of_lt h') hlt
        · by_cases hz : (heapGet σ.heap eid).health - s = 0
          · exact absurd (by omega) hlt
          · rw [if_pos (by omega), if_neg hz] at hdie
            simp at hdie
    · rw [Bool.not_eq_true] at hdie
      rw [hdie]
      simp only [Bool.false_eq_true, if_false]
      refine ⟨heapGet_heapSet_self hh _, ?_, ?_⟩
      · intro hle
        exfalso
        unfold take_damage at hdie
        by_cases h1 : s ≤ (heapGet σ.heap eid).health
        · have hz : (heapGet σ.heap eid).health - s = 0 := by omega
          rw [if_pos h1, if_pos hz] at hdie
          simp at hdie
        · rw [if_neg h1] at hdie
          simp at hdie
      · intro _
        constructor <;> trivial
  · intro loc uid rest σ halive hdead e he
    rw [turnGo]
    rw [if_neg (by simpa using halive)]
    rw [hdead]
    simp only [Bool.false_eq_true, if_false, he]

/-- Witness for C5: on `gsC1` the elf at `(1, 1)` selects the goblin at
`(2, 1)` (handle 1), and an attack with overwhelming strength removes it. -/
theorem attack_selection_and_damage_witness :
    ((take_damage (Unit.new UnitType.Goblin) 3).1.health =
        (Unit.new UnitType.Goblin).health - 3 ∧
      ((take_damage (Unit.new UnitType.Goblin) 3).2 = true ↔
        (Unit.new UnitType.Goblin).health ≤ 3) ∧
      ((take_damage (Unit.new UnitType.Goblin) 3).1.is_dead = true ↔
        ((Unit.new UnitType.Goblin).is_dead = true ∨
          (Unit.new UnitType.Goblin).health ≤ 3)) ∧
      (take_damage (Unit.new UnitType.Goblin) 3).1.unit_type =
        (Unit.new UnitType.Goblin).unit_type ∧
      (take_damage (Unit.new UnitType.Goblin) 3).1.strength =
        (Unit.new UnitType.Goblin).strength) ∧
    (prioritized_enemy gsC1 (Unit.new UnitType.Elf) (1, 1) = some ((2, 1), 1) ∧
      ((2, 1), 1) ∈ adjacentEnemies gsC1 (Unit.new UnitType.Elf) (1, 1) ∧
      ∀ q ∈ adjacentEnemies gsC1 (Unit.new UnitType.Elf) (1, 1),
        enemyLe gsC1 ((2, 1), 1) q) ∧
    (hasId gsC1.heap 1 ∧ cellAt gsC1.grid (2, 1) = Cell.Occupied 1 ∧
      ((heapGet gsC1.heap 1).health ≤ 500 →
        lookupLoc (attackStep gsC1 500 (2, 1) 1).combatants (2, 1) = none ∧
        cellAt (attackStep gsC1 500 (2, 1) 1).grid (2, 1) = Cell.Open)) :=
  ⟨attack_selection_and_damage.1 (Unit.new UnitType.Goblin) 3,
    ⟨by decide,
      attack_selection_and_damage.2.1 gsC1 (Unit.new UnitType.Elf) (1, 1)
        ((2, 1), 1) (by decide)⟩,
    ⟨by decide, by decide,
      (attack_selection_and_damage.2.2.2.1 gsC1 500 (2, 1) 1 1 (by decide)
        (by decide)).2.1⟩⟩

/-! ### Claim C4 -/

/-- The outer strength search: if it returns, some count `m` of consecutive
leading trials failed (winning faction Goblin, i.e. an elf died or the elves
lost) and the next trial succeeded; trial `j` runs from `cheat σ0 (4 + k + j)`
of the same unmutated `σ0`. -/
theorem starTwoLoop_spec :
    ∀ (fuel innerFuel E : Nat) (σ0 : GameState) (k : Nat) (r),
      starTwoLoop innerFuel E σ0 fuel k = some r →
      ∃ m, (∀ j, j < m → ∃ rj,
          starTwoTrial innerFuel 0 E (cheat σ0 (4 + (k + j))) = some rj ∧
            rj.2.1 = UnitType.Goblin) ∧
        starTwoTrial innerFuel 0 E (cheat σ0 (4 + (k + m))) = some r ∧
        r.2.1 ≠ UnitType.Goblin := by
  intro fuel
  induction fuel with
  | zero =>
      intro innerFuel E σ0 k r h
      rw [starTwoLoop] at h
      cases h
  | succ n ih =>
      intro innerFuel E σ0 k r h
      rw [starTwoLoop] at h
      rcases ht : starTwoTrial innerFuel 0 E (cheat σ0 (4 + k)) with _ | rt <;>
        rw [ht] at h
      · cases h
      · dsimp only at h
        by_cases hg : rt.2.1 = UnitType.Goblin
        · rw [if_pos hg] at h
          rcases ih innerFuel E σ0 (k + 1) r h with ⟨m, hfail, hsucc, hne⟩
          refine ⟨m + 1, ?_, ?_, hne⟩
          · intro j hj
            cases j with
            | zero =>
                refine ⟨rt, ?_, hg⟩
                rw [show k + 0 = k from rfl]
                exact ht
            | succ jj =>
                have hh := hfail jj (by omega)
                rw [show k + 1 + jj = k + (jj + 1) from by omega] at hh
                exact hh
          · rw [show k + (m + 1) = k + 1 + m from by omega]
            exact hsucc
        · rw [if_neg hg] at h
          have heq : rt = r := Option.some.inj h
          subst heq
          refine ⟨0, ?_, ?_, hg⟩
          · intro j hj; omega
          · rw [show k + 0 = k from rfl]
            exact ht

/-- C4: `star_two` tries elf powers 4, 5, 6, ... in order, restarting each
trial from `cheat` of the same parsed initial state, and returns the score of
the first trial whose winning faction is not Goblin; a trial is abandoned with
a Goblin verdict the moment a turn ends with fewer living elves than
initially — regardless of the turn's own result, even an elf victory — and a
non-Goblin (elf) verdict guarantees every completed turn of the trial kept
the living-elf count at or above the initial count. -/
theorem star_two_increasing_power_search :
    (∀ (input : String) (oF iF score : Nat), star_two input oF iF = some score →
      ∃ σ0 m r, GameState.fromStr input = some σ0 ∧
        (∀ j, j < m → ∃ rj,
          starTwoTrial iF 0 (num_combatants_alive σ0 UnitType.Elf)
            (cheat σ0 (4 + j)) = some rj ∧ rj.2.1 = UnitType.Goblin) ∧
        starTwoTrial iF 0 (num_combatants_alive σ0 UnitType.Elf)
          (cheat σ0 (4 + m)) = some r ∧ r.2.1 = UnitType.Elf ∧
        score = r.1 * remaining_health_for_faction r.2.2 UnitType.Elf) ∧
    (∀ (σ : GameState) (E fuel id : Nat),
      num_combatants_alive (turn σ).2 UnitType.Elf < E →
      starTwoTrial (fuel + 1) id E σ = some (id, UnitType.Goblin, (turn σ).2)) ∧
    (∀ (fuel : Nat) (σ : GameState) (E id t : Nat) (f : UnitType) (σf : GameState),
      starTwoTrial fuel id E σ = some (t, f, σf) → f ≠ UnitType.Goblin →
      ∃ m, σf = turnIter (m + 1) σ ∧
        ∀ n, 1 ≤ n → n ≤ m + 1 →
          E ≤ num_combatants_alive (turnIter n σ) UnitType.Elf) := by
  refine ⟨?_, ?_, ?_⟩
  · intro input oF iF score h
    rw [star_two] at h
    rcases hσ : GameState.fromStr input with _ | σ0 <;> rw [hσ] at h
    · cases h
    · rw [Option.some_bind] at h
      rcases hloop : starTwoLoop iF (num_combatants_alive σ0 UnitType.Elf) σ0 oF 0
        with _ | r <;> rw [hloop] at h
      · cases h
      · simp only [Option.map_some', Option.some.injEq] at h
        rcases starTwoLoop_spec oF iF _ σ0 0 r hloop with ⟨m, hfail, hsucc, hne⟩
        have hfix : ∀ j : Nat, (0 : Nat) + j = j := fun j => Nat.zero_add j
        refine ⟨σ0, m, r, rfl, ?_, ?_, ?_, ?_⟩
        · intro j hj
          have hh := hfail j hj
          rw [hfix j] at hh
          exact hh
        · have := hsucc
          rw [hfix m] at this
          exact this
        · rcases hft : r.2.1 with _ | _
          · rfl
          · exact absurd hft hne
        · rcases hft : r.2.1 with _ | _
          · rw [← h, hft]
          · exact absurd hft hne
  · intro σ E fuel id hlt
    rw [starTwoTrial]
    rw [if_pos hlt]
  · intro fuel
    induction fuel with
    | zero =>
        intro σ E id t f σf h hne
        rw [starTwoTrial] at h
        cases h
    | succ n ih =>
        intro σ E id t f σf h hne
        rw [starTwoTrial] at h
        by_cases hlt : num_combatants_alive (turn σ).2 UnitType.Elf < E
        · rw [if_pos hlt] at h
          have hf : f = UnitType.Goblin := by
            have := (Option.some.inj h)
            exact (congrArg (fun q => q.2.1) this).symm
          exact absurd hf hne
        · rw [if_neg hlt] at h
          rcases hres : (turn σ).1.2 with _ | f' <;> rw [hres] at h
          · rcases ih (turn σ).2 E (id + 1) t f σf h hne with ⟨m, hσf, hcheck⟩
            refine ⟨m + 1, hσf, ?_⟩
            intro n' h1 h2
            cases n' with
            | zero => omega
            | succ nn =>
                cases nn with
                | zero =>
                    show E ≤ num_combatants_alive (turnIter 0 (turn σ).2) UnitType.Elf
                    exact Nat.le_of_not_lt hlt
                | succ nnn =>
                    show E ≤ num_combatants_alive
                      (turnIter (nnn + 1) (turn σ).2) UnitType.Elf
                    exact hcheck (nnn + 1) (by omega) (by omega)
          · dsimp only at h
            have heq := Option.some.inj h
            have hσf : σf = (turn σ).2 := (congrArg (fun q => q.2.2) heq).symm
            refine ⟨0, by rw [hσf]; rfl, ?_⟩
            intro n' h1 h2
            have : n' = 1 := by omega
            subst this
            show E ≤ num_combatants_alive (turnIter 0 (turn σ).2) UnitType.Elf
            exact Nat.le_of_not_lt hlt

/-- Witness for C4: `star_two` on `exC1` succeeds at the very first power
(4), and the successful no-elf-death trial on `gsC1` (initial elf count 0
disables nothing here: with one elf, power 4 wins without deaths). -/
theorem star_two_increasing_power_search_witness :
    star_two exC1 5 200 = some 2650 ∧
    (∃ σ0 m r, GameState.fromStr exC1 = some σ0 ∧
      (∀ j, j < m → ∃ rj,
        starTwoTrial 200 0 (num_combatants_alive σ0 UnitType.Elf)
          (cheat σ0 (4 + j)) = some rj ∧ rj.2.1 = UnitType.Goblin) ∧
      starTwoTrial 200 0 (num_combatants_alive σ0 UnitType.Elf)
        (cheat σ0 (4 + m)) = some r ∧ r.2.1 = UnitType.Elf ∧
      2650 = r.1 * remaining_health_for_faction r.2.2 UnitType.Elf) ∧
    (num_combatants_alive (turn gsC1).2 UnitType.Elf < 5 ∧
      starTwoTrial 1 0 5 gsC1 = some (0, UnitType.Goblin, (turn gsC1).2)) ∧
    (∃ m, ((starTwoTrial 200 0 0 gsC1).getD (0, UnitType.Elf, gsC1)).2.2 =
        turnIter (m + 1) gsC1 ∧
      ∀ n, 1 ≤ n → n ≤ m + 1 →
        0 ≤ num_combatants_alive (turnIter n gsC1) UnitType.Elf) :=
  ⟨by decide,
    star_two_increasing_power_search.1 exC1 5 200 2650 (by decide),
    ⟨by decide, star_two_increasing_power_search.2.1 gsC1 5 0 0 (by decide)⟩,
    star_two_increasing_power_search.2.2 200 gsC1 0 0 67 UnitType.Elf
      ((starTwoTrial 200 0 0 gsC1).getD (0, UnitType.Elf, gsC1)).2.2
      (by decide) (by decide)⟩

/-! ### Claim C7 -/

/-- C7: each round processes exactly the round-start registry entries (the
snapshot is a permutation of the registry), once each, in ascending reading
order of their round-start locations (the snapshot is sorted by `snapLe` and,
for a registry without duplicate keys, visits each location once); a unit
found dead when its turn comes is skipped with no state change; a unit about
to act with no living enemy anywhere halts the engine, reporting the round
incomplete (`false`) with the surviving faction and leaving the state as it
was. -/
theorem round_schedule_and_halting :
    (∀ σ : GameState,
      turn σ = turnGo (List.insertionSort snapLe σ.combatants) σ ∧
      List.Perm (List.insertionSort snapLe σ.combatants) σ.combatants ∧
      (List.insertionSort snapLe σ.combatants).Sorted snapLe) ∧
    (∀ σ : GameState, NodupKeys σ.combatants →
      NodupKeys (List.insertionSort snapLe σ.combatants)) ∧
    (∀ (loc : Location) (uid : Nat) (rest : List (Location × Nat)) (σ : GameState),
      enemies_alive σ (heapGet σ.heap uid) →
      (heapGet σ.heap uid).is_dead = true →
      turnGo ((loc, uid) :: rest) σ = turnGo rest σ) ∧
    (∀ (loc : Location) (uid : Nat) (rest : List (Location × Nat)) (σ : GameState),
      ¬ enemies_alive σ (heapGet σ.heap uid) →
      turnGo ((loc, uid) :: rest) σ =
        ((false, some (heapGet σ.heap uid).unit_type), σ)) := by
  refine ⟨?_, ?_, ?_, ?_⟩
  · intro σ
    exact ⟨rfl, List.perm_insertionSort snapLe σ.combatants,
      List.sorted_insertionSort snapLe σ.combatants⟩
  · intro σ h
    unfold NodupKeys at *
    exact ((List.perm_insertionSort snapLe σ.combatants).map Prod.fst).nodup_iff.mpr h
  · intro loc uid rest σ halive hdead
    rw [turnGo, if_neg (by simpa using halive), hdead]
    simp
  · intro loc uid rest σ hdead
    rw [turnGo, if_pos (by simpa using hdead)]

/-- Witness for C7 on the concrete states `gsC1`, `gsDead` and `gsHalt`. -/
theorem round_schedule_and_halting_witness :
    (turn gsC1 = turnGo (List.insertionSort snapLe gsC1.combatants) gsC1 ∧
      List.Perm (List.insertionSort snapLe gsC1.combatants) gsC1.combatants ∧
      (List.insertionSort snapLe gsC1.combatants).Sorted snapLe) ∧
    (NodupKeys gsC1.combatants ∧
      NodupKeys (List.insertionSort snapLe gsC1.combatants)) ∧
    (enemies_alive gsDead (heapGet gsDead.heap 0) ∧
      (heapGet gsDead.heap 0).is_dead = true ∧
      turnGo [((1, 1), 0)] gsDead = turnGo [] gsDead) ∧
    (¬ enemies_alive gsHalt (heapGet gsHalt.heap 0) ∧
      turnGo [((1, 1), 0)] gsHalt =
        ((false, some (heapGet gsHalt.heap 0).unit_type), gsHalt)) :=
  ⟨round_schedule_and_halting.1 gsC1,
    ⟨by decide, round_schedule_and_halting.2.1 gsC1 (by decide)⟩,
    ⟨by decide, by decide,
      round_schedule_and_halting.2.2.1 (1, 1) 0 [] gsDead (by decide) (by decide)⟩,
    ⟨by decide,
      round_schedule_and_halting.2.2.2 (1, 1) 0 [] gsHalt (by decide)⟩⟩

end Day15
